import Mathlib

/-!
Shallow embedding of the stockex limit order book core, translated from the
repository sources, together with theorems settling the frozen claims.

Source map:
* `src/src/models/basic_types.hpp` — Side, Price (int64), Quantity (uint32), ids.
* `src/src/models/constants.hpp` — MAX_PRICE_LEVELS, MAX_MATCH_EVENTS, ...
* `src/src/models/order.hpp` — the vector-based soft-delete OrderQueue,
  PriceLevel and Order that `src/src/engine/order_book.cpp` compiles against.
* `src/src/engine/order_book.cpp` / `order_book.hpp` — the OrderBook operations.
* `src/src/models/order_queue.hpp` (USE_BITMAP_QUEUE branch) — the chunked
  bitmap OrderQueue (namespace `Bitmap` below).

Machine integers are modelled as `Nat`/`Int`.  The one place where unsigned
wrap-around is semantically relevant — `OrderBook::getPriceIndex`, where the
`int64_t` price is converted to `std::size_t` by the usual arithmetic
conversions because `MAX_PRICE_LEVELS` is `std::size_t` — is modelled with an
explicit `% 2^64`.  Counters such as queue sizes never approach `2^32`/`2^64`
in any state reachable through the public interface (allocator capacities are
bounded far below), so they are plain `Nat`.

Pointer structure is flattened in the standard way for a shallow embedding:
* a circular doubly-linked price-level chain with a designated `best` pointer
  is represented by the finite list of its levels starting at `best` and
  following `next_` links (the circle closes back at the head);
* a `models::Order*` stored in the per-client table is represented by the
  `Order` record it points to, with `nullptr` represented by `none`;
* operations that dereference a possibly-null pointer return `Option`, and
  `none` marks exactly the executions in which the C++ dereferences a null
  pointer (undefined behaviour).
-/

namespace Stockex

/-- Side enum from `basic_types.hpp`: `INVALID = 0, BUY = 1, SELL = 2`. -/
inductive Side where
  | INVALID
  | BUY
  | SELL
  deriving DecidableEq, Repr

/-- `constants.hpp`: maximum price level depth (a `std::size_t`, value 256). -/
def MAX_PRICE_LEVELS : Nat := 256

/-- `constants.hpp`: per-call cap on emitted match events (value 100). -/
def MAX_MATCH_EVENTS : Nat := 100

/-- `order.hpp` `BasicOrder`: the per-slot record of the vector order queue. -/
structure BasicOrder where
  orderId_ : Nat
  qty_ : Nat
  clientId_ : Nat
  deleted_ : Bool := false
  deriving DecidableEq, Repr

/-- `order.hpp` `QueuePosition`: logical slot index plus the queue offset at
insertion time (both `uint32_t`). -/
structure QueuePosition where
  logicalIndex_ : Nat := 0
  offsetAtInsert_ : Nat := 0
  deriving DecidableEq, Repr

/-- `order.hpp` `OrderQueue` state: the slot vector, `tail_`, `head_`,
`offset` and the live-order counter `size_`.  (`compact()` is never called in
the source — its one call site in `front()` is commented out — so `offset`
stays `0` in every reachable state, but it is carried faithfully.) -/
structure OrderQueue where
  orders_ : List BasicOrder := []
  tail_ : Nat := 0
  head_ : Nat := 0
  offset : Nat := 0
  size_ : Nat := 0
  deriving DecidableEq, Repr

/-- `OrderQueue::push`: write at `tail_` if it is inside the vector, else
`push_back`; returns the handle `(index, offset)`. -/
def OrderQueue.push (q : OrderQueue) (o : BasicOrder) : OrderQueue × QueuePosition :=
  if q.tail_ < q.orders_.length then
    ({ q with orders_ := q.orders_.set q.tail_ o, tail_ := q.tail_ + 1, size_ := q.size_ + 1 },
     { logicalIndex_ := q.tail_, offsetAtInsert_ := q.offset })
  else
    ({ q with orders_ := q.orders_ ++ [o], tail_ := q.tail_ + 1, size_ := q.size_ + 1 },
     { logicalIndex_ := q.orders_.length, offsetAtInsert_ := q.offset })

/-- Scan of the suffix `l.drop i` for the first non-deleted slot, returning
its absolute index (or the length of the list when none is live). -/
def firstLiveAux : List BasicOrder → Nat → Nat
  | [], i => i
  | o :: rest, i => if o.deleted_ then firstLiveAux rest (i + 1) else i

/-- The head-advance loop of `OrderQueue::front`:
`while (head_ != orders_.size() && orders_[head_].deleted_) head_++`.
The loop inspects the slots `i, i+1, ...` in order, which is the scan of
`l.drop i`. -/
def firstLiveIdx (l : List BasicOrder) (i : Nat) : Nat :=
  firstLiveAux (l.drop i) i

/-- `OrderQueue::front` (mutable): advance `head_` past deleted slots, then
return a pointer to the slot.  When the loop runs off the end the source reads
`orders_[orders_.size()]`, one past the end of the vector (undefined
behaviour); that read is modelled by the `none` result of `l[h]?`. -/
def OrderQueue.front (q : OrderQueue) : OrderQueue × Option BasicOrder :=
  let h := firstLiveIdx q.orders_ q.head_
  ({ q with head_ := h },
    match q.orders_[h]? with
    | some o => if o.deleted_ then none else some o
    | none => none)

/-- `OrderQueue::remove(pos)`: soft-delete the slot named by the position and
decrement `size_`.  An out-of-range index would be an out-of-bounds vector
write in the source; it is modelled as leaving the vector unchanged and never
arises for positions handed out by `push`. -/
def OrderQueue.remove (q : OrderQueue) (pos : QueuePosition) : OrderQueue :=
  let tgt := if pos.offsetAtInsert_ = q.offset then pos.logicalIndex_
             else pos.logicalIndex_ - q.offset
  match q.orders_[tgt]? with
  | some o =>
      { q with orders_ := q.orders_.set tgt { o with deleted_ := true }, size_ := q.size_ - 1 }
  | none => { q with size_ := q.size_ - 1 }

/-- `OrderQueue::empty`. -/
def OrderQueue.empty (q : OrderQueue) : Bool := q.size_ == 0

/-- The live (non-soft-deleted) orders of a queue, in FIFO order.  This is the
abstraction the FIFO statements are phrased in. -/
def liveOrders (q : OrderQueue) : List BasicOrder :=
  q.orders_.filter (fun o => !o.deleted_)

/-- `order.hpp` `PriceLevel`: side, price, and the level's order queue.  The
intrusive `prev_`/`next_` links are represented by the level's position in its
side's chain list (see `OrderBook`). -/
structure PriceLevel where
  side_ : Side
  price_ : Int
  orders : OrderQueue := {}
  deriving DecidableEq, Repr

/-- `PriceLevel::isMatchable(p)`:
`side_ == Side::BUY ? price_ >= p : price_ <= p`. -/
def PriceLevel.isMatchable (L : PriceLevel) (p : Int) : Bool :=
  if L.side_ = Side.BUY then decide (L.price_ ≥ p) else decide (L.price_ ≤ p)

/-- `PriceLevel::isBetter(p)`:
`side_ == Side::BUY ? price_ > p->price_ : price_ < p->price_`. -/
def PriceLevel.isBetter (L other : PriceLevel) : Bool :=
  if L.side_ = Side.BUY then decide (L.price_ > other.price_)
  else decide (L.price_ < other.price_)

/-- `order.hpp` `Order` (the record the per-client table points at), minus the
instrument id, which no book operation reads. -/
structure Order where
  position_ : QueuePosition := {}
  clientOrderId_ : Nat
  marketOrderId_ : Nat
  price_ : Int
  qty_ : Nat
  clientId_ : Nat
  side_ : Side
  deriving DecidableEq, Repr

/-- Lookup in the per-client table `clientOrders_[clientId][clientOrderId]`.
The fixed-size array-of-arrays is modelled as an association list keyed by
`(clientId, clientOrderId)`; an absent key is the `nullptr` entry. -/
def lookupOrder : List ((Nat × Nat) × Order) → Nat × Nat → Option Order
  | [], _ => none
  | e :: rest, k => if e.1 = k then some e.2 else lookupOrder rest k

/-- Remove a key from the per-client table (`clientOrders_[c][o] = nullptr`). -/
def eraseOrderKey : List ((Nat × Nat) × Order) → Nat × Nat → List ((Nat × Nat) × Order)
  | [], _ => []
  | e :: rest, k => if e.1 = k then eraseOrderKey rest k else e :: eraseOrderKey rest k

/-- Array-write semantics for `clientOrders_[c][o] = order`. -/
def setOrder (m : List ((Nat × Nat) × Order)) (k : Nat × Nat) (v : Order) :
    List ((Nat × Nat) × Order) :=
  eraseOrderKey m k ++ [(k, v)]

/-- `OrderBook::getPriceIndex`: `price % MAX_PRICE_LEVELS`.  `price` is
`int64_t` and `MAX_PRICE_LEVELS` is `std::size_t`, so the usual arithmetic
conversions convert the price to `uint64_t` (wrapping mod `2^64`) and the
modulus is computed unsigned.  The deduced return type is `std::size_t`. -/
def getPriceIndex (price : Int) : Nat :=
  ((price % ((2 : Int) ^ 64)).toNat) % MAX_PRICE_LEVELS

/-- Walk a chain for the first level whose price index equals `idx`; returns
its position in the chain list.  Together with `OrderBook.findLevel` this
models the direct-address table `priceLevels_[]`: the table slot `idx` is
non-null exactly when some active level has that price index (levels are
entered into the table when created and cleared when destroyed, and a second
level with an occupied index is never created, because `addOrder` finds the
occupant and pushes into it instead). -/
def findLevelIdx : List PriceLevel → Nat → Option Nat
  | [], _ => none
  | L :: rest, idx =>
      if getPriceIndex L.price_ = idx then some 0
      else (findLevelIdx rest idx).map (· + 1)

/-- `engine/order_book.hpp` `MatchResult`. -/
structure MatchResult where
  incomingOrderId_ : Nat
  matchedOrderId_ : Nat
  price_ : Int
  quantity_ : Nat
  matchedOrderRemainingQty_ : Nat
  incomingClientId_ : Nat
  matchedClientId_ : Nat
  incomingOrderSide_ : Side
  matchedOrderSide_ : Side
  deriving DecidableEq, Repr

/-- `engine/order_book.hpp` `MatchResultSet`.  The span over the book's match
buffer is modelled as the list of records in emission order. -/
structure MatchResultSet where
  matches_ : List MatchResult
  remainingQuantity_ : Nat
  instrument_ : Nat
  overflow_ : Bool
  deriving DecidableEq, Repr

/-- The order book of `engine/order_book.cpp`.  `bids_` is the circular chain
of buy levels listed from `bestBid_` following `next_`; `asks_` likewise from
`bestAsk_`.  An empty list is a null best pointer.  The direct-address table
`priceLevels_` is recovered by `findLevel` (see `findLevelIdx`). -/
structure OrderBook where
  bids_ : List PriceLevel := []
  asks_ : List PriceLevel := []
  clientOrders_ : List ((Nat × Nat) × Order) := []
  instrument_ : Nat := 0
  deriving DecidableEq, Repr

/-- The chain holding the levels of one side. -/
def OrderBook.chainOf (b : OrderBook) (s : Side) : List PriceLevel :=
  if s = Side.BUY then b.bids_ else b.asks_

/-- Replace one side's chain. -/
def OrderBook.setChain (b : OrderBook) (s : Side) (ls : List PriceLevel) : OrderBook :=
  if s = Side.BUY then { b with bids_ := ls } else { b with asks_ := ls }

/-- `OrderBook::getPriceLevel(price)`: the table lookup
`priceLevels_[getPriceIndex(price)]`, as the position of the (unique) active
level whose price index matches.  Bids are scanned before asks; in any state
the book can construct, at most one active level has a given index. -/
def OrderBook.findLevel (b : OrderBook) (price : Int) : Option (Side × Nat) :=
  match findLevelIdx b.bids_ (getPriceIndex price) with
  | some i => some (Side.BUY, i)
  | none =>
      match findLevelIdx b.asks_ (getPriceIndex price) with
      | some i => some (Side.SELL, i)
      | none => none

/-- Overwrite the level at position `i` of side `s`. -/
def OrderBook.setLevel (b : OrderBook) (s : Side) (i : Nat) (L : PriceLevel) : OrderBook :=
  b.setChain s ((b.chainOf s).set i L)

/-- The walk of `OrderBook::addPriceLevel` starting at `bestPriceLevel->next_`
(the tail of the chain list): advance while the new level is not better than
the current node; insert before the first node it is better than
(`pushBefore(currentPriceLevel, priceLevel)`); if the walk returns to the best
without finding one, `addAtTheEnd` holds and
`pushAfter(bestPriceLevel->prev_, priceLevel)` appends it at the end of the
chain.  (The source re-tests the best node itself in a single-node chain; that
test is known false from the caller's branch and is omitted.) -/
def walkInsert (L : PriceLevel) : List PriceLevel → List PriceLevel
  | [] => [L]
  | c :: rest => if L.isBetter c then L :: c :: rest else c :: walkInsert L rest

/-- Chain splice of `OrderBook::addPriceLevel`: null best, better-than-best,
or the forward walk. -/
def spliceLevel (ls : List PriceLevel) (L : PriceLevel) : List PriceLevel :=
  match ls with
  | [] => [L]
  | best :: rest => if L.isBetter best then L :: best :: rest else best :: walkInsert L rest

/-- `OrderBook::addOrder`.  If no level matches the price index, a level is
allocated, seeded with the order and spliced (`addPriceLevel`); otherwise the
order is pushed into the found level.  Either way the per-client table entry
is written.  The `Order` record stores the push position, the call's price and
side — even when the table lookup aliased to a level of a different price or
side, which the source does not check. -/
def OrderBook.addOrder (b : OrderBook) (clientId clientOrderId marketOrderId : Nat)
    (side : Side) (price : Int) (quantity : Nat) : OrderBook :=
  match b.findLevel price with
  | none =>
      let L0 : PriceLevel := { side_ := side, price_ := price, orders := {} }
      let pr := L0.orders.push { orderId_ := clientOrderId, qty_ := quantity, clientId_ := clientId }
      let L : PriceLevel := { L0 with orders := pr.1 }
      let order : Order :=
        { position_ := pr.2, clientOrderId_ := clientOrderId, marketOrderId_ := marketOrderId,
          price_ := price, qty_ := quantity, clientId_ := clientId, side_ := side }
      let b1 := if side = Side.BUY then { b with bids_ := spliceLevel b.bids_ L }
                else { b with asks_ := spliceLevel b.asks_ L }
      { b1 with clientOrders_ := setOrder b1.clientOrders_ (clientId, clientOrderId) order }
  | some si =>
      match (b.chainOf si.1)[si.2]? with
      | none => b
      | some L =>
          let pr := L.orders.push { orderId_ := clientOrderId, qty_ := quantity, clientId_ := clientId }
          let order : Order :=
            { position_ := pr.2, clientOrderId_ := clientOrderId, marketOrderId_ := marketOrderId,
              price_ := price, qty_ := quantity, clientId_ := clientId, side_ := side }
          let b1 := b.setLevel si.1 si.2 { L with orders := pr.1 }
          { b1 with clientOrders_ := setOrder b1.clientOrders_ (clientId, clientOrderId) order }

/-- `OrderBook::removePriceLevel(side, price)`.  The level is located through
the table; `priceLevel->next_ == priceLevel` (a singleton circle) empties the
side, otherwise the level is unlinked, and when the best held the same price
the best pointer moves to `priceLevel->next_` — for the head of the chain list
that is exactly `eraseIdx`.  A null table slot would be dereferenced by the
source (`none` here). -/
def OrderBook.removePriceLevel (b : OrderBook) (price : Int) : Option OrderBook :=
  match b.findLevel price with
  | none => none
  | some si =>
      let chain := b.chainOf si.1
      if chain.length = 1 then some (b.setChain si.1 [])
      else some (b.setChain si.1 (chain.eraseIdx si.2))

/-- `OrderBook::removeOrder`.  The source reads the per-client entry and
dereferences it with no null check: for an id that is not resting the entry is
`nullptr` and the load `order->price_` is undefined behaviour, modelled by
`none`.  Likewise the price-level pointer is used unguarded. -/
def OrderBook.removeOrder (b : OrderBook) (clientId orderId : Nat) : Option OrderBook :=
  match lookupOrder b.clientOrders_ (clientId, orderId) with
  | none => none
  | some order =>
      match b.findLevel order.price_ with
      | none => none
      | some si =>
          match (b.chainOf si.1)[si.2]? with
          | none => none
          | some L =>
              let q := L.orders.remove order.position_
              let b1 := b.setLevel si.1 si.2 { L with orders := q }
              let b2 := { b1 with
                          clientOrders_ := eraseOrderKey b1.clientOrders_ (clientId, orderId) }
              if q.size_ = 0 then b2.removePriceLevel order.price_ else some b2

/-- `OrderBook::getOrder`: the per-client table entry (a null pointer reads
back as `none`). -/
def OrderBook.getOrder (b : OrderBook) (clientId orderId : Nat) : Option Order :=
  lookupOrder b.clientOrders_ (clientId, orderId)

/-- Overwrite the qty of slot `i` (the in-place `matchedOrder->qty -= m`
through the pointer returned by `front`). -/
def queueSetQty (q : OrderQueue) (i : Nat) (newQty : Nat) : OrderQueue :=
  match q.orders_[i]? with
  | some o => { q with orders_ := q.orders_.set i { o with qty_ := newQty } }
  | none => q

/-- Replace the head of a list, if any. -/
def replaceHead : List PriceLevel → PriceLevel → List PriceLevel
  | [], _ => []
  | _ :: rest, L => L :: rest

/-- The chain `match` consumes: the opposite side of the aggressor
(`side == BUY ? bestAsk_ : bestBid_`). -/
def OrderBook.oppChain (b : OrderBook) (side : Side) : List PriceLevel :=
  if side = Side.BUY then b.asks_ else b.bids_

/-- Overwrite the head level of the opposite chain. -/
def OrderBook.setOppHead (b : OrderBook) (side : Side) (L : PriceLevel) : OrderBook :=
  if side = Side.BUY then { b with asks_ := replaceHead b.asks_ L }
  else { b with bids_ := replaceHead b.bids_ L }

/-- The `while` loop of `OrderBook::match`.  Each iteration takes the front
order of the best opposite level, trades `min(remaining, front.qty)` at the
level's price, emits a record, and fully-filled resting orders are removed via
`removeOrder` (which also drops the level when it empties, moving the best
pointer).  `none` marks the undefined executions (null `front`, or
`removeOrder` on an incoherent table).  The loop terminates because
`matchCount` strictly increases and is bounded by `MAX_MATCH_EVENTS`; `fuel`
makes that bound a structural recursion measure — the caller passes
`fuel = MAX_MATCH_EVENTS - matchCount`, so the fuel-exhaustion arm (also
`none`) is never reached: the guard `matchCount < MAX_MATCH_EVENTS` fails
first. -/
def OrderBook.matchLoop (b : OrderBook) (clientId orderId : Nat) (side : Side) (price : Int)
    (remainingQuantity : Nat) (matchCount : Nat) (fuel : Nat) (acc : List MatchResult) :
    Option (OrderBook × Nat × Nat × List MatchResult) :=
  match b.oppChain side with
  | [] => some (b, remainingQuantity, matchCount, acc)
  | best :: _ =>
      if remainingQuantity ≠ 0 ∧ best.isMatchable price = true ∧
          matchCount < MAX_MATCH_EVENTS then
        match fuel with
        | 0 => none
        | fuel2 + 1 =>
            let fr := best.orders.front
            match fr.2 with
            | none => none
            | some mo =>
                let matchedQty := min remainingQuantity mo.qty_
                let remaining2 := remainingQuantity - matchedQty
                let moQty2 := mo.qty_ - matchedQty
                let q2 := queueSetQty fr.1 fr.1.head_ moQty2
                let b1 := b.setOppHead side { best with orders := q2 }
                let record : MatchResult :=
                  { incomingOrderId_ := orderId, matchedOrderId_ := mo.orderId_,
                    price_ := best.price_, quantity_ := matchedQty,
                    matchedOrderRemainingQty_ := moQty2, incomingClientId_ := clientId,
                    matchedClientId_ := mo.clientId_, incomingOrderSide_ := side,
                    matchedOrderSide_ := best.side_ }
                if moQty2 = 0 then
                  match b1.removeOrder mo.clientId_ mo.orderId_ with
                  | none => none
                  | some b2 =>
                      b2.matchLoop clientId orderId side price remaining2 (matchCount + 1)
                        fuel2 (acc ++ [record])
                else
                  b1.matchLoop clientId orderId side price remaining2 (matchCount + 1)
                    fuel2 (acc ++ [record])
      else some (b, remainingQuantity, matchCount, acc)

/-- `OrderBook::match`: run the loop from `(qty, 0)`, then the post-loop
overflow test `matchCount == MAX_MATCH_EVENTS && bestPriceLevel &&
bestPriceLevel->isMatchable(price)`. -/
def OrderBook.matchOrder (b : OrderBook) (clientId orderId : Nat) (side : Side)
    (price : Int) (quantity : Nat) : Option (OrderBook × MatchResultSet) :=
  match b.matchLoop clientId orderId side price quantity 0 MAX_MATCH_EVENTS [] with
  | none => none
  | some r =>
      let b2 := r.1
      let overflow :=
        decide (r.2.2.1 = MAX_MATCH_EVENTS) &&
          (match b2.oppChain side with
           | [] => false
           | best :: _ => best.isMatchable price)
      some (b2, { matches_ := r.2.2.2, remainingQuantity_ := r.2.1,
                  instrument_ := b2.instrument_, overflow_ := overflow })

/-!
The chunked bitmap order queue of `models/order_queue.hpp`
(`USE_BITMAP_QUEUE` branch).

The per-chunk validity bitmap is stored in the source as
`NumBitmapWords = ceil(ChunkSize / 64)` words of 64 bits; slot `i` maps to bit
`i % 64` of word `i / 64`.  The embedding packs the words into a single `Nat`
little-endian (bit `i` of the `Nat` is bit `i % 64` of word `i / 64`), which
is a bijection on states; each word operation of the source is translated to
the image operation on the packed bitmap.  Chunks are identified by an
allocation counter standing for the pool pointer; a `Handle`'s chunk pointer
is `none` for null, or the id of the chunk it points at.  A queue owns the
chunk list `headChunk_ .. tailChunk_` (the empty list is the
`headChunk_ == tailChunk_ == nullptr` state).
-/

namespace Bitmap

/-- `order_queue.hpp` `BasicOrder` (bitmap branch: no `deleted_` flag). -/
structure BasicOrder where
  orderId_ : Nat
  qty_ : Nat
  clientId_ : Nat
  deriving DecidableEq, Repr

/-- A `Chunk`: slot array (slots ever written, in write order — `orders.length
= highWaterMark` in every constructed chunk), packed validity bitmap, and
high-water mark.  The `next`/`prev` links are the chunk's position in the
queue's chunk list. -/
structure Chunk where
  chunkId : Nat
  orders : List BasicOrder
  validityBitmap : Nat
  highWaterMark : Nat
  deriving DecidableEq, Repr

/-- `OrderHandle`: chunk pointer (null = `none`) and slot index. -/
structure Handle where
  chunk_ : Option Nat
  index_ : Nat
  deriving DecidableEq, Repr

/-- The queue: chunk chain from head to tail, head cursor, live count, and the
allocator's fresh-id counter. -/
structure OrderQueue where
  chunks : List Chunk
  headOrderIndex_ : Nat
  totalSize_ : Nat
  nextChunkId : Nat
  deriving DecidableEq, Repr

/-- Number of bits the word array holds: `64 * NumBitmapWords`. -/
def numBitmapBits (C : Nat) : Nat := 64 * ((C + 63) / 64)

/-- The queue right after the constructor's `allocateNewChunk()`. -/
def initQueue : OrderQueue :=
  { chunks := [{ chunkId := 0, orders := [], validityBitmap := 0, highWaterMark := 0 }],
    headOrderIndex_ := 0, totalSize_ := 0, nextChunkId := 1 }

/-- `OrderQueue::push`.  The source begins with
`if (tailChunk_->highWaterMark >= ChunkSize) allocateNewChunk();` — when
`tailChunk_` is null this dereferences it with **no null check**; that
execution is the `none` result.  Otherwise: append a fresh chunk when the tail
is full, write the order at the tail's high-water mark, set its validity bit
(`validityBitmap[wordIndex] |= 1 << bitIndex`, i.e. `ornot` set on the packed
bitmap), bump the mark and the live count, and return the handle. -/
def push (C : Nat) (q : OrderQueue) (o : BasicOrder) : Option (OrderQueue × Handle) :=
  match q.chunks.getLast? with
  | none => none
  | some tail0 =>
      let appended := tail0.highWaterMark ≥ C
      let base := if appended
        then q.chunks ++ [{ chunkId := q.nextChunkId, orders := [], validityBitmap := 0,
                            highWaterMark := 0 }]
        else q.chunks
      let nid := if appended then q.nextChunkId + 1 else q.nextChunkId
      match base.getLast? with
      | none => none
      | some tail =>
          let index := tail.highWaterMark
          let tail2 : Chunk :=
            { tail with orders := tail.orders ++ [o],
                        validityBitmap := tail.validityBitmap ||| (1 <<< index),
                        highWaterMark := tail.highWaterMark + 1 }
          some ({ chunks := base.dropLast ++ [tail2], headOrderIndex_ := q.headOrderIndex_,
                  totalSize_ := q.totalSize_ + 1, nextChunkId := nid },
                { chunk_ := some tail.chunkId, index_ := index })

/-- Find the handle's chunk among the queue's live chunks and clear the bit if
set (`validityBitmap[wordIndex] &= ~mask`, which on a set bit is subtraction
of `2^index` on the packed bitmap).  Returns the updated chain and whether the
bit was set.  A handle naming a chunk that is not in the chain points at freed
pool memory in the source (undefined behaviour): `none`. -/
def removeBitInChunks : List Chunk → Nat → Nat → Option (List Chunk × Bool)
  | [], _, _ => none
  | ch :: rest, cid, idx =>
      if ch.chunkId = cid then
        if ch.validityBitmap.testBit idx then
          some ({ ch with validityBitmap := ch.validityBitmap - (1 <<< idx) } :: rest, true)
        else some (ch :: rest, false)
      else (removeBitInChunks rest cid idx).map (fun r => (ch :: r.1, r.2))

/-- `OrderQueue::remove(handle)`: the null-pointer guard `if (handle.chunk_)`,
then clear-and-decrement only when the bit was set. -/
def remove (q : OrderQueue) (h : Handle) : Option OrderQueue :=
  match h.chunk_ with
  | none => some q
  | some cid =>
      match removeBitInChunks q.chunks cid h.index_ with
      | none => none
      | some r =>
          if r.2 then some { q with chunks := r.1, totalSize_ := q.totalSize_ - 1 }
          else some { q with chunks := r.1 }

/-- Least set bit of `bm` in `[start, bound)`.  This is the net effect of the
word loop in `advanceHead`/`front() const`: mask off the bits below `start` in
the containing word, scan forward for the first non-zero word, and take its
count-trailing-zeros. -/
def findBitGe (bm : Nat) (start bound : Nat) : Option Nat :=
  if h : start < bound then
    if bm.testBit start then some start else findBitGe bm (start + 1) bound
  else none
termination_by bound - start

/-- One chunk's scan in `advanceHead`: the found bit position must also be
below the high-water mark (`foundIndex < highWaterMark`); a found bit at or
above it makes the remaining words fail the same test (all later bits are
larger still), so the chunk counts as drained. -/
def scanChunk (C : Nat) (ch : Chunk) (start : Nat) : Option Nat :=
  match findBitGe ch.validityBitmap start (numBitmapBits C) with
  | some j => if j < ch.highWaterMark then some j else none
  | none => none

/-- The `while (headChunk_ != nullptr)` loop of `advanceHead`: scan the head
chunk from the cursor; on success park the cursor there; on a drained chunk
free it (`allocator_.free`), which for the last chunk nulls both head and tail
(`([], 0)`), else move to the successor with cursor `0`. -/
def advanceLoop (C : Nat) : List Chunk → Nat → List Chunk × Nat
  | [], i => ([], i)
  | ch :: rest, i =>
      match scanChunk C ch i with
      | some j => (ch :: rest, j)
      | none =>
          match rest with
          | [] => ([], 0)
          | _ :: _ => advanceLoop C rest 0

/-- `OrderQueue::advanceHead`: early return when empty, else the loop. -/
def advanceHead (C : Nat) (q : OrderQueue) : OrderQueue :=
  if q.totalSize_ = 0 then q
  else
    let r := advanceLoop C q.chunks q.headOrderIndex_
    { q with chunks := r.1, headOrderIndex_ := r.2 }

/-- `OrderQueue::pop`: advance, early return when empty, else
`remove({headChunk_, headOrderIndex_})`.  The head chunk is in the chain, so
the `remove` call is defined; the fallback arms mirror `remove`'s null-handle
no-op and are unreachable. -/
def pop (C : Nat) (q : OrderQueue) : OrderQueue :=
  let q1 := advanceHead C q
  if q1.totalSize_ = 0 then q1
  else
    match q1.chunks with
    | [] => q1
    | ch :: _ =>
        match remove q1 { chunk_ := some ch.chunkId, index_ := q1.headOrderIndex_ } with
        | some q2 => q2
        | none => q1

/-- `OrderQueue::front` (mutable): advance, then
`empty() ? nullptr : &headChunk_->orders[headOrderIndex_]`. -/
def front (C : Nat) (q : OrderQueue) : OrderQueue × Option BasicOrder :=
  let q1 := advanceHead C q
  if q1.totalSize_ = 0 then (q1, none)
  else
    match q1.chunks with
    | [] => (q1, none)
    | ch :: _ => (q1, ch.orders[q1.headOrderIndex_]?)

/-- `OrderQueue::empty`. -/
def emptyQ (q : OrderQueue) : Bool := q.totalSize_ == 0

/-- `OrderQueue::size`. -/
def size (q : OrderQueue) : Nat := q.totalSize_

/-- States reachable from the freshly constructed queue by the public
operations (`remove` steps are those whose handle does not point at freed
memory, i.e. the executions that are defined). -/
inductive Reach (C : Nat) : OrderQueue → Prop where
  | init : Reach C initQueue
  | pushStep {q q2 h o} : Reach C q → push C q o = some (q2, h) → Reach C q2
  | removeStep {q q2 h} : Reach C q → remove q h = some q2 → Reach C q2
  | popStep {q} : Reach C q → Reach C (pop C q)
  | frontStep {q} : Reach C q → Reach C (front C q).1

end Bitmap

/-! Claim C10: `getPriceIndex` on negative prices. -/

/-- Claim C10 as stated is false at the concrete price `-5`: the modulus is
computed in `uint64_t` (because `MAX_PRICE_LEVELS` is `std::size_t`), so the
index is `251`, which is non-negative and in bounds for the 256-entry table —
not a negative, out-of-bounds index as the claim asserts. -/
theorem c10_counterexample :
    Stockex.getPriceIndex (-5) = 251 ∧ 251 < Stockex.MAX_PRICE_LEVELS := by
  constructor
  · rfl
  · decide

/-- Claim C10, amended: for every price, positive or negative, the computed
index equals the mathematical non-negative residue `price mod 256` and is in
bounds for the `MAX_PRICE_LEVELS`-entry table.  Negative prices therefore
never index out of bounds; instead they alias the table bucket of the prices
congruent to them mod 256. -/
theorem c10_price_index_in_bounds (p : Int) :
    Stockex.getPriceIndex p = (p % 256).toNat ∧
      Stockex.getPriceIndex p < Stockex.MAX_PRICE_LEVELS := by
  have hdvd : ((256 : Int) ∣ (2 : Int) ^ 64) := by norm_num
  have h1 : p % (2 : Int) ^ 64 % 256 = p % 256 := Int.emod_emod_of_dvd p hdvd
  have h2 : (0 : Int) ≤ p % (2 : Int) ^ 64 := Int.emod_nonneg p (by norm_num)
  constructor
  · show (p % (2 : Int) ^ 64).toNat % 256 = (p % 256).toNat
    omega
  · show (p % (2 : Int) ^ 64).toNat % 256 < 256
    exact Nat.mod_lt _ (by norm_num)

/-! Claim C3: `removeOrder` on an id that is not resting. -/

/-- Claim C3 as stated is false at the concrete input: on the freshly
constructed book, `removeOrder(1, 100)` (an id never added) is not a silent
no-op — the source reads the null per-client entry and dereferences it
(`order->price_`), the undefined execution modelled by `none`.  There is no
defensive null check in `OrderBook::removeOrder`. -/
theorem c3_counterexample : OrderBook.removeOrder {} 1 100 = none := rfl

/-- Claim C3, amended: `removeOrder` performs no defensive check at all.  For
every book state and every `(clientId, orderId)` whose per-client entry is
null (id never added, or already cancelled/fully matched), the call
dereferences the null order pointer — undefined behaviour, `none` in the
model — rather than no-opping.  The operation is well defined only for
currently-resting ids; guarding against unknown ids is the caller's job. -/
theorem c3_remove_unknown_is_null_deref (b : OrderBook) (clientId orderId : Nat)
    (h : b.getOrder clientId orderId = none) :
    b.removeOrder clientId orderId = none := by
  unfold OrderBook.removeOrder
  unfold OrderBook.getOrder at h
  rw [h]

/-- Witness for `c3_remove_unknown_is_null_deref` at the empty book. -/
theorem c3_witness :
    OrderBook.getOrder {} 1 100 = none ∧ OrderBook.removeOrder {} 1 100 = none :=
  ⟨rfl, c3_remove_unknown_is_null_deref {} 1 100 rfl⟩

/-! Claim C9: the per-client entry after a cancel. -/

/-- Claim C9 as stated is false at a concrete input: add one order, cancel
it, and read it back — `getOrder` returns the cleared (null) entry, not the
stale pre-removal order info.  `OrderBook::removeOrder` executes
`clientOrders_[clientId][orderId] = nullptr;`, so the entry **is** cleared. -/
theorem c9_counterexample :
    ((OrderBook.addOrder {} 1 100 7 Side.BUY 100 50).removeOrder 1 100).map
        (fun b2 => b2.getOrder 1 100) = some none := by
  decide

/-- Looking up an erased key gives `none`. -/
theorem lookup_erase_self (m : List ((Nat × Nat) × Order)) (k : Nat × Nat) :
    lookupOrder (eraseOrderKey m k) k = none := by
  induction m with
  | nil => rfl
  | cons e rest ih =>
      by_cases he : e.1 = k
      · simpa [eraseOrderKey, he] using ih
      · simpa [eraseOrderKey, lookupOrder, he] using ih

/-- `removePriceLevel` never touches the per-client table. -/
theorem removePriceLevel_clientOrders (b : OrderBook) (price : Int) (b2 : OrderBook)
    (h : b.removePriceLevel price = some b2) : b2.clientOrders_ = b.clientOrders_ := by
  unfold OrderBook.removePriceLevel at h
  cases hf : b.findLevel price with
  | none => rw [hf] at h; exact absurd h (by simp)
  | some si =>
      rw [hf] at h
      by_cases hl : (b.chainOf si.1).length = 1 <;>
        simp only [hl, if_pos, if_neg, Option.some.injEq] at h <;>
        cases h <;>
        · unfold OrderBook.setChain
          by_cases hs : si.1 = Side.BUY <;> simp [hs]

/-- Claim C9, amended: after `removeOrder` cancels a resting order the
per-client entry for that id is cleared to null
(`clientOrders_[clientId][orderId] = nullptr`), so a subsequent
`getOrder(clientId, orderId)` returns the empty entry, not the stale
pre-removal order info. -/
theorem c9_removed_entry_is_cleared (b : OrderBook) (clientId orderId : Nat)
    (b2 : OrderBook) (h : b.removeOrder clientId orderId = some b2) :
    b2.getOrder clientId orderId = none := by
  unfold OrderBook.removeOrder at h
  cases hlk : lookupOrder b.clientOrders_ (clientId, orderId) with
  | none => rw [hlk] at h; exact absurd h (by simp)
  | some order =>
      simp only [hlk] at h
      cases hf : b.findLevel order.price_ with
      | none => simp only [hf] at h; exact Option.noConfusion h
      | some si =>
          simp only [hf] at h
          cases hL : (b.chainOf si.1)[si.2]? with
          | none => simp only [hL] at h; exact Option.noConfusion h
          | some L =>
              simp only [hL] at h
              set q := L.orders.remove order.position_ with hq
              set b1 := b.setLevel si.1 si.2 { L with orders := q } with hb1
              by_cases hz : q.size_ = 0
              · rw [if_pos hz] at h
                have hco := removePriceLevel_clientOrders _ _ _ h
                unfold OrderBook.getOrder
                rw [hco]
                have : b1.clientOrders_ = b.clientOrders_ := by
                  rw [hb1]
                  unfold OrderBook.setLevel OrderBook.setChain
                  by_cases hs : si.1 = Side.BUY <;> simp [hs]
                simp only [this]
                exact lookup_erase_self _ _
              · rw [if_neg hz] at h
                cases h
                unfold OrderBook.getOrder
                have : b1.clientOrders_ = b.clientOrders_ := by
                  rw [hb1]
                  unfold OrderBook.setLevel OrderBook.setChain
                  by_cases hs : si.1 = Side.BUY <;> simp [hs]
                simp only [this]
                exact lookup_erase_self _ _

/-- Witness for `c9_removed_entry_is_cleared`: the add-then-cancel book. -/
theorem c9_witness :
    ∃ b2, (OrderBook.addOrder {} 1 100 7 Side.BUY 100 50).removeOrder 1 100 = some b2 ∧
      b2.getOrder 1 100 = none := by
  cases hrem : (OrderBook.addOrder {} 1 100 7 Side.BUY 100 50).removeOrder 1 100 with
  | none => exact absurd hrem (by decide)
  | some b2 => exact ⟨b2, rfl, c9_removed_entry_is_cleared _ 1 100 b2 hrem⟩

/-! Claim C4: where `addPriceLevel` splices a new level. -/

/-- A book holding three bid levels, prices 100, 90, 80 (best first). -/
def c4Book : OrderBook :=
  ((OrderBook.addOrder {} 1 1 1 Side.BUY 100 10).addOrder 1 2 2 Side.BUY 90 10).addOrder
    1 3 3 Side.BUY 80 10

/-- Claim C4 as stated is false at a concrete input: with bid chain
`[100, 90, 80]`, adding a bid at 95 splices it before 90 — the first node the
new level `isBetter` than — giving `[100, 95, 90, 80]`.  The claim's rule
(splice before the first node `C` with `L.isBetter(C)` **false**, else at the
end) would walk past 90 and 80 (both satisfy `L.isBetter`), return to the
best, and append at the end, predicting `[100, 90, 80, 95]`. -/
theorem c4_counterexample :
    ((c4Book.addOrder 1 4 4 Side.BUY 95 10).bids_.map (fun L => L.price_)) =
        [100, 95, 90, 80] ∧
      ([100, 95, 90, 80] : List Int) ≠ [100, 90, 80, 95] := by
  decide

/-- The walk inserts the new level before the first node it `isBetter` than,
and appends it at the end when there is none. -/
theorem walkInsert_eq (L : PriceLevel) (rest : List PriceLevel) :
    walkInsert L rest =
      rest.takeWhile (fun c => !(L.isBetter c)) ++
        L :: rest.dropWhile (fun c => !(L.isBetter c)) := by
  induction rest with
  | nil => rfl
  | cons c r ih =>
      by_cases hc : L.isBetter c
      · simp [walkInsert, hc, List.takeWhile_cons, List.dropWhile_cons]
      · simp only [walkInsert, hc, if_neg, Bool.false_eq_true, not_false_eq_true, ih,
          List.takeWhile_cons, List.dropWhile_cons]
        simp [hc]

/-- Claim C4, amended: when a new level `L` is created on a side whose best
`B` exists and `L.isBetter(B)` is false, `L` is spliced immediately before the
first node `C` (walking forward from `B.next`) such that `L.isBetter(C)` is
**true** — i.e. the first strictly worse node — and when the walk returns to
`B` without finding one (no node is worse than `L`), `L` is spliced at the end
of the chain, before `B` in the circle.  (The claim had the walk condition
inverted.) -/
theorem c4_splice_before_first_worse (B L : PriceLevel) (rest : List PriceLevel)
    (h : L.isBetter B = false) :
    spliceLevel (B :: rest) L =
        B :: (rest.takeWhile (fun c => !(L.isBetter c)) ++
          L :: rest.dropWhile (fun c => !(L.isBetter c))) ∧
      ((∀ c ∈ rest, L.isBetter c = false) → spliceLevel (B :: rest) L = (B :: rest) ++ [L]) := by
  constructor
  · simp [spliceLevel, h, walkInsert_eq]
  · intro hall
    have htake : rest.takeWhile (fun c => !(L.isBetter c)) = rest := by
      induction rest with
      | nil => rfl
      | cons c r ih =>
          have hc := hall c (List.mem_cons_self c r)
          simp only [List.takeWhile_cons, hc, Bool.not_false, if_pos]
          exact congrArg (c :: ·) (ih (fun x hx => hall x (List.mem_cons_of_mem c hx)))
    have hdrop : rest.dropWhile (fun c => !(L.isBetter c)) = [] := by
      clear htake
      induction rest with
      | nil => rfl
      | cons c r ih =>
          have hc := hall c (List.mem_cons_self c r)
          simp only [List.dropWhile_cons, hc, Bool.not_false, if_pos]
          exact ih (fun x hx => hall x (List.mem_cons_of_mem c hx))
    simp [spliceLevel, h, walkInsert_eq, htake, hdrop]

/-- Witness for `c4_splice_before_first_worse`: the 95 bid into
`[100, 90, 80]`. -/
theorem c4_witness :
    (PriceLevel.isBetter { side_ := Side.BUY, price_ := 95 }
        { side_ := Side.BUY, price_ := 100 } = false) ∧
      spliceLevel [{ side_ := Side.BUY, price_ := 100 }, { side_ := Side.BUY, price_ := 90 }]
          { side_ := Side.BUY, price_ := 95 } =
        [{ side_ := Side.BUY, price_ := 100 }] ++
          ([{ side_ := Side.BUY, price_ := 90 }].takeWhile
              (fun c => !(PriceLevel.isBetter { side_ := Side.BUY, price_ := 95 } c)) ++
            { side_ := Side.BUY, price_ := 95 } ::
              [{ side_ := Side.BUY, price_ := 90 }].dropWhile
                (fun c => !(PriceLevel.isBetter { side_ := Side.BUY, price_ := 95 } c))) := by
  refine ⟨by decide, ?_⟩
  exact (c4_splice_before_first_worse { side_ := Side.BUY, price_ := 100 }
    { side_ := Side.BUY, price_ := 95 } [{ side_ := Side.BUY, price_ := 90 }] (by decide)).1

/-! Bit-counting toolkit for the bitmap queue. -/

/-- Population count of a natural number's binary representation. -/
def popcount (n : Nat) : Nat :=
  if h : n = 0 then 0 else popcount (n / 2) + n % 2
termination_by n
decreasing_by exact Nat.div_lt_self (Nat.pos_of_ne_zero h) one_lt_two

theorem popcount_zero : popcount 0 = 0 := by
  unfold popcount
  rfl

theorem popcount_div2 (n : Nat) : popcount n = popcount (n / 2) + n % 2 := by
  by_cases h : n = 0
  · subst h
    simp [popcount_zero]
  · conv_lhs => unfold popcount
    simp [h]

theorem popcount_eq_zero (n : Nat) : popcount n = 0 ↔ n = 0 := by
  induction n using Nat.strong_induction_on with
  | _ n ih =>
      constructor
      · intro h0
        by_contra hne
        rw [popcount_div2] at h0
        have h2 : popcount (n / 2) = 0 := by omega
        have hm : n % 2 = 0 := by omega
        by_cases hh : n / 2 = 0
        · omega
        · have := (ih (n / 2) (Nat.div_lt_self (Nat.pos_of_ne_zero hne) one_lt_two)).mp h2
          omega
      · intro h
        subst h
        exact popcount_zero

/-- Clearing a set bit decrements the popcount. -/
theorem popcount_sub_two_pow :
    ∀ (i b : Nat), b.testBit i = true → popcount (b - 2 ^ i) + 1 = popcount b := by
  intro i
  induction i with
  | zero =>
      intro b hb
      have hm : b % 2 = 1 := by
        have := Nat.testBit_zero b
        rw [hb] at this
        exact of_decide_eq_true this.symm
      have h1 : (b - 2 ^ 0) / 2 = b / 2 := by omega
      have h2 : (b - 2 ^ 0) % 2 = 0 := by omega
      rw [popcount_div2 (b - 2 ^ 0), h1, h2, popcount_div2 b, hm]
  | succ i ih =>
      intro b hb
      have hb2 : (b / 2).testBit i = true := by
        rw [Nat.testBit_div_two]
        exact hb
      have hge : b ≥ 2 ^ (i + 1) := Nat.testBit_implies_ge hb
      have hpow : (2 : Nat) ^ (i + 1) = 2 * 2 ^ i := by ring
      have h1 : (b - 2 ^ (i + 1)) / 2 = b / 2 - 2 ^ i := by omega
      have h2 : (b - 2 ^ (i + 1)) % 2 = b % 2 := by omega
      have := ih (b / 2) hb2
      rw [popcount_div2 (b - 2 ^ (i + 1)), h1, h2, popcount_div2 b]
      omega

/-- Setting a clear bit increments the popcount. -/
theorem popcount_or_two_pow :
    ∀ (i b : Nat), b.testBit i = false → popcount (b ||| 2 ^ i) = popcount b + 1 := by
  intro i
  induction i with
  | zero =>
      intro b hb
      have hm : b % 2 = 0 := by
        have := Nat.testBit_zero b
        rw [hb] at this
        have := of_decide_eq_false this.symm
        omega
      have h1 : (b ||| 2 ^ 0) / 2 = b / 2 := by
        have := Nat.or_div_two (a := b) (b := 2 ^ 0)
        simpa using this
      have h2 : (b ||| 2 ^ 0) % 2 = 1 := by
        have : (b ||| 2 ^ 0) % 2 = 1 ↔ b % 2 = 1 ∨ (2 ^ 0 : Nat) % 2 = 1 :=
          Nat.or_mod_two_eq_one
        omega
      rw [popcount_div2 (b ||| 2 ^ 0), h1, h2, popcount_div2 b, hm]
  | succ i ih =>
      intro b hb
      have hb2 : (b / 2).testBit i = false := by
        rw [Nat.testBit_div_two]
        exact hb
      have hpow : (2 : Nat) ^ (i + 1) / 2 = 2 ^ i := by
        omega
      have h1 : (b ||| 2 ^ (i + 1)) / 2 = b / 2 ||| 2 ^ i := by
        rw [Nat.or_div_two, hpow]
      have h2 : (b ||| 2 ^ (i + 1)) % 2 = b % 2 := by
        have hiff : (b ||| 2 ^ (i + 1)) % 2 = 1 ↔ b % 2 = 1 ∨ (2 ^ (i + 1) : Nat) % 2 = 1 :=
          Nat.or_mod_two_eq_one
        have hz : (2 : Nat) ^ (i + 1) % 2 = 0 := by
          have : (2 : Nat) ^ (i + 1) = 2 * 2 ^ i := by ring
          omega
        omega
      rw [popcount_div2 (b ||| 2 ^ (i + 1)), h1, h2, popcount_div2 b, ih (b / 2) hb2]
      omega

/-- A bitmap with no set bit below its width is zero. -/
theorem eq_zero_of_no_bits {b bound : Nat} (hlt : b < 2 ^ bound)
    (h : ∀ j, j < bound → b.testBit j = false) : b = 0 := by
  apply Nat.eq_of_testBit_eq
  intro i
  rw [Nat.zero_testBit]
  by_cases hi : i < bound
  · exact h i hi
  · exact Nat.testBit_lt_two_pow
      (lt_of_lt_of_le hlt (Nat.pow_le_pow_right (by norm_num) (Nat.le_of_not_lt hi)))

/-- Clearing bit `i` leaves bit `i` clear. -/
theorem testBit_sub_two_pow_self {b i : Nat} (hb : b.testBit i = true) :
    (b - 2 ^ i).testBit i = false := by
  have hq : b / 2 ^ i % 2 = 1 := by
    have := Nat.testBit_to_div_mod (x := b) (i := i)
    rw [hb] at this
    exact of_decide_eq_true this.symm
  have hk : (0 : Nat) < 2 ^ i := Nat.pos_pow_of_pos i (by norm_num)
  have hdecomp : 2 ^ i * (b / 2 ^ i) + b % 2 ^ i = b := Nat.div_add_mod b (2 ^ i)
  have hrest : b % 2 ^ i < 2 ^ i := Nat.mod_lt _ hk
  have hge1 : 1 ≤ b / 2 ^ i := by
    rcases Nat.eq_zero_or_pos (b / 2 ^ i) with h0 | h1
    · rw [h0] at hq
      simp at hq
    · exact h1
  have hmul : 2 ^ i * (b / 2 ^ i - 1) + 2 ^ i = 2 ^ i * (b / 2 ^ i) := by
    have hq1 : b / 2 ^ i - 1 + 1 = b / 2 ^ i := by omega
    calc 2 ^ i * (b / 2 ^ i - 1) + 2 ^ i
        = 2 ^ i * (b / 2 ^ i - 1 + 1) := by ring
      _ = 2 ^ i * (b / 2 ^ i) := by rw [hq1]
  have hsub : b - 2 ^ i = 2 ^ i * (b / 2 ^ i - 1) + b % 2 ^ i := by omega
  rw [Nat.testBit_to_div_mod, hsub, Nat.mul_add_div hk, Nat.div_eq_of_lt hrest]
  have hpar : (b / 2 ^ i - 1) % 2 = 0 := by
    have h2 : ∀ t : Nat, t % 2 = 1 → (t - 1) % 2 = 0 := by
      intro t ht
      omega
    exact h2 _ hq
  simp [hpar]

/-- Setting a clear bit coincides with adding the power of two. -/
theorem or_two_pow_eq_add :
    ∀ (i x : Nat), x.testBit i = false → x ||| 2 ^ i = x + 2 ^ i := by
  intro i
  induction i with
  | zero =>
      intro x hx
      have hm : x % 2 = 0 := by
        have := Nat.testBit_zero x
        rw [hx] at this
        have := of_decide_eq_false this.symm
        omega
      have h1 : (x ||| 2 ^ 0) / 2 = x / 2 := by
        have := Nat.or_div_two (a := x) (b := 2 ^ 0)
        simpa using this
      have h2 : (x ||| 2 ^ 0) % 2 = 1 := by
        have : (x ||| 2 ^ 0) % 2 = 1 ↔ x % 2 = 1 ∨ (2 ^ 0 : Nat) % 2 = 1 :=
          Nat.or_mod_two_eq_one
        omega
      have hd : x ||| 2 ^ 0 = 2 * ((x ||| 2 ^ 0) / 2) + (x ||| 2 ^ 0) % 2 := by omega
      rw [hd, h1, h2]
      omega
  | succ i ih =>
      intro x hx
      have hx2 : (x / 2).testBit i = false := by
        rw [Nat.testBit_div_two]
        exact hx
      have hpow : (2 : Nat) ^ (i + 1) = 2 * 2 ^ i := by ring
      have h1 : (x ||| 2 ^ (i + 1)) / 2 = x / 2 ||| 2 ^ i := by
        rw [Nat.or_div_two]
        congr 1
        omega
      have h2 : (x ||| 2 ^ (i + 1)) % 2 = x % 2 := by
        have hiff : (x ||| 2 ^ (i + 1)) % 2 = 1 ↔ x % 2 = 1 ∨ (2 ^ (i + 1) : Nat) % 2 = 1 :=
          Nat.or_mod_two_eq_one
        omega
      have hd : x ||| 2 ^ (i + 1) = 2 * ((x ||| 2 ^ (i + 1)) / 2) + (x ||| 2 ^ (i + 1)) % 2 := by
        omega
      rw [hd, h1, h2, ih (x / 2) hx2]
      omega

/-- Clearing bit `i` does not affect other bits. -/
theorem testBit_sub_two_pow_other {b i j : Nat} (hb : b.testBit i = true) (hij : j ≠ i) :
    (b - 2 ^ i).testBit j = b.testBit j := by
  have hclear : (b - 2 ^ i).testBit i = false := testBit_sub_two_pow_self hb
  have hsum : b - 2 ^ i + 2 ^ i = b := Nat.sub_add_cancel (Nat.testBit_implies_ge hb)
  have hor : (b - 2 ^ i) ||| 2 ^ i = b := by
    rw [or_two_pow_eq_add i _ hclear, hsum]
  calc (b - 2 ^ i).testBit j
      = ((b - 2 ^ i).testBit j || (2 ^ i : Nat).testBit j) := by
        rw [Nat.testBit_two_pow_of_ne (Ne.symm hij)]
        simp
    _ = ((b - 2 ^ i) ||| 2 ^ i).testBit j := (Nat.testBit_or _ _ _).symm
    _ = b.testBit j := by rw [hor]

namespace Bitmap

theorem findBitGe_some_char (bm bnd : Nat) :
    ∀ s j, findBitGe bm s bnd = some j →
      s ≤ j ∧ j < bnd ∧ bm.testBit j = true ∧ ∀ k, s ≤ k → k < j → bm.testBit k = false := by
  have main : ∀ n s j, bnd - s ≤ n → findBitGe bm s bnd = some j →
      s ≤ j ∧ j < bnd ∧ bm.testBit j = true ∧ ∀ k, s ≤ k → k < j → bm.testBit k = false := by
    intro n
    induction n with
    | zero =>
        intro s j hle h
        have hs : ¬ s < bnd := by omega
        rw [findBitGe, dif_neg hs] at h
        exact Option.noConfusion h
    | succ n ih =>
        intro s j hle h
        by_cases hs : s < bnd
        · rw [findBitGe, dif_pos hs] at h
          by_cases hb : bm.testBit s
          · rw [if_pos hb] at h
            cases h
            exact ⟨le_rfl, hs, hb, fun k hk1 hk2 => absurd (lt_of_le_of_lt hk1 hk2) (lt_irrefl _)⟩
          · rw [if_neg hb] at h
            obtain ⟨h1, h2, h3, h4⟩ := ih (s + 1) j (by omega) h
            refine ⟨by omega, h2, h3, fun k hk1 hk2 => ?_⟩
            by_cases hks : k = s
            · subst hks
              exact Bool.eq_false_iff.mpr hb
            · exact h4 k (by omega) hk2
        · rw [findBitGe, dif_neg hs] at h
          exact Option.noConfusion h
  exact fun s j => main (bnd - s) s j le_rfl

theorem findBitGe_none_char (bm bnd : Nat) :
    ∀ s, findBitGe bm s bnd = none → ∀ j, s ≤ j → j < bnd → bm.testBit j = false := by
  have main : ∀ n s, bnd - s ≤ n → findBitGe bm s bnd = none →
      ∀ j, s ≤ j → j < bnd → bm.testBit j = false := by
    intro n
    induction n with
    | zero =>
        intro s hle _ j hj1 hj2
        omega
    | succ n ih =>
        intro s hle h j hj1 hj2
        have hs : s < bnd := by omega
        rw [findBitGe, dif_pos hs] at h
        by_cases hb : bm.testBit s
        · rw [if_pos hb] at h
          exact Option.noConfusion h
        · rw [if_neg hb] at h
          by_cases hjs : j = s
          · subst hjs
            exact Bool.eq_false_iff.mpr hb
          · exact ih (s + 1) (by omega) h j (by omega) hj2
  exact fun s => main (bnd - s) s le_rfl

theorem numBitmapBits_ge (C : Nat) : C ≤ numBitmapBits C := by
  unfold numBitmapBits
  have h := Nat.div_add_mod (C + 63) 64
  have h2 : (C + 63) % 64 < 64 := Nat.mod_lt _ (by norm_num)
  omega

/-- Sum of the chunks' live-bit counts. -/
def sumPop (cs : List Chunk) : Nat := (cs.map (fun ch => popcount ch.validityBitmap)).sum

theorem sumPop_append (a b : List Chunk) : sumPop (a ++ b) = sumPop a + sumPop b := by
  unfold sumPop
  rw [List.map_append, List.sum_append]

/-- The state invariant of the bitmap queue, maintained by every public
operation. -/
structure Inv (C : Nat) (q : OrderQueue) : Prop where
  lenEq : ∀ ch ∈ q.chunks, ch.orders.length = ch.highWaterMark
  hwmLe : ∀ ch ∈ q.chunks, ch.highWaterMark ≤ C
  bmLt : ∀ ch ∈ q.chunks, ch.validityBitmap < 2 ^ ch.highWaterMark
  headClear : ∀ ch, q.chunks.head? = some ch → ∀ j, j < q.headOrderIndex_ →
      ch.validityBitmap.testBit j = false
  headIdxLe : ∀ ch, q.chunks.head? = some ch → q.headOrderIndex_ ≤ ch.highWaterMark
  sizeEq : q.totalSize_ = sumPop q.chunks
  chunksNe : q.chunks ≠ []
  idsNodup : (q.chunks.map Chunk.chunkId).Nodup
  idsLt : ∀ ch ∈ q.chunks, ch.chunkId < q.nextChunkId

theorem inv_init (C : Nat) : Inv C initQueue := by
  refine ⟨?_, ?_, ?_, ?_, ?_, ?_, ?_, ?_, ?_⟩ <;>
    simp [initQueue, sumPop, popcount_zero]

theorem shiftLeft_one (idx : Nat) : (1 <<< idx) = 2 ^ idx := by
  rw [Nat.shiftLeft_eq, Nat.one_mul]

/-- Structure of a successful `removeBitInChunks`: the chain splits at the
unique chunk carrying the handle's id, whose bit is cleared when set; nothing
else changes, and no chunk is dropped. -/
theorem removeBitInChunks_spec :
    ∀ (cs : List Chunk) (cid idx : Nat) (r : List Chunk × Bool),
      removeBitInChunks cs cid idx = some r →
      ∃ pre ch post, cs = pre ++ ch :: post ∧ ch.chunkId = cid ∧
        (∀ c ∈ pre, c.chunkId ≠ cid) ∧
        ((ch.validityBitmap.testBit idx = true ∧
            r = (pre ++ { ch with validityBitmap := ch.validityBitmap - 2 ^ idx } :: post,
              true)) ∨
          (ch.validityBitmap.testBit idx = false ∧ r = (pre ++ ch :: post, false))) := by
  intro cs
  induction cs with
  | nil =>
      intro cid idx r h
      exact Option.noConfusion h
  | cons c rest ih =>
      intro cid idx r h
      rw [removeBitInChunks] at h
      by_cases hc : c.chunkId = cid
      · rw [if_pos hc] at h
        by_cases hb : c.validityBitmap.testBit idx
        · rw [if_pos hb] at h
          cases h
          refine ⟨[], c, rest, by simp, hc, by simp, Or.inl ⟨hb, ?_⟩⟩
          simp [shiftLeft_one]
        · rw [if_neg hb] at h
          cases h
          exact ⟨[], c, rest, by simp, hc, by simp,
            Or.inr ⟨Bool.eq_false_iff.mpr hb, by simp⟩⟩
      · rw [if_neg hc] at h
        cases hrec : removeBitInChunks rest cid idx with
        | none =>
            rw [hrec] at h
            exact Option.noConfusion h
        | some r2 =>
            rw [hrec] at h
            obtain ⟨pre, ch, post, he, hid, hpre, hcase⟩ := ih cid idx r2 hrec
            cases h
            refine ⟨c :: pre, ch, post, by rw [he, List.cons_append], hid, ?_, ?_⟩
            · intro x hx
              rcases List.mem_cons.mp hx with hx | hx
              · subst hx
                exact hc
              · exact hpre x hx
            · rcases hcase with ⟨hb, hr⟩ | ⟨hb, hr⟩
              · exact Or.inl ⟨hb, by simp [hr]⟩
              · exact Or.inr ⟨hb, by simp [hr]⟩

/-- `removeBitInChunks` succeeds exactly on live chunk ids. -/
theorem removeBitInChunks_isSome :
    ∀ (cs : List Chunk) (cid idx : Nat), cid ∈ cs.map Chunk.chunkId →
      (removeBitInChunks cs cid idx).isSome = true := by
  intro cs
  induction cs with
  | nil =>
      intro cid idx h
      simp at h
  | cons c rest ih =>
      intro cid idx h
      rw [removeBitInChunks]
      by_cases hc : c.chunkId = cid
      · rw [if_pos hc]
        by_cases hb : c.validityBitmap.testBit idx
        · rw [if_pos hb]
          rfl
        · rw [if_neg hb]
          rfl
      · rw [if_neg hc]
        have : cid ∈ rest.map Chunk.chunkId := by
          rcases List.mem_map.mp h with ⟨x, hx, hxid⟩
          rcases List.mem_cons.mp hx with hx | hx
          · subst hx
            exact absurd hxid hc
          · exact List.mem_map.mpr ⟨x, hx, hxid⟩
        cases hrec : removeBitInChunks rest cid idx with
        | none =>
            have h2 := ih cid idx this
            rw [hrec] at h2
            exact absurd h2 (by simp)
        | some r2 => simp [hrec]

theorem inv_remove {C : Nat} {q : OrderQueue} {h : Handle} {q2 : OrderQueue}
    (hI : Inv C q) (hr : remove q h = some q2) : Inv C q2 := by
  unfold remove at hr
  cases hch : h.chunk_ with
  | none =>
      simp only [hch] at hr
      cases hr
      exact hI
  | some cid =>
      simp only [hch] at hr
      cases hrb : removeBitInChunks q.chunks cid h.index_ with
      | none =>
          simp only [hrb] at hr
          exact Option.noConfusion hr
      | some r =>
          simp only [hrb] at hr
          obtain ⟨pre, ch, post, he, hid, hpre, hcase⟩ :=
            removeBitInChunks_spec q.chunks cid h.index_ r hrb
          rcases hcase with ⟨hb, hr1⟩ | ⟨hb, hr1⟩
          · -- the bit was set: it is cleared and the live count drops by one
            subst hr1
            simp only [if_pos] at hr
            cases hr
            set ch2 : Chunk := { ch with validityBitmap := ch.validityBitmap - 2 ^ h.index_ }
              with hch2
            have hmem : ∀ c2 ∈ pre ++ ch2 :: post, c2 = ch2 ∨ c2 ∈ q.chunks := by
              intro c2 hc2
              rcases List.mem_append.mp hc2 with hc2 | hc2
              · refine Or.inr ?_
                rw [he]
                exact List.mem_append.mpr (Or.inl hc2)
              · rcases List.mem_cons.mp hc2 with hc2 | hc2
                · exact Or.inl hc2
                · refine Or.inr ?_
                  rw [he]
                  exact List.mem_append.mpr (Or.inr (List.mem_cons_of_mem _ hc2))
            have hchmem : ch ∈ q.chunks := by
              rw [he]
              exact List.mem_append.mpr (Or.inr (List.mem_cons_self _ _))
            refine ⟨?_, ?_, ?_, ?_, ?_, ?_, ?_, ?_, ?_⟩
            · intro c2 hc2
              rcases hmem c2 hc2 with hc2 | hc2
              · subst hc2
                exact hI.lenEq ch hchmem
              · exact hI.lenEq c2 hc2
            · intro c2 hc2
              rcases hmem c2 hc2 with hc2 | hc2
              · subst hc2
                exact hI.hwmLe ch hchmem
              · exact hI.hwmLe c2 hc2
            · intro c2 hc2
              rcases hmem c2 hc2 with hc2 | hc2
              · subst hc2
                exact lt_of_le_of_lt (Nat.sub_le _ _) (hI.bmLt ch hchmem)
              · exact hI.bmLt c2 hc2
            · intro c2 hc2 j hj
              cases pre with
              | nil =>
                  simp only [List.nil_append, List.head?_cons, Option.some.injEq] at hc2
                  subst hc2
                  have hold : ch.validityBitmap.testBit j = false := by
                    have := hI.headClear ch ?_ j hj
                    · exact this
                    · rw [he]
                      simp
                  by_cases hji : j = h.index_
                  · subst hji
                    exact testBit_sub_two_pow_self hb
                  · rw [testBit_sub_two_pow_other hb hji]
                    exact hold
              | cons p0 ptl =>
                  simp only [List.cons_append, List.head?_cons, Option.some.injEq] at hc2
                  subst hc2
                  apply hI.headClear p0 _ j hj
                  rw [he]
                  simp
            · intro c2 hc2
              cases pre with
              | nil =>
                  simp only [List.nil_append, List.head?_cons, Option.some.injEq] at hc2
                  subst hc2
                  have : q.headOrderIndex_ ≤ ch.highWaterMark := by
                    apply hI.headIdxLe ch
                    rw [he]
                    simp
                  exact this
              | cons p0 ptl =>
                  simp only [List.cons_append, List.head?_cons, Option.some.injEq] at hc2
                  subst hc2
                  apply hI.headIdxLe p0
                  rw [he]
                  simp
            · have hsum : sumPop q.chunks =
                  sumPop pre + (popcount ch.validityBitmap + sumPop post) := by
                rw [he, sumPop_append]
                simp [sumPop]
              have hsum2 : sumPop (pre ++ ch2 :: post) =
                  sumPop pre + (popcount ch2.validityBitmap + sumPop post) := by
                rw [sumPop_append]
                simp [sumPop]
              have hdec := popcount_sub_two_pow h.index_ ch.validityBitmap hb
              have hsz := hI.sizeEq
              have hbm2 : ch2.validityBitmap = ch.validityBitmap - 2 ^ h.index_ := rfl
              rw [hbm2] at hsum2
              simp only
              omega
            · simp
            · have : (pre ++ ch2 :: post).map Chunk.chunkId =
                  (pre ++ ch :: post).map Chunk.chunkId := by
                simp [hch2]
              simp only
              rw [this, ← he]
              exact hI.idsNodup
            · intro c2 hc2
              rcases hmem c2 hc2 with hc2 | hc2
              · subst hc2
                exact hI.idsLt ch hchmem
              · exact hI.idsLt c2 hc2
          · -- the bit was already clear: the whole state is unchanged
            subst hr1
            simp only [if_neg, Bool.false_eq_true, not_false_eq_true] at hr
            cases hr
            have : pre ++ ch :: post = q.chunks := he.symm
            rw [this]
            exact hI

/-- A chain decomposition at a known id yields the no-op result when the bit
is clear. -/
theorem removeBitInChunks_of_clear (pre : List Chunk) (ch : Chunk) (post : List Chunk)
    (cid idx : Nat) (hpre : ∀ c ∈ pre, c.chunkId ≠ cid) (hid : ch.chunkId = cid)
    (hb : ch.validityBitmap.testBit idx = false) :
    removeBitInChunks (pre ++ ch :: post) cid idx = some (pre ++ ch :: post, false) := by
  induction pre with
  | nil =>
      simp only [List.nil_append]
      rw [removeBitInChunks, if_pos hid, hb]
      simp
  | cons p0 ptl ih =>
      have hp0 : p0.chunkId ≠ cid := hpre p0 (List.mem_cons_self _ _)
      simp only [List.cons_append]
      rw [removeBitInChunks, if_neg hp0,
        ih (fun c hc => hpre c (List.mem_cons_of_mem _ hc))]
      rfl

/-- Lookup of a chunk by id. -/
def findChunk : List Chunk → Nat → Option Chunk
  | [], _ => none
  | ch :: rest, cid => if ch.chunkId = cid then some ch else findChunk rest cid

/-- Reads the validity bit a handle points at (`false` for a null handle). -/
def handleBitSet (q : OrderQueue) (h : Handle) : Bool :=
  match h.chunk_ with
  | none => false
  | some cid =>
      match findChunk q.chunks cid with
      | some ch => ch.validityBitmap.testBit h.index_
      | none => false

theorem findChunk_of_decomp (pre : List Chunk) (ch : Chunk) (post : List Chunk)
    (cid : Nat) (hpre : ∀ c ∈ pre, c.chunkId ≠ cid) (hid : ch.chunkId = cid) :
    findChunk (pre ++ ch :: post) cid = some ch := by
  induction pre with
  | nil =>
      simp only [List.nil_append]
      rw [findChunk, if_pos hid]
  | cons p0 ptl ih =>
      have hp0 : p0.chunkId ≠ cid := hpre p0 (List.mem_cons_self _ _)
      simp only [List.cons_append]
      rw [findChunk, if_neg hp0]
      exact ih (fun c hc => hpre c (List.mem_cons_of_mem _ hc))

theorem eq_dropLast_append {α : Type _} :
    ∀ (l : List α) (x : α), l.getLast? = some x → l = l.dropLast ++ [x] := by
  intro l
  induction l with
  | nil =>
      intro x h
      exact Option.noConfusion h
  | cons a t ih =>
      intro x h
      cases t with
      | nil =>
          simp only [List.getLast?_singleton, Option.some.injEq] at h
          subst h
          rfl
      | cons b m =>
          rw [List.getLast?_cons_cons] at h
          have := ih x h
          calc a :: b :: m = a :: ((b :: m).dropLast ++ [x]) := by rw [← this]
            _ = (a :: b :: m).dropLast ++ [x] := by simp [List.dropLast]

/-- `push` when the tail chunk is full: a fresh chunk is allocated, the order
lands in its slot 0. -/
theorem push_eq_full {C : Nat} {q : OrderQueue} {o : BasicOrder} {tail0 : Chunk}
    (hlast : q.chunks.getLast? = some tail0) (hfull : tail0.highWaterMark ≥ C) :
    push C q o = some
      ({ chunks := q.chunks ++
           [{ chunkId := q.nextChunkId, orders := [o], validityBitmap := 1,
              highWaterMark := 1 }],
         headOrderIndex_ := q.headOrderIndex_, totalSize_ := q.totalSize_ + 1,
         nextChunkId := q.nextChunkId + 1 },
       { chunk_ := some q.nextChunkId, index_ := 0 }) := by
  unfold push
  rw [hlast]
  simp only [ge_iff_le, hfull, if_true, if_pos, List.getLast?_concat, List.dropLast_concat]
  rfl

/-- `push` when the tail chunk has room: the order lands at the tail's
high-water mark. -/
theorem push_eq_room {C : Nat} {q : OrderQueue} {o : BasicOrder} {tail0 : Chunk}
    (hlast : q.chunks.getLast? = some tail0) (hroom : ¬ tail0.highWaterMark ≥ C) :
    push C q o = some
      ({ chunks := q.chunks.dropLast ++
           [{ tail0 with
                orders := tail0.orders ++ [o],
                validityBitmap := tail0.validityBitmap ||| 2 ^ tail0.highWaterMark,
                highWaterMark := tail0.highWaterMark + 1 }],
         headOrderIndex_ := q.headOrderIndex_, totalSize_ := q.totalSize_ + 1,
         nextChunkId := q.nextChunkId },
       { chunk_ := some tail0.chunkId, index_ := tail0.highWaterMark }) := by
  unfold push
  rw [hlast]
  simp only [ge_iff_le, hroom, if_false, if_neg, hlast, shiftLeft_one]

theorem inv_push {C : Nat} {q : OrderQueue} {o : BasicOrder} {q2 : OrderQueue} {hdl : Handle}
    (hC : 0 < C) (hI : Inv C q) (hp : push C q o = some (q2, hdl)) : Inv C q2 := by
  cases hlast : q.chunks.getLast? with
  | none =>
      unfold push at hp
      rw [hlast] at hp
      exact Option.noConfusion hp
  | some tail0 =>
      have htl0mem : tail0 ∈ q.chunks := by
        rw [eq_dropLast_append q.chunks tail0 hlast]
        exact List.mem_append.mpr (Or.inr (List.mem_cons_self _ _))
      by_cases hfull : tail0.highWaterMark ≥ C
      · rw [push_eq_full hlast hfull] at hp
        cases hp
        set fresh : Chunk :=
          { chunkId := q.nextChunkId, orders := [o], validityBitmap := 1, highWaterMark := 1 }
          with hfresh
        have hmem : ∀ c2 ∈ q.chunks ++ [fresh], c2 ∈ q.chunks ∨ c2 = fresh := by
          intro c2 hc2
          rcases List.mem_append.mp hc2 with hc2 | hc2
          · exact Or.inl hc2
          · exact Or.inr (List.mem_singleton.mp hc2)
        refine ⟨?_, ?_, ?_, ?_, ?_, ?_, ?_, ?_, ?_⟩
        · intro c2 hc2
          rcases hmem c2 hc2 with hc2 | hc2
          · exact hI.lenEq c2 hc2
          · subst hc2
            rfl
        · intro c2 hc2
          rcases hmem c2 hc2 with hc2 | hc2
          · exact hI.hwmLe c2 hc2
          · subst hc2
            exact hC
        · intro c2 hc2
          rcases hmem c2 hc2 with hc2 | hc2
          · exact hI.bmLt c2 hc2
          · subst hc2
            norm_num
        · intro c2 hc2 j hj
          cases hq : q.chunks with
          | nil => exact absurd hq hI.chunksNe
          | cons c rest =>
              rw [hq] at hc2
              simp only [List.cons_append, List.head?_cons, Option.some.injEq] at hc2
              subst hc2
              apply hI.headClear c _ j hj
              rw [hq]
              rfl
        · intro c2 hc2
          cases hq : q.chunks with
          | nil => exact absurd hq hI.chunksNe
          | cons c rest =>
              rw [hq] at hc2
              simp only [List.cons_append, List.head?_cons, Option.some.injEq] at hc2
              subst hc2
              apply hI.headIdxLe c
              rw [hq]
              rfl
        · have h1 : popcount (1 : Nat) = 1 := by
            rw [popcount_div2]
            simp [popcount_zero]
          have := hI.sizeEq
          simp only [sumPop_append]
          simp [sumPop, h1, this]
        · simp
        · have hids : (q.chunks ++ [fresh]).map Chunk.chunkId =
              q.chunks.map Chunk.chunkId ++ [q.nextChunkId] := by
            simp [hfresh]
          rw [hids, List.nodup_append]
          refine ⟨hI.idsNodup, List.nodup_singleton _, ?_⟩
          intro x hx hx2
          rcases List.mem_map.mp hx with ⟨c2, hc2, hcx⟩
          have := hI.idsLt c2 hc2
          simp only [List.mem_singleton] at hx2
          omega
        · intro c2 hc2
          show c2.chunkId < q.nextChunkId + 1
          rcases hmem c2 hc2 with hc2 | hc2
          · have := hI.idsLt c2 hc2
            omega
          · subst hc2
            simp
      · rw [push_eq_room hlast hfull] at hp
        cases hp
        set tail2 : Chunk :=
          { tail0 with
              orders := tail0.orders ++ [o],
              validityBitmap := tail0.validityBitmap ||| 2 ^ tail0.highWaterMark,
              highWaterMark := tail0.highWaterMark + 1 } with htail2
        have he := eq_dropLast_append q.chunks tail0 hlast
        have hmem : ∀ c2 ∈ q.chunks.dropLast ++ [tail2], c2 ∈ q.chunks ∨ c2 = tail2 := by
          intro c2 hc2
          rcases List.mem_append.mp hc2 with hc2 | hc2
          · exact Or.inl ((List.dropLast_sublist q.chunks).subset hc2)
          · exact Or.inr (List.mem_singleton.mp hc2)
        have htlbit : tail0.validityBitmap.testBit tail0.highWaterMark = false :=
          Nat.testBit_lt_two_pow (hI.bmLt tail0 htl0mem)
        refine ⟨?_, ?_, ?_, ?_, ?_, ?_, ?_, ?_, ?_⟩
        · intro c2 hc2
          rcases hmem c2 hc2 with hc2 | hc2
          · exact hI.lenEq c2 hc2
          · subst hc2
            simp only [List.length_append, List.length_singleton]
            rw [hI.lenEq tail0 htl0mem]
        · intro c2 hc2
          rcases hmem c2 hc2 with hc2 | hc2
          · exact hI.hwmLe c2 hc2
          · subst hc2
            show tail0.highWaterMark + 1 ≤ C
            omega
        · intro c2 hc2
          rcases hmem c2 hc2 with hc2 | hc2
          · exact hI.bmLt c2 hc2
          · subst hc2
            have h1 : tail0.validityBitmap < 2 ^ (tail0.highWaterMark + 1) :=
              lt_trans (hI.bmLt tail0 htl0mem) (Nat.pow_lt_pow_succ (by norm_num))
            have h2 : (2 : Nat) ^ tail0.highWaterMark < 2 ^ (tail0.highWaterMark + 1) :=
              Nat.pow_lt_pow_succ (by norm_num)
            exact Nat.or_lt_two_pow h1 h2
        · intro c2 hc2 j hj
          cases hq : q.chunks with
          | nil => exact absurd hq hI.chunksNe
          | cons c rest =>
              cases rest with
              | nil =>
                  -- single chunk: the tail is the head; a bit at the high-water
                  -- mark is appended, above the head cursor
                  have hc : c = tail0 := by
                    rw [hq] at hlast
                    simp only [List.getLast?_singleton, Option.some.injEq] at hlast
                    exact hlast
                  rw [hq] at hc2
                  simp only [List.dropLast_single, List.nil_append, List.head?_cons,
                    Option.some.injEq] at hc2
                  subst hc2
                  have hhd : q.chunks.head? = some tail0 := by
                    rw [hq, hc]
                    rfl
                  have hj2 : j < q.headOrderIndex_ := hj
                  have hbit := hI.headClear tail0 hhd j hj2
                  have hidx := hI.headIdxLe tail0 hhd
                  have hjne : tail0.highWaterMark ≠ j := by omega
                  rw [Nat.testBit_or, hbit, Nat.testBit_two_pow_of_ne hjne]
                  rfl
              | cons d t =>
                  rw [hq] at hc2
                  simp only [List.dropLast_cons₂, List.cons_append, List.head?_cons,
                    Option.some.injEq] at hc2
                  subst hc2
                  apply hI.headClear c _ j hj
                  rw [hq]
                  rfl
        · intro c2 hc2
          cases hq : q.chunks with
          | nil => exact absurd hq hI.chunksNe
          | cons c rest =>
              cases rest with
              | nil =>
                  have hc : c = tail0 := by
                    rw [hq] at hlast
                    simp only [List.getLast?_singleton, Option.some.injEq] at hlast
                    exact hlast
                  rw [hq] at hc2
                  simp only [List.dropLast_single, List.nil_append, List.head?_cons,
                    Option.some.injEq] at hc2
                  subst hc2
                  have hhd : q.chunks.head? = some tail0 := by
                    rw [hq, hc]
                    rfl
                  have hidx := hI.headIdxLe tail0 hhd
                  simp only
                  omega
              | cons d t =>
                  rw [hq] at hc2
                  simp only [List.dropLast_cons₂, List.cons_append, List.head?_cons,
                    Option.some.injEq] at hc2
                  subst hc2
                  apply hI.headIdxLe c
                  rw [hq]
                  rfl
        · have hsum : sumPop q.chunks = sumPop q.chunks.dropLast + popcount tail0.validityBitmap := by
            conv_lhs => rw [he]
            rw [sumPop_append]
            simp [sumPop]
          have hpc : popcount tail2.validityBitmap = popcount tail0.validityBitmap + 1 :=
            popcount_or_two_pow _ _ htlbit
          have := hI.sizeEq
          rw [sumPop_append]
          simp only [sumPop, List.map_cons, List.map_nil, List.sum_cons, List.sum_nil] at *
          omega
        · simp
        · have hids : (q.chunks.dropLast ++ [tail2]).map Chunk.chunkId =
              (q.chunks.dropLast ++ [tail0]).map Chunk.chunkId := by
            simp [htail2]
          rw [hids, ← he]
          exact hI.idsNodup
        · intro c2 hc2
          rcases hmem c2 hc2 with hc2 | hc2
          · exact hI.idsLt c2 hc2
          · subst hc2
            exact hI.idsLt tail0 htl0mem

/-- What the head-advance loop does on a chain with live orders: it drops a
(possibly empty) prefix of fully-drained chunks and parks the cursor on the
first set bit of the first non-drained chunk, which lies below that chunk's
high-water mark. -/
theorem advanceLoop_cons (C : Nat) (ch : Chunk) (rest : List Chunk) (i : Nat) :
    advanceLoop C (ch :: rest) i =
      match scanChunk C ch i with
      | some j => (ch :: rest, j)
      | none =>
          match rest with
          | [] => ([], 0)
          | _ :: _ => advanceLoop C rest 0 := by
  rfl

theorem advanceLoop_spec (C : Nat) :
    ∀ (cs : List Chunk) (i : Nat),
      (∀ ch ∈ cs, ch.validityBitmap < 2 ^ ch.highWaterMark ∧ ch.highWaterMark ≤ C) →
      (∀ ch, cs.head? = some ch → ∀ j, j < i → ch.validityBitmap.testBit j = false) →
      sumPop cs ≠ 0 →
      ∃ dropped ch rest j, cs = dropped ++ ch :: rest ∧
        advanceLoop C cs i = (ch :: rest, j) ∧
        (∀ d ∈ dropped, popcount d.validityBitmap = 0) ∧
        ch.validityBitmap.testBit j = true ∧
        (∀ k, k < j → ch.validityBitmap.testBit k = false) ∧
        j < ch.highWaterMark := by
  intro cs
  induction cs with
  | nil =>
      intro i _ _ hs
      exact absurd rfl hs
  | cons ch rest ih =>
      intro i hprop hhead hs
      obtain ⟨hbm, hhwm⟩ := hprop ch (List.mem_cons_self _ _)
      have hbound : ch.validityBitmap < 2 ^ numBitmapBits C :=
        lt_of_lt_of_le hbm (Nat.pow_le_pow_right (by norm_num)
          (le_trans hhwm (numBitmapBits_ge C)))
      cases hscan : scanChunk C ch i with
      | some j =>
          have hfb : findBitGe ch.validityBitmap i (numBitmapBits C) = some j ∧
              j < ch.highWaterMark := by
            unfold scanChunk at hscan
            cases hfb : findBitGe ch.validityBitmap i (numBitmapBits C) with
            | none =>
                simp only [hfb] at hscan
                exact Option.noConfusion hscan
            | some j2 =>
                simp only [hfb] at hscan
                by_cases hj2 : j2 < ch.highWaterMark
                · rw [if_pos hj2] at hscan
                  cases hscan
                  exact ⟨rfl, hj2⟩
                · rw [if_neg hj2] at hscan
                  exact Option.noConfusion hscan
          obtain ⟨h1, h2, h3, h4⟩ := findBitGe_some_char _ _ _ _ hfb.1
          refine ⟨[], ch, rest, j, by simp, ?_, by simp, h3, ?_, hfb.2⟩
          · rw [advanceLoop_cons, hscan]
          · intro k hk
            by_cases hki : k < i
            · exact hhead ch rfl k hki
            · exact h4 k (Nat.le_of_not_lt hki) hk
      | none =>
          have hzero : ch.validityBitmap = 0 := by
            apply eq_zero_of_no_bits hbound
            intro j hj
            by_cases hji : j < i
            · exact hhead ch rfl j hji
            · unfold scanChunk at hscan
              cases hfb : findBitGe ch.validityBitmap i (numBitmapBits C) with
              | none => exact findBitGe_none_char _ _ _ hfb j (Nat.le_of_not_lt hji) hj
              | some j2 =>
                  simp only [hfb] at hscan
                  by_cases hj2 : j2 < ch.highWaterMark
                  · rw [if_pos hj2] at hscan
                    exact Option.noConfusion hscan
                  · obtain ⟨_, _, h3, _⟩ := findBitGe_some_char _ _ _ _ hfb
                    have := Nat.testBit_lt_two_pow
                      (lt_of_lt_of_le hbm
                        (Nat.pow_le_pow_right (by norm_num) (Nat.le_of_not_lt hj2)))
                    rw [this] at h3
                    exact Bool.noConfusion h3
          have hpz : popcount ch.validityBitmap = 0 := by
            rw [hzero]
            exact popcount_zero
          have hsum : sumPop (ch :: rest) = popcount ch.validityBitmap + sumPop rest := by
            simp [sumPop]
          cases rest with
          | nil =>
              exfalso
              apply hs
              simp [sumPop, hpz]
          | cons d t =>
              have hs2 : sumPop (d :: t) ≠ 0 := by
                rw [hsum] at hs
                omega
              obtain ⟨dropped, ch2, rest2, j, heq, hloop, hdrop, hbit, hmin, hlt⟩ :=
                ih 0 (fun c hc => hprop c (List.mem_cons_of_mem _ hc))
                  (fun c _ j hj => absurd hj (Nat.not_lt_zero j)) hs2
              refine ⟨ch :: dropped, ch2, rest2, j, by rw [List.cons_append, ← heq], ?_, ?_,
                hbit, hmin, hlt⟩
              · rw [advanceLoop_cons, hscan]
                exact hloop
              · intro c hc
                rcases List.mem_cons.mp hc with hc | hc
                · subst hc
                  exact hpz
                · exact hdrop c hc

theorem inv_advanceHead {C : Nat} {q : OrderQueue} (hI : Inv C q) :
    Inv C (advanceHead C q) := by
  unfold advanceHead
  by_cases hz : q.totalSize_ = 0
  · simpa [hz] using hI
  · simp only [hz, if_neg, if_false]
    have hs : sumPop q.chunks ≠ 0 := by
      rw [← hI.sizeEq]
      exact hz
    obtain ⟨dropped, ch, rest, j, heq, hloop, hdrop, hbit, hmin, hlt⟩ :=
      advanceLoop_spec C q.chunks q.headOrderIndex_
        (fun c hc => ⟨hI.bmLt c hc, hI.hwmLe c hc⟩) hI.headClear hs
    rw [hloop]
    have hmem : ∀ c ∈ ch :: rest, c ∈ q.chunks := by
      intro c hc
      rw [heq]
      exact List.mem_append.mpr (Or.inr hc)
    refine ⟨?_, ?_, ?_, ?_, ?_, ?_, ?_, ?_, ?_⟩
    · exact fun c hc => hI.lenEq c (hmem c hc)
    · exact fun c hc => hI.hwmLe c (hmem c hc)
    · exact fun c hc => hI.bmLt c (hmem c hc)
    · intro c hc k hk
      simp only [List.head?_cons, Option.some.injEq] at hc
      subst hc
      exact hmin k hk
    · intro c hc
      simp only [List.head?_cons, Option.some.injEq] at hc
      subst hc
      exact Nat.le_of_lt hlt
    · have h1 : sumPop q.chunks = sumPop dropped + sumPop (ch :: rest) := by
        rw [heq, sumPop_append]
      have h2 : sumPop dropped = 0 := by
        unfold sumPop
        apply List.sum_eq_zero
        intro x hx
        rcases List.mem_map.mp hx with ⟨c, hc, hcx⟩
        rw [← hcx]
        exact hdrop c hc
      have := hI.sizeEq
      simp only
      omega
    · simp
    · have : (q.chunks.map Chunk.chunkId).Nodup := hI.idsNodup
      rw [heq, List.map_append, List.nodup_append] at this
      exact this.2.1
    · exact fun c hc => hI.idsLt c (hmem c hc)

theorem front_state (C : Nat) (q : OrderQueue) : (front C q).1 = advanceHead C q := by
  unfold front
  by_cases hz : (advanceHead C q).totalSize_ = 0
  · simp [hz]
  · simp only [hz, if_neg, if_false]
    cases hq : (advanceHead C q).chunks with
    | nil => rfl
    | cons ch rest => rfl

theorem inv_front {C : Nat} {q : OrderQueue} (hI : Inv C q) : Inv C (front C q).1 := by
  rw [front_state]
  exact inv_advanceHead hI

theorem inv_pop {C : Nat} {q : OrderQueue} (hI : Inv C q) : Inv C (pop C q) := by
  unfold pop
  have hI1 : Inv C (advanceHead C q) := inv_advanceHead hI
  by_cases hz : (advanceHead C q).totalSize_ = 0
  · simpa [hz] using hI1
  · simp only [hz, if_neg, if_false]
    cases hq : (advanceHead C q).chunks with
    | nil =>
        simpa [hq] using hI1
    | cons ch rest =>
        simp only
        cases hrem : remove (advanceHead C q)
            { chunk_ := some ch.chunkId, index_ := (advanceHead C q).headOrderIndex_ } with
        | none => exact hI1
        | some q2 => exact inv_remove hI1 hrem

theorem reach_inv {C : Nat} {q : OrderQueue} (hC : 0 < C) (hR : Reach C q) : Inv C q := by
  induction hR with
  | init => exact inv_init C
  | pushStep _ hp ih => exact inv_push hC ih hp
  | removeStep _ hr ih => exact inv_remove ih hr
  | popStep _ ih => exact inv_pop ih
  | frontStep _ ih => exact inv_front ih

theorem getLast?_some_of_ne_nil {α : Type _} :
    ∀ (l : List α), l ≠ [] → ∃ x, l.getLast? = some x := by
  intro l
  induction l with
  | nil => intro h; exact absurd rfl h
  | cons a t ih =>
      intro _
      cases t with
      | nil => exact ⟨a, rfl⟩
      | cons b m =>
          obtain ⟨x, hx⟩ := ih (by simp)
          exact ⟨x, by rw [List.getLast?_cons_cons]; exact hx⟩

/-- Claim C6: on every reachable queue and every handle whose `remove` is
defined (null, or pointing into a live chunk), `remove` clears the bit and
decrements the live count when the bit was set; when the bit was already clear
it leaves the entire queue state unchanged; `remove` is idempotent
(`remove(h); remove(h)` leaves exactly the state one `remove(h)` produces);
and `remove` never frees a chunk — the chunk list's ids are preserved even
when the chunk's bitmap becomes all-clear. -/
theorem c6_remove_semantics {C : Nat} {q q2 : OrderQueue} {h : Handle}
    (hC : 0 < C) (hR : Reach C q) (hr : remove q h = some q2) :
    q2.chunks.map Chunk.chunkId = q.chunks.map Chunk.chunkId ∧
      (handleBitSet q h = false → q2 = q) ∧
      (handleBitSet q h = true →
        handleBitSet q2 h = false ∧ q2.totalSize_ + 1 = q.totalSize_) ∧
      remove q2 h = some q2 := by
  have hI := reach_inv hC hR
  unfold remove at hr
  cases hch : h.chunk_ with
  | none =>
      simp only [hch] at hr
      cases hr
      have hbs : handleBitSet q h = false := by
        unfold handleBitSet
        rw [hch]
      refine ⟨rfl, fun _ => rfl, fun ht => ?_, ?_⟩
      · rw [hbs] at ht
        exact Bool.noConfusion ht
      · unfold remove
        rw [hch]
  | some cid =>
      simp only [hch] at hr
      cases hrb : removeBitInChunks q.chunks cid h.index_ with
      | none =>
          simp only [hrb] at hr
          exact Option.noConfusion hr
      | some r =>
          simp only [hrb] at hr
          obtain ⟨pre, ch, post, he, hid, hpre, hcase⟩ :=
            removeBitInChunks_spec q.chunks cid h.index_ r hrb
          have hfind : findChunk q.chunks cid = some ch := by
            rw [he]
            exact findChunk_of_decomp pre ch post cid hpre hid
          have hbs : handleBitSet q h = ch.validityBitmap.testBit h.index_ := by
            unfold handleBitSet
            simp only [hch, hfind]
          rcases hcase with ⟨hb, hr1⟩ | ⟨hb, hr1⟩
          · subst hr1
            simp only [if_pos] at hr
            cases hr
            set ch2 : Chunk := { ch with validityBitmap := ch.validityBitmap - 2 ^ h.index_ }
              with hch2
            have hfind2 : findChunk (pre ++ ch2 :: post) cid = some ch2 :=
              findChunk_of_decomp pre ch2 post cid hpre hid
            refine ⟨?_, ?_, ?_, ?_⟩
            · simp only
              rw [he]
              simp [hch2]
            · intro hf
              rw [hbs, hb] at hf
              exact Bool.noConfusion hf
            · intro _
              constructor
              · unfold handleBitSet
                simp only [hch, hfind2]
                exact testBit_sub_two_pow_self hb
              · have hnz : popcount ch.validityBitmap ≠ 0 := by
                  intro h0
                  have hb0 := (popcount_eq_zero _).mp h0
                  rw [hb0] at hb
                  simp at hb
                have hsum : sumPop q.chunks =
                    sumPop pre + (popcount ch.validityBitmap + sumPop post) := by
                  rw [he, sumPop_append]
                  simp [sumPop]
                have hsz := hI.sizeEq
                simp only
                omega
            · show remove
                { chunks := pre ++ ch2 :: post,
                  headOrderIndex_ := q.headOrderIndex_,
                  totalSize_ := q.totalSize_ - 1,
                  nextChunkId := q.nextChunkId } h = some _
              unfold remove
              rw [hch]
              have hclear : ch2.validityBitmap.testBit h.index_ = false :=
                testBit_sub_two_pow_self hb
              simp only [removeBitInChunks_of_clear pre ch2 post cid h.index_ hpre hid hclear]
              rfl
          · subst hr1
            simp only [Bool.false_eq_true, if_false, if_neg, not_false_eq_true] at hr
            cases hr
            have hq2 : ({ chunks := pre ++ ch :: post,
                          headOrderIndex_ := q.headOrderIndex_,
                          totalSize_ := q.totalSize_,
                          nextChunkId := q.nextChunkId } : OrderQueue) = q := by
              rw [← he]
            rw [hq2]
            refine ⟨rfl, fun _ => rfl, fun ht => ?_, ?_⟩
            · rw [hbs, hb] at ht
              exact Bool.noConfusion ht
            · unfold remove
              rw [hch]
              simp only [hrb]
              rw [← hq2]
              rfl

/-- Claim C7: on every reachable queue, `size()` equals the total number of
set validity bits across all chunks restricted to `[0, highWaterMark)` of
each chunk, and `empty()` holds exactly when that count is zero. -/
theorem c7_size_is_masked_popcount {C : Nat} {q : OrderQueue} (hC : 0 < C) (hR : Reach C q) :
    size q = (q.chunks.map
        (fun ch => popcount (ch.validityBitmap % 2 ^ ch.highWaterMark))).sum ∧
      (emptyQ q = true ↔
        (q.chunks.map
          (fun ch => popcount (ch.validityBitmap % 2 ^ ch.highWaterMark))).sum = 0) := by
  have hI := reach_inv hC hR
  have hmap : q.chunks.map (fun ch => popcount (ch.validityBitmap % 2 ^ ch.highWaterMark)) =
      q.chunks.map (fun ch => popcount ch.validityBitmap) := by
    apply List.map_congr_left
    intro ch hch
    rw [Nat.mod_eq_of_lt (hI.bmLt ch hch)]
  constructor
  · rw [hmap]
    exact hI.sizeEq
  · rw [hmap]
    unfold emptyQ
    rw [beq_iff_eq]
    have hsz : q.totalSize_ = (q.chunks.map (fun ch => popcount ch.validityBitmap)).sum :=
      hI.sizeEq
    constructor
    · intro h0
      rw [← hsz]
      exact h0
    · intro h0
      rw [hsz]
      exact h0

/-- The queue obtained by one `push` on a fresh queue (chunk size 4). -/
def c7WitnessQueue : OrderQueue :=
  { chunks := [{ chunkId := 0,
                 orders := [{ orderId_ := 1, qty_ := 5, clientId_ := 1 }],
                 validityBitmap := 1,
                 highWaterMark := 1 }],
    headOrderIndex_ := 0, totalSize_ := 1, nextChunkId := 1 }

/-- Witness for `c6_remove_semantics`: remove the only order of
`c7WitnessQueue` through its handle. -/
theorem c6_witness :
    ∃ q2, remove c7WitnessQueue { chunk_ := some 0, index_ := 0 } = some q2 ∧
      q2.chunks.map Chunk.chunkId = c7WitnessQueue.chunks.map Chunk.chunkId ∧
      (handleBitSet c7WitnessQueue { chunk_ := some 0, index_ := 0 } = true →
        handleBitSet q2 { chunk_ := some 0, index_ := 0 } = false ∧
          q2.totalSize_ + 1 = c7WitnessQueue.totalSize_) := by
  have hstep : push 4 initQueue { orderId_ := 1, qty_ := 5, clientId_ := 1 } =
      some (c7WitnessQueue, { chunk_ := some 0, index_ := 0 }) := by decide
  have hR : Reach 4 c7WitnessQueue := Reach.pushStep Reach.init hstep
  cases hrem : remove c7WitnessQueue { chunk_ := some 0, index_ := 0 } with
  | none => exact absurd hrem (by decide)
  | some q2 =>
      obtain ⟨h1, _, h3, _⟩ := c6_remove_semantics (by decide) hR hrem
      exact ⟨q2, rfl, h1, h3⟩

/-- Witness for `c7_size_is_masked_popcount` at the one-order queue. -/
theorem c7_witness :
    size c7WitnessQueue = (c7WitnessQueue.chunks.map
        (fun ch => popcount (ch.validityBitmap % 2 ^ ch.highWaterMark))).sum ∧
      (emptyQ c7WitnessQueue = true ↔
        (c7WitnessQueue.chunks.map
          (fun ch => popcount (ch.validityBitmap % 2 ^ ch.highWaterMark))).sum = 0) := by
  have hstep : push 4 initQueue { orderId_ := 1, qty_ := 5, clientId_ := 1 } =
      some (c7WitnessQueue, { chunk_ := some 0, index_ := 0 }) := by decide
  exact c7_size_is_masked_popcount (by decide) (Reach.pushStep Reach.init hstep)

/-- Claim C8 as stated is false on the null-chunk state it describes: `push`
on a queue whose head and tail chunk pointers are null does **not** detect
the nulls and allocate — its first statement
`if (tailChunk_->highWaterMark >= ChunkSize)` dereferences the null tail
pointer (the `none` of the model). -/
theorem c8_counterexample :
    push 4 { chunks := [], headOrderIndex_ := 0, totalSize_ := 0, nextChunkId := 1 }
      { orderId_ := 1, qty_ := 1, clientId_ := 1 } = none := rfl

/-- Claim C8, amended: in every reachable queue state the chunk chain is
non-empty — head advancement never frees the last remaining chunk, because
`advanceHead` returns early on an empty queue and in a non-empty queue the
single remaining chunk always carries a set bit — so the null-head/null-tail
state never arises, and `push` (which performs no null check) never
dereferences a null tail-chunk pointer: it is defined on every reachable
state. -/
theorem c8_push_defined_on_reachable {C : Nat} {q : OrderQueue}
    (hC : 0 < C) (hR : Reach C q) :
    q.chunks ≠ [] ∧ ∀ o, (push C q o).isSome = true := by
  have hI := reach_inv hC hR
  refine ⟨hI.chunksNe, fun o => ?_⟩
  obtain ⟨tail0, hlast⟩ := getLast?_some_of_ne_nil q.chunks hI.chunksNe
  by_cases hfull : tail0.highWaterMark ≥ C
  · rw [push_eq_full hlast hfull]
    rfl
  · rw [push_eq_room hlast hfull]
    rfl

/-- Witness for `c8_push_defined_on_reachable` at the freshly constructed
queue. -/
theorem c8_witness :
    initQueue.chunks ≠ [] ∧ ∀ o, (push 4 initQueue o).isSome = true :=
  c8_push_defined_on_reachable (by decide) Reach.init

end Bitmap

/-! Claim C2: the bookkeeping of `MatchResultSet`. -/

/-- Loop invariant of `OrderBook::match`: the records accumulate in emission
order, the counter counts them, and each iteration moves exactly its record's
quantity from the remaining quantity. -/
theorem matchLoop_arith :
    ∀ (fuel : Nat) (b : OrderBook) (c oid : Nat) (side : Side) (price : Int)
      (rem count : Nat) (acc : List MatchResult) (out : OrderBook × Nat × Nat × List MatchResult),
      OrderBook.matchLoop b c oid side price rem count fuel acc = some out →
      ∃ δ, out.2.2.2 = acc ++ δ ∧ out.2.2.1 = count + δ.length ∧
        out.2.1 + (δ.map (fun x => x.quantity_)).sum = rem := by
  intro fuel
  induction fuel with
  | zero =>
      intro b c oid side price rem count acc out hml
      rw [OrderBook.matchLoop] at hml
      cases hc : b.oppChain side with
      | nil =>
          simp only [hc] at hml
          cases hml
          exact ⟨[], by simp⟩
      | cons best rest =>
          simp only [hc] at hml
          by_cases hg : rem ≠ 0 ∧ best.isMatchable price = true ∧ count < MAX_MATCH_EVENTS
          · rw [if_pos hg] at hml
            exact Option.noConfusion hml
          · rw [if_neg hg] at hml
            cases hml
            exact ⟨[], by simp⟩
  | succ fuel ih =>
      intro b c oid side price rem count acc out hml
      rw [OrderBook.matchLoop] at hml
      cases hc : b.oppChain side with
      | nil =>
          simp only [hc] at hml
          cases hml
          exact ⟨[], by simp⟩
      | cons best rest =>
          simp only [hc] at hml
          by_cases hg : rem ≠ 0 ∧ best.isMatchable price = true ∧ count < MAX_MATCH_EVENTS
          · rw [if_pos hg] at hml
            rcases hfp : best.orders.front with ⟨q1, mo?⟩
            simp only [hfp] at hml
            cases mo? with
            | none => exact Option.noConfusion hml
            | some mo =>
                simp only at hml
                have hrec : ∀ (b2 : OrderBook) (rec1 : MatchResult),
                    rec1.quantity_ = min rem mo.qty_ →
                    OrderBook.matchLoop b2 c oid side price (rem - min rem mo.qty_)
                      (count + 1) fuel (acc ++ [rec1]) = some out →
                    ∃ δ, out.2.2.2 = acc ++ δ ∧ out.2.2.1 = count + δ.length ∧
                      out.2.1 + (δ.map (fun x => x.quantity_)).sum = rem := by
                  intro b2 rec1 hq1 hml2
                  obtain ⟨δ2, ha, hcnt, hq⟩ :=
                    ih b2 c oid side price (rem - min rem mo.qty_) (count + 1) _ out hml2
                  refine ⟨rec1 :: δ2, ?_, ?_, ?_⟩
                  · rw [ha, List.append_assoc]
                    rfl
                  · rw [hcnt]
                    simp
                    omega
                  · simp only [List.map_cons, List.sum_cons]
                    have hmin : min rem mo.qty_ ≤ rem := Nat.min_le_left _ _
                    omega
                by_cases hz : mo.qty_ - min rem mo.qty_ = 0
                · rw [if_pos hz] at hml
                  cases hrm : ((b.setOppHead side
                      { best with
                          orders := queueSetQty q1 q1.head_ (mo.qty_ - min rem mo.qty_) }).removeOrder
                            mo.clientId_ mo.orderId_) with
                  | none =>
                      rw [hrm] at hml
                      exact Option.noConfusion hml
                  | some b2 =>
                      rw [hrm] at hml
                      exact hrec b2 _ rfl hml
                · rw [if_neg hz] at hml
                  exact hrec _ _ rfl hml
          · rw [if_neg hg] at hml
            cases hml
            exact ⟨[], by simp⟩

/-- Claim C2: for every call of `match` that returns, the result set carries
the loop's records in emission order with `remainingQuantity` equal to the
requested quantity minus the sum of the matched quantities, and the overflow
flag is set exactly when the record count reached `MAX_MATCH_EVENTS` and
after the loop the opposite side's best level still exists and is matchable
at the aggressor's price. -/
theorem c2_result_set_bookkeeping (b : OrderBook) (c oid : Nat) (side : Side)
    (price : Int) (qty : Nat) (b2 : OrderBook) (rset : MatchResultSet)
    (h : b.matchOrder c oid side price qty = some (b2, rset)) :
    rset.remainingQuantity_ + (rset.matches_.map (fun x => x.quantity_)).sum = qty ∧
      rset.remainingQuantity_ = qty - (rset.matches_.map (fun x => x.quantity_)).sum ∧
      (rset.overflow_ = true ↔ rset.matches_.length = MAX_MATCH_EVENTS ∧
        ∃ best rest, b2.oppChain side = best :: rest ∧ best.isMatchable price = true) := by
  unfold OrderBook.matchOrder at h
  cases hml : b.matchLoop c oid side price qty 0 MAX_MATCH_EVENTS [] with
  | none =>
      rw [hml] at h
      exact Option.noConfusion h
  | some out =>
      rw [hml] at h
      simp only [Option.some.injEq, Prod.mk.injEq] at h
      obtain ⟨hb2, hrs⟩ := h
      obtain ⟨δ, ha, hcnt, hq⟩ :=
        matchLoop_arith MAX_MATCH_EVENTS b c oid side price qty 0 [] out hml
      rw [List.nil_append] at ha
      have hm : rset.matches_ = δ := by
        rw [← hrs, ha]
      have hrem : rset.remainingQuantity_ = out.2.1 := by
        rw [← hrs]
      refine ⟨?_, ?_, ?_⟩
      · rw [hm, hrem]
        exact hq
      · rw [hm, hrem]
        omega
      · have hov : rset.overflow_ = (decide (out.2.2.1 = MAX_MATCH_EVENTS) &&
            (match out.1.oppChain side with
             | [] => false
             | best :: _ => best.isMatchable price)) := by
          rw [← hrs]
        rw [hov, Bool.and_eq_true, decide_eq_true_eq]
        have hlen : out.2.2.1 = rset.matches_.length := by
          rw [hm, hcnt]
          simp
        constructor
        · rintro ⟨h1, h2⟩
          refine ⟨by omega, ?_⟩
          cases hopp : out.1.oppChain side with
          | nil =>
              rw [hopp] at h2
              exact Bool.noConfusion h2
          | cons best rest =>
              rw [hopp] at h2
              rw [← hb2]
              exact ⟨best, rest, hopp, h2⟩
        · rintro ⟨h1, best, rest, hopp, hbm⟩
          rw [← hb2] at hopp
          refine ⟨by omega, ?_⟩
          rw [hopp]
          exact hbm

/-- Book and result of a concrete partial-fill match: one resting
`SELL 100 x50`, aggressor `BUY 100 x30`. -/
def c2WitnessBook : OrderBook := OrderBook.addOrder {} 1 100 100 Side.SELL 100 50

/-- The book after the witness match. -/
def c2WitnessBook2 : OrderBook :=
  { bids_ := [],
    asks_ := [{ side_ := Side.SELL,
                price_ := 100,
                orders := { orders_ := [{ orderId_ := 100, qty_ := 20, clientId_ := 1 }],
                            tail_ := 1, head_ := 0, offset := 0, size_ := 1 } }],
    clientOrders_ := [((1, 100),
                       { position_ := { logicalIndex_ := 0, offsetAtInsert_ := 0 },
                         clientOrderId_ := 100, marketOrderId_ := 100, price_ := 100,
                         qty_ := 50, clientId_ := 1, side_ := Side.SELL })],
    instrument_ := 0 }

/-- The result set of the witness match. -/
def c2WitnessSet : MatchResultSet :=
  { matches_ := [{ incomingOrderId_ := 101, matchedOrderId_ := 100, price_ := 100,
                   quantity_ := 30, matchedOrderRemainingQty_ := 20,
                   incomingClientId_ := 2, matchedClientId_ := 1,
                   incomingOrderSide_ := Side.BUY, matchedOrderSide_ := Side.SELL }],
    remainingQuantity_ := 0, instrument_ := 0, overflow_ := false }

/-- Witness for `c2_result_set_bookkeeping` at the concrete partial fill. -/
theorem c2_witness :
    c2WitnessSet.remainingQuantity_ +
        (c2WitnessSet.matches_.map (fun x => x.quantity_)).sum = 30 ∧
      c2WitnessSet.remainingQuantity_ =
        30 - (c2WitnessSet.matches_.map (fun x => x.quantity_)).sum ∧
      (c2WitnessSet.overflow_ = true ↔
        c2WitnessSet.matches_.length = MAX_MATCH_EVENTS ∧
        ∃ best rest, c2WitnessBook2.oppChain Side.BUY = best :: rest ∧
          best.isMatchable 100 = true) :=
  c2_result_set_bookkeeping c2WitnessBook 2 101 Side.BUY 100 30 c2WitnessBook2 c2WitnessSet
    (by decide)

/-! Foundations for the order-book invariant: characterizations of the
table lookup, the per-client map, and the soft-delete queue scan. -/

theorem findLevelIdx_none_iff (ls : List PriceLevel) (idx : Nat) :
    findLevelIdx ls idx = none ↔ ∀ L ∈ ls, getPriceIndex L.price_ ≠ idx := by
  induction ls with
  | nil => simp [findLevelIdx]
  | cons L0 rest ih =>
      rw [findLevelIdx]
      by_cases h0 : getPriceIndex L0.price_ = idx
      · simp [h0]
      · rw [if_neg h0]
        constructor
        · intro h L hL
          rcases List.mem_cons.mp hL with hL | hL
          · subst hL
            exact h0
          · refine (ih.mp ?_) L hL
            cases hrec : findLevelIdx rest idx with
            | none => rfl
            | some i =>
                rw [hrec] at h
                exact Option.noConfusion h
        · intro h
          have h2 := ih.mpr (fun L hL => h L (List.mem_cons_of_mem _ hL))
          rw [h2]
          rfl

theorem findLevelIdx_some_spec :
    ∀ (ls : List PriceLevel) (idx i : Nat), findLevelIdx ls idx = some i →
      ∃ L, ls[i]? = some L ∧ getPriceIndex L.price_ = idx := by
  intro ls
  induction ls with
  | nil =>
      intro idx i h
      exact Option.noConfusion h
  | cons L0 rest ih =>
      intro idx i h
      rw [findLevelIdx] at h
      by_cases h0 : getPriceIndex L0.price_ = idx
      · rw [if_pos h0] at h
        cases h
        exact ⟨L0, by simp, h0⟩
      · rw [if_neg h0] at h
        cases hrec : findLevelIdx rest idx with
        | none =>
            rw [hrec] at h
            exact Option.noConfusion h
        | some i2 =>
            rw [hrec] at h
            have h2 : i2 + 1 = i := by
              have h3 : some (i2 + 1) = some i := h
              exact Option.some.inj h3
            subst h2
            obtain ⟨L, hL, hidx⟩ := ih idx i2 hrec
            exact ⟨L, by simpa using hL, hidx⟩

theorem findLevelIdx_at :
    ∀ (ls : List PriceLevel) (i : Nat) (L : PriceLevel), ls[i]? = some L →
      (ls.map (fun x => getPriceIndex x.price_)).Nodup →
      findLevelIdx ls (getPriceIndex L.price_) = some i := by
  intro ls
  induction ls with
  | nil =>
      intro i L hL _
      simp at hL
  | cons L0 rest ih =>
      intro i L hL hnd
      rw [List.map_cons, List.nodup_cons] at hnd
      cases i with
      | zero =>
          simp only [List.getElem?_cons_zero, Option.some.injEq] at hL
          subst hL
          rw [findLevelIdx, if_pos rfl]
      | succ i2 =>
          simp only [List.getElem?_cons_succ] at hL
          have hmem : L ∈ rest := by
            rcases List.mem_iff_getElem?.mpr ⟨i2, hL⟩ with h
            exact h
          have hne : getPriceIndex L0.price_ ≠ getPriceIndex L.price_ := by
            intro heq
            exact hnd.1 (heq ▸ List.mem_map.mpr ⟨L, hmem, rfl⟩)
          rw [findLevelIdx, if_neg hne, ih i2 L hL hnd.2]
          rfl

theorem lookup_erase_other (m : List ((Nat × Nat) × Order)) (k k2 : Nat × Nat)
    (hne : k2 ≠ k) : lookupOrder (eraseOrderKey m k) k2 = lookupOrder m k2 := by
  induction m with
  | nil => rfl
  | cons e rest ih =>
      by_cases he : e.1 = k
      · rw [eraseOrderKey, if_pos he, ih, lookupOrder, if_neg]
        rw [he]
        exact fun h => hne h.symm
      · rw [eraseOrderKey, if_neg he]
        by_cases he2 : e.1 = k2
        · rw [lookupOrder, if_pos he2, lookupOrder, if_pos he2]
        · rw [lookupOrder, if_neg he2, lookupOrder, if_neg he2, ih]

theorem lookup_set_self (m : List ((Nat × Nat) × Order)) (k : Nat × Nat) (v : Order) :
    lookupOrder (setOrder m k v) k = some v := by
  unfold setOrder
  induction m with
  | nil => simp [eraseOrderKey, lookupOrder]
  | cons e rest ih =>
      by_cases he : e.1 = k
      · rw [eraseOrderKey, if_pos he]
        exact ih
      · rw [eraseOrderKey, if_neg he, List.cons_append, lookupOrder, if_neg he]
        exact ih

theorem lookup_set_other (m : List ((Nat × Nat) × Order)) (k k2 : Nat × Nat) (v : Order)
    (hne : k2 ≠ k) : lookupOrder (setOrder m k v) k2 = lookupOrder m k2 := by
  unfold setOrder
  induction m with
  | nil =>
      simp only [eraseOrderKey, List.nil_append, lookupOrder]
      rw [if_neg]
      intro h
      exact hne h.symm
  | cons e rest ih =>
      by_cases he : e.1 = k
      · rw [eraseOrderKey, if_pos he, ih, lookupOrder, if_neg]
        rw [he]
        exact fun h => hne h.symm
      · rw [eraseOrderKey, if_neg he, List.cons_append]
        by_cases he2 : e.1 = k2
        · rw [lookupOrder, if_pos he2, lookupOrder, if_pos he2]
        · rw [lookupOrder, if_neg he2, lookupOrder, if_neg he2]
          exact ih

theorem mem_of_lookup :
    ∀ (m : List ((Nat × Nat) × Order)) (k : Nat × Nat) (v : Order),
      lookupOrder m k = some v → (k, v) ∈ m := by
  intro m
  induction m with
  | nil =>
      intro k v h
      exact Option.noConfusion h
  | cons e rest ih =>
      intro k v h
      rw [lookupOrder] at h
      by_cases he : e.1 = k
      · rw [if_pos he] at h
        cases h
        subst he
        exact List.mem_cons_self _ _
      · rw [if_neg he] at h
        exact List.mem_cons_of_mem _ (ih k v h)

theorem mem_erase_elim :
    ∀ (m : List ((Nat × Nat) × Order)) (k : Nat × Nat) (e : (Nat × Nat) × Order),
      e ∈ eraseOrderKey m k → e ∈ m ∧ e.1 ≠ k := by
  intro m
  induction m with
  | nil =>
      intro k e h
      simp [eraseOrderKey] at h
  | cons e0 rest ih =>
      intro k e h
      rw [eraseOrderKey] at h
      by_cases he : e0.1 = k
      · rw [if_pos he] at h
        obtain ⟨h1, h2⟩ := ih k e h
        exact ⟨List.mem_cons_of_mem _ h1, h2⟩
      · rw [if_neg he] at h
        rcases List.mem_cons.mp h with h | h
        · subst h
          exact ⟨List.mem_cons_self _ _, he⟩
        · obtain ⟨h1, h2⟩ := ih k e h
          exact ⟨List.mem_cons_of_mem _ h1, h2⟩

theorem mem_set_elim (m : List ((Nat × Nat) × Order)) (k : Nat × Nat) (v : Order)
    (e : (Nat × Nat) × Order) (h : e ∈ setOrder m k v) :
    (e ∈ m ∧ e.1 ≠ k) ∨ e = (k, v) := by
  unfold setOrder at h
  rcases List.mem_append.mp h with h | h
  · exact Or.inl (mem_erase_elim m k e h)
  · exact Or.inr (List.mem_singleton.mp h)

theorem nodup_keys_erase (m : List ((Nat × Nat) × Order)) (k : Nat × Nat)
    (h : (m.map (fun e => e.1)).Nodup) :
    ((eraseOrderKey m k).map (fun e => e.1)).Nodup := by
  induction m with
  | nil => simp [eraseOrderKey]
  | cons e0 rest ih =>
      rw [List.map_cons, List.nodup_cons] at h
      rw [eraseOrderKey]
      by_cases he : e0.1 = k
      · rw [if_pos he]
        exact ih h.2
      · rw [if_neg he, List.map_cons, List.nodup_cons]
        refine ⟨?_, ih h.2⟩
        intro hmem
        rcases List.mem_map.mp hmem with ⟨e2, he2, hk2⟩
        exact h.1 (List.mem_map.mpr ⟨e2, (mem_erase_elim rest k e2 he2).1, hk2⟩)

theorem keys_erase_no_k (m : List ((Nat × Nat) × Order)) (k : Nat × Nat) :
    k ∉ (eraseOrderKey m k).map (fun e => e.1) := by
  intro h
  rcases List.mem_map.mp h with ⟨e, he, hk⟩
  exact (mem_erase_elim m k e he).2 hk

theorem nodup_keys_set (m : List ((Nat × Nat) × Order)) (k : Nat × Nat) (v : Order)
    (h : (m.map (fun e => e.1)).Nodup) :
    ((setOrder m k v).map (fun e => e.1)).Nodup := by
  unfold setOrder
  rw [List.map_append, List.nodup_append]
  refine ⟨nodup_keys_erase m k h, by simp, ?_⟩
  intro x hx hx2
  simp only [List.map_cons, List.map_nil, List.mem_singleton] at hx2
  rw [hx2] at hx
  exact keys_erase_no_k m k hx

/-- Specification of the scan `firstLiveAux`: it advances past a prefix of
deleted slots onto a live slot or the end. -/
theorem firstLiveAux_spec :
    ∀ (s : List BasicOrder) (i : Nat),
      ∃ k, firstLiveAux s i = i + k ∧ k ≤ s.length ∧
        (∀ m, m < k → ∀ o, s[m]? = some o → o.deleted_ = true) ∧
        (∀ o, s[k]? = some o → o.deleted_ = false) ∧
        (k = s.length ∨ k < s.length) := by
  intro s
  induction s with
  | nil =>
      intro i
      exact ⟨0, rfl, by simp, fun m hm => absurd hm (Nat.not_lt_zero m), by simp, Or.inl rfl⟩
  | cons o0 rest ih =>
      intro i
      rw [firstLiveAux]
      by_cases hd : o0.deleted_
      · obtain ⟨k, hk, hlen, hdel, hlive, _⟩ := ih (i + 1)
        refine ⟨k + 1, ?_, by simpa using Nat.succ_le_succ hlen, ?_, ?_, by simp; omega⟩
        · rw [if_pos hd, hk]
          omega
        · intro m hm o ho
          cases m with
          | zero =>
              simp only [List.getElem?_cons_zero, Option.some.injEq] at ho
              subst ho
              exact hd
          | succ m2 =>
              simp only [List.getElem?_cons_succ] at ho
              exact hdel m2 (by omega) o ho
        · intro o ho
          simp only [List.getElem?_cons_succ] at ho
          exact hlive o ho
      · refine ⟨0, ?_, by simp, by omega, ?_, by simp⟩
        · rw [if_neg hd]
          omega
        · intro o ho
          simp only [List.getElem?_cons_zero, Option.some.injEq] at ho
          subst ho
          exact Bool.eq_false_iff.mpr hd

/-- Well-formedness of a level's vector queue as the book maintains it:
`tail_` is the vector length, `offset` stays `0` (`compact()` is never
called), `head_` never passes the end, every slot before `head_` is
soft-deleted, and `size_` counts the live slots. -/
def QWF (q : OrderQueue) : Prop :=
  q.tail_ = q.orders_.length ∧ q.offset = 0 ∧ q.head_ ≤ q.orders_.length ∧
    (∀ j x, j < q.head_ → q.orders_[j]? = some x → x.deleted_ = true) ∧
    q.size_ = (liveOrders q).length

/-- The live list does not depend on the head cursor. -/
theorem liveOrders_set_head (q : OrderQueue) (h : Nat) :
    liveOrders { q with head_ := h } = liveOrders q := rfl

/-- A prefix of soft-deleted slots contributes nothing to the live list. -/
theorem filter_take_deleted (l : List BasicOrder) (i : Nat)
    (hdel : ∀ j x, j < i → l[j]? = some x → x.deleted_ = true) :
    (l.take i).filter (fun x => !x.deleted_) = [] := by
  rw [List.filter_eq_nil_iff]
  intro a ha
  rcases List.mem_iff_getElem?.mp ha with ⟨j, hj⟩
  have hjlen : j < (l.take i).length := (List.getElem?_eq_some_iff.mp hj).1
  have hji : j < i := by
    rw [List.length_take] at hjlen
    omega
  rw [List.getElem?_take_of_lt hji] at hj
  have := hdel j a hji hj
  simp [this]

/-- Behaviour of `OrderQueue::front` on a well-formed queue with at least one
live order: the head cursor advances onto the first live slot, that slot is
returned, and the slots it skipped were all soft-deleted. -/
theorem front_spec (q : OrderQueue) (hQ : QWF q) (mo : BasicOrder) (los : List BasicOrder)
    (hlo : liveOrders q = mo :: los) :
    q.front = ({ q with head_ := firstLiveIdx q.orders_ q.head_ }, some mo) ∧
    q.head_ ≤ firstLiveIdx q.orders_ q.head_ ∧
    firstLiveIdx q.orders_ q.head_ < q.orders_.length ∧
    q.orders_[firstLiveIdx q.orders_ q.head_]? = some mo ∧ mo.deleted_ = false ∧
    (∀ j x, j < firstLiveIdx q.orders_ q.head_ → q.orders_[j]? = some x →
      x.deleted_ = true) ∧
    los = (q.orders_.drop (firstLiveIdx q.orders_ q.head_ + 1)).filter
      (fun x => !x.deleted_) := by
  obtain ⟨htail, hoff, hhead, hpre, hsize⟩ := hQ
  obtain ⟨k, hk, hklen, hdel, hlive, _⟩ := firstLiveAux_spec (q.orders_.drop q.head_) q.head_
  have hfl : firstLiveIdx q.orders_ q.head_ = q.head_ + k := hk
  have hslen : (q.orders_.drop q.head_).length = q.orders_.length - q.head_ :=
    List.length_drop _ _
  have hprefix : ∀ j x, j < q.head_ + k → q.orders_[j]? = some x → x.deleted_ = true := by
    intro j x hj hx
    by_cases hj2 : j < q.head_
    · exact hpre j x hj2 hx
    · have hm : (q.orders_.drop q.head_)[j - q.head_]? = some x := by
        rw [List.getElem?_drop]
        have hidx : q.head_ + (j - q.head_) = j := by omega
        rw [hidx]
        exact hx
      exact hdel (j - q.head_) (by omega) x hm
  have hk_lt : k < (q.orders_.drop q.head_).length := by
    rcases Nat.lt_or_ge k (q.orders_.drop q.head_).length with h | h
    · exact h
    · exfalso
      have hnil : liveOrders q = [] := by
        unfold liveOrders
        rw [List.filter_eq_nil_iff]
        intro a ha
        rcases List.mem_iff_getElem?.mp ha with ⟨j, hj⟩
        have hjlt : j < q.orders_.length := (List.getElem?_eq_some_iff.mp hj).1
        have hjk : j < q.head_ + k := by omega
        have := hprefix j a hjk hj
        simp [this]
      rw [hlo] at hnil
      exact List.cons_ne_nil _ _ hnil
  have hlt : q.head_ + k < q.orders_.length := by omega
  obtain ⟨x0, hx0⟩ : ∃ x, q.orders_[q.head_ + k]? = some x :=
    ⟨_, List.getElem?_eq_getElem hlt⟩
  have hx0live : x0.deleted_ = false := by
    apply hlive
    rw [List.getElem?_drop]
    exact hx0
  have hgetx : q.orders_[q.head_ + k] = x0 := by
    have h2 := List.getElem?_eq_getElem hlt
    rw [hx0] at h2
    exact (Option.some.inj h2).symm
  have hdrop : q.orders_.drop (q.head_ + k) = x0 :: q.orders_.drop (q.head_ + k + 1) := by
    rw [List.drop_eq_getElem_cons hlt, hgetx]
  have hfilter : liveOrders q =
      x0 :: (q.orders_.drop (q.head_ + k + 1)).filter (fun x => !x.deleted_) := by
    have h2 : (q.orders_.drop (q.head_ + k)).filter (fun x => !x.deleted_) =
        x0 :: (q.orders_.drop (q.head_ + k + 1)).filter (fun x => !x.deleted_) := by
      rw [hdrop]
      simp [List.filter_cons, hx0live]
    calc liveOrders q
        = (q.orders_.take (q.head_ + k) ++ q.orders_.drop (q.head_ + k)).filter
            (fun x => !x.deleted_) := by
          unfold liveOrders
          rw [List.take_append_drop]
      _ = x0 :: (q.orders_.drop (q.head_ + k + 1)).filter (fun x => !x.deleted_) := by
          rw [List.filter_append, filter_take_deleted q.orders_ (q.head_ + k) hprefix, h2,
            List.nil_append]
  rw [hlo] at hfilter
  obtain ⟨hmo, hlos⟩ := List.cons.inj hfilter
  subst hmo
  refine ⟨?_, ?_, ?_, ?_, hx0live, ?_, ?_⟩
  · have hfr : q.front = ({ q with head_ := firstLiveIdx q.orders_ q.head_ },
        match q.orders_[firstLiveIdx q.orders_ q.head_]? with
        | some o => if o.deleted_ then none else some o
        | none => none) := rfl
    rw [hfr, hfl, hx0]
    simp [hx0live, hfl]
  · rw [hfl]
    omega
  · rw [hfl]
    exact hlt
  · rw [hfl]
    exact hx0
  · rw [hfl]
    exact hprefix
  · rw [hfl]
    exact hlos

/-- Writing a quantity into an occupied slot only rewrites the slot vector. -/
theorem queueSetQty_effect (q : OrderQueue) (i newQty : Nat) (o : BasicOrder)
    (ho : q.orders_[i]? = some o) :
    queueSetQty q i newQty =
      { q with orders_ := q.orders_.set i { o with qty_ := newQty } } := by
  unfold queueSetQty
  simp only [ho]

/-- `OrderQueue::remove` at insertion offset `0` on an offset-`0` queue
soft-deletes the named slot and decrements `size_`. -/
theorem remove_effect (q : OrderQueue) (i : Nat) (o : BasicOrder)
    (hoff : q.offset = 0) (ho : q.orders_[i]? = some o) :
    q.remove { logicalIndex_ := i, offsetAtInsert_ := 0 } =
      { q with orders_ := q.orders_.set i { o with deleted_ := true },
               size_ := q.size_ - 1 } := by
  unfold OrderQueue.remove
  simp [hoff, ho]

/-- Filtering after overwriting a slot whose prefix is all soft-deleted: the
live list is the written order (when live) followed by the live tail. -/
theorem filter_set_decomp (l : List BasicOrder) (i : Nat) (y : BasicOrder)
    (hi : i < l.length)
    (hdel : ∀ j x, j < i → l[j]? = some x → x.deleted_ = true) :
    (l.set i y).filter (fun x => !x.deleted_) =
      (if y.deleted_ then [] else [y]) ++
        (l.drop (i + 1)).filter (fun x => !x.deleted_) := by
  rw [List.set_eq_take_cons_drop y hi, List.filter_append,
    filter_take_deleted l i hdel, List.filter_cons]
  by_cases hy : y.deleted_
  · simp [hy]
  · simp [hy]

/-!
Book-level invariants: the well-formedness every public operation preserves,
the documented caller protocol, and reachability through the public
interface.
-/

/-- Book invariants between public operations: chains hold their own side's
levels sorted best-first by `isBetter`, active price indices are unique
across the book (the direct-address table has at most one occupant per
slot), every level's queue is well formed and holds at least one live order,
every live slot has a per-client table entry recording its position, price
and side, and table keys are unique. -/
structure WF (b : OrderBook) : Prop where
  bidSides : ∀ L ∈ b.bids_, L.side_ = Side.BUY
  askSides : ∀ L ∈ b.asks_, L.side_ = Side.SELL
  bidSorted : b.bids_.Pairwise (fun x y => x.isBetter y = true)
  askSorted : b.asks_.Pairwise (fun x y => x.isBetter y = true)
  idxNodup : ((b.bids_ ++ b.asks_).map (fun L => getPriceIndex L.price_)).Nodup
  qwf : ∀ L ∈ b.bids_ ++ b.asks_, QWF L.orders
  nonEmpty : ∀ L ∈ b.bids_ ++ b.asks_, liveOrders L.orders ≠ []
  coher : ∀ L ∈ b.bids_ ++ b.asks_, ∀ j o, L.orders.orders_[j]? = some o →
    o.deleted_ = false →
    ∃ ord, lookupOrder b.clientOrders_ (o.clientId_, o.orderId_) = some ord ∧
      ord.position_ = { logicalIndex_ := j, offsetAtInsert_ := 0 } ∧
      ord.price_ = L.price_ ∧ ord.side_ = L.side_ ∧
      ord.clientId_ = o.clientId_ ∧ ord.clientOrderId_ = o.orderId_
  keysNodup : (b.clientOrders_.map (fun e => e.1)).Nodup

/-- Caller protocol for `addOrder`: definite side, nonzero quantity, fresh
per-client key, and the price's table slot is not aliased by an active level
of a different price or side (the table is direct-addressed mod 256). -/
def addOK (b : OrderBook) (clientId clientOrderId : Nat) (side : Side) (price : Int)
    (quantity : Nat) : Prop :=
  (side = Side.BUY ∨ side = Side.SELL) ∧ quantity ≠ 0 ∧
    lookupOrder b.clientOrders_ (clientId, clientOrderId) = none ∧
    (∀ L ∈ b.bids_ ++ b.asks_, getPriceIndex L.price_ = getPriceIndex price →
      L.price_ = price ∧ L.side_ = side)

/-- The key `(clientId, orderId)` names a currently-resting order: some live
slot of some active level carries it.  This is the caller protocol of
`removeOrder` (the operation is defined only for resting ids). -/
def liveKeyAt (b : OrderBook) (clientId orderId : Nat) : Prop :=
  ∃ (s : Side) (i : Nat) (L : PriceLevel) (j : Nat) (o : BasicOrder),
    (s = Side.BUY ∨ s = Side.SELL) ∧ (b.chainOf s)[i]? = some L ∧
    L.orders.orders_[j]? = some o ∧ o.deleted_ = false ∧
    o.clientId_ = clientId ∧ o.orderId_ = orderId

/-- A `Nodup` list locates each value at one position. -/
theorem nodup_getElem?_inj {α : Type _} {l : List α} (h : l.Nodup) {i j : Nat} {x : α}
    (hi : l[i]? = some x) (hj : l[j]? = some x) : i = j := by
  obtain ⟨hilt, hieq⟩ := List.getElem?_eq_some_iff.mp hi
  obtain ⟨hjlt, hjeq⟩ := List.getElem?_eq_some_iff.mp hj
  exact (List.Nodup.getElem_inj_iff h).mp (hieq.trans hjeq.symm)

/-- A member of one side's chain is a member of the concatenated chains. -/
theorem chain_mem_concat {b : OrderBook} {s : Side} {L : PriceLevel}
    (hs : s = Side.BUY ∨ s = Side.SELL) (hL : L ∈ b.chainOf s) :
    L ∈ b.bids_ ++ b.asks_ := by
  rcases hs with hs | hs <;> subst hs
  · exact List.mem_append.mpr (Or.inl (by simpa [OrderBook.chainOf] using hL))
  · exact List.mem_append.mpr (Or.inr (by simpa [OrderBook.chainOf] using hL))

/-- Distinct chain positions hold distinct prices: price equality of active
levels forces equality of side, position and level. -/
theorem price_pos_inj {b : OrderBook} (hW : WF b) {s s2 : Side} {i i2 : Nat}
    {L L2 : PriceLevel}
    (hs : s = Side.BUY ∨ s = Side.SELL) (hs2 : s2 = Side.BUY ∨ s2 = Side.SELL)
    (hL : (b.chainOf s)[i]? = some L) (hL2 : (b.chainOf s2)[i2]? = some L2)
    (hp : L.price_ = L2.price_) : s = s2 ∧ i = i2 ∧ L = L2 := by
  have key : ∀ (s3 : Side) (i3 : Nat) (L3 : PriceLevel),
      (s3 = Side.BUY ∨ s3 = Side.SELL) → (b.chainOf s3)[i3]? = some L3 →
      ∃ p3, (b.bids_ ++ b.asks_)[p3]? = some L3 ∧
        (s3 = Side.BUY → p3 = i3 ∧ p3 < b.bids_.length) ∧
        (s3 = Side.SELL → p3 = b.bids_.length + i3) := by
    intro s3 i3 L3 hs3 hL3
    rcases hs3 with hs3 | hs3 <;> subst hs3
    · have hb : b.bids_[i3]? = some L3 := by simpa [OrderBook.chainOf] using hL3
      have hlt : i3 < b.bids_.length := (List.getElem?_eq_some_iff.mp hb).1
      refine ⟨i3, ?_, fun _ => ⟨rfl, hlt⟩, fun h => Side.noConfusion h⟩
      rw [List.getElem?_append_left hlt]
      exact hb
    · have ha : b.asks_[i3]? = some L3 := by simpa [OrderBook.chainOf] using hL3
      refine ⟨b.bids_.length + i3, ?_, fun h => Side.noConfusion h, fun _ => rfl⟩
      rw [List.getElem?_append_right (Nat.le_add_right _ _)]
      have harith : b.bids_.length + i3 - b.bids_.length = i3 := by omega
      rw [harith]
      exact ha
  obtain ⟨p1, hp1, hb1, ha1⟩ := key s i L hs hL
  obtain ⟨p2, hp2, hb2, ha2⟩ := key s2 i2 L2 hs2 hL2
  have hm1 : ((b.bids_ ++ b.asks_).map (fun x => getPriceIndex x.price_))[p1]? =
      some (getPriceIndex L.price_) := by
    rw [List.getElem?_map, hp1]
    rfl
  have hm2 : ((b.bids_ ++ b.asks_).map (fun x => getPriceIndex x.price_))[p2]? =
      some (getPriceIndex L.price_) := by
    rw [List.getElem?_map, hp2, hp]
    rfl
  have hpp : p1 = p2 := nodup_getElem?_inj hW.idxNodup hm1 hm2
  have hsame : s = s2 ∧ i = i2 := by
    rcases hs with hsb | hss <;> rcases hs2 with hs2b | hs2s
    · obtain ⟨he1, _⟩ := hb1 hsb
      obtain ⟨he2, _⟩ := hb2 hs2b
      rw [hsb, hs2b]
      exact ⟨rfl, by omega⟩
    · obtain ⟨he1, hlt1⟩ := hb1 hsb
      have he2 := ha2 hs2s
      omega
    · obtain ⟨he2, hlt2⟩ := hb2 hs2b
      have he1 := ha1 hss
      omega
    · have he1 := ha1 hss
      have he2 := ha2 hs2s
      rw [hss, hs2s]
      exact ⟨rfl, by omega⟩
  obtain ⟨hseq, hieq⟩ := hsame
  refine ⟨hseq, hieq, ?_⟩
  rw [← hseq, ← hieq] at hL2
  rw [hL] at hL2
  exact Option.some.inj hL2

/-- `findLevel` on an active level's price resolves to exactly that level's
chain position. -/
theorem findLevel_at {b : OrderBook}
    (hnd : ((b.bids_ ++ b.asks_).map (fun L => getPriceIndex L.price_)).Nodup)
    {s : Side} {i : Nat} {L : PriceLevel}
    (hs : s = Side.BUY ∨ s = Side.SELL) (hL : (b.chainOf s)[i]? = some L) :
    b.findLevel L.price_ = some (s, i) := by
  rw [List.map_append, List.nodup_append] at hnd
  obtain ⟨hndB, hndA, hdisj⟩ := hnd
  rcases hs with hs | hs <;> subst hs
  · have hb : b.bids_[i]? = some L := by simpa [OrderBook.chainOf] using hL
    unfold OrderBook.findLevel
    simp only [findLevelIdx_at b.bids_ i L hb hndB]
  · have ha : b.asks_[i]? = some L := by simpa [OrderBook.chainOf] using hL
    have hnone : findLevelIdx b.bids_ (getPriceIndex L.price_) = none := by
      rw [findLevelIdx_none_iff]
      intro L2 hL2 heq
      have hmemB : getPriceIndex L2.price_ ∈
          b.bids_.map (fun x => getPriceIndex x.price_) :=
        List.mem_map.mpr ⟨L2, hL2, rfl⟩
      have hmemA : getPriceIndex L.price_ ∈
          b.asks_.map (fun x => getPriceIndex x.price_) :=
        List.mem_map.mpr ⟨L, List.mem_iff_getElem?.mpr ⟨i, ha⟩, rfl⟩
      rw [heq] at hmemB
      exact hdisj hmemB hmemA
    unfold OrderBook.findLevel
    simp only [hnone, findLevelIdx_at b.asks_ i L ha hndA]

/-- Live slots carry unique `(clientId, orderId)` keys across the book. -/
theorem live_key_inj {b : OrderBook} (hW : WF b) {s s2 : Side} {i i2 j j2 : Nat}
    {L L2 : PriceLevel} {o o2 : BasicOrder}
    (hs : s = Side.BUY ∨ s = Side.SELL) (hs2 : s2 = Side.BUY ∨ s2 = Side.SELL)
    (hL : (b.chainOf s)[i]? = some L) (hL2 : (b.chainOf s2)[i2]? = some L2)
    (ho : L.orders.orders_[j]? = some o) (ho2 : L2.orders.orders_[j2]? = some o2)
    (hlive : o.deleted_ = false) (hlive2 : o2.deleted_ = false)
    (hc : o.clientId_ = o2.clientId_) (hoid : o.orderId_ = o2.orderId_) :
    s = s2 ∧ i = i2 ∧ j = j2 ∧ o = o2 := by
  have hm1 : L ∈ b.bids_ ++ b.asks_ :=
    chain_mem_concat hs (List.mem_iff_getElem?.mpr ⟨i, hL⟩)
  have hm2 : L2 ∈ b.bids_ ++ b.asks_ :=
    chain_mem_concat hs2 (List.mem_iff_getElem?.mpr ⟨i2, hL2⟩)
  obtain ⟨ord1, hlk1, hpos1, hpr1, hsd1, hcl1, hco1⟩ := hW.coher L hm1 j o ho hlive
  obtain ⟨ord2, hlk2, hpos2, hpr2, hsd2, hcl2, hco2⟩ := hW.coher L2 hm2 j2 o2 ho2 hlive2
  rw [hc, hoid, hlk2] at hlk1
  have hord : ord2 = ord1 := Option.some.inj hlk1
  rw [hord] at hpos2 hpr2
  have hp : L.price_ = L2.price_ := by rw [← hpr1, ← hpr2]
  obtain ⟨hseq, hieq, hLeq⟩ := price_pos_inj hW hs hs2 hL hL2 hp
  have hjeq : j = j2 := by
    rw [hpos1] at hpos2
    exact congrArg QueuePosition.logicalIndex_ hpos2
  refine ⟨hseq, hieq, hjeq, ?_⟩
  rw [← hLeq, ← hjeq] at ho2
  rw [ho] at ho2
  exact Option.some.inj ho2

/-- Overwriting a slot with the value it already holds is the identity. -/
theorem set_getElem?_self {α : Type _} {l : List α} {i : Nat} {a : α}
    (h : l[i]? = some a) : l.set i a = l := by
  apply List.ext_getElem?
  intro j
  by_cases hij : i = j
  · subst hij
    rw [List.getElem?_set_self (List.getElem?_eq_some_iff.mp h).1, h]
  · rw [List.getElem?_set_ne hij]

/-- Erasing the very slot that was overwritten forgets the overwrite. -/
theorem eraseIdx_set_same {α : Type _} : ∀ (l : List α) (i : Nat) (a : α),
    (l.set i a).eraseIdx i = l.eraseIdx i
  | [], _, _ => rfl
  | _ :: _, 0, _ => rfl
  | x :: xs, i + 1, a => congrArg (List.cons x) (eraseIdx_set_same xs i a)

/-- `isBetter` reads only the left side's side tag and both prices. -/
theorem isBetter_congr {a a2 c c2 : PriceLevel} (hsd : a2.side_ = a.side_)
    (hpa : a2.price_ = a.price_) (hpc : c2.price_ = c.price_) :
    a2.isBetter c2 = a.isBetter c := by
  unfold PriceLevel.isBetter
  rw [hsd, hpa, hpc]

/-- Replacing a level by one with the same price and side preserves chain
sortedness. -/
theorem pairwise_isBetter_set {ls : List PriceLevel} {i : Nat} {L L2 : PriceLevel}
    (hL : ls[i]? = some L) (hp : L2.price_ = L.price_) (hsd : L2.side_ = L.side_)
    (hsort : ls.Pairwise (fun x y => x.isBetter y = true)) :
    (ls.set i L2).Pairwise (fun x y => x.isBetter y = true) := by
  have hi : i < ls.length := (List.getElem?_eq_some_iff.mp hL).1
  have hLi : ls[i] = L := (List.getElem?_eq_some_iff.mp hL).2
  rw [List.pairwise_iff_getElem] at hsort ⊢
  intro a c ha hc hac
  rw [List.length_set] at ha hc
  rw [List.getElem_set, List.getElem_set]
  by_cases hia : i = a <;> by_cases hic : i = c
  · omega
  · subst hia
    rw [if_pos rfl, if_neg hic]
    have h0 := hsort i c ha hc hac
    rw [hLi] at h0
    exact (isBetter_congr hsd hp rfl).trans h0
  · subst hic
    rw [if_neg hia, if_pos rfl]
    have h0 := hsort a i ha hc hac
    rw [hLi] at h0
    exact (isBetter_congr rfl rfl hp).trans h0
  · rw [if_neg hia, if_neg hic]
    exact hsort a c ha hc hac

/-- Replacing a level by one with the same price leaves the price-index map
unchanged. -/
theorem map_idx_set {ls : List PriceLevel} {i : Nat} {L L2 : PriceLevel}
    (hL : ls[i]? = some L) (hp : L2.price_ = L.price_) :
    (ls.set i L2).map (fun x => getPriceIndex x.price_) =
      ls.map (fun x => getPriceIndex x.price_) := by
  rw [List.map_set]
  apply set_getElem?_self
  rw [List.getElem?_map, hL]
  simp [hp]

/-- Specialization of `pairwise_isBetter_set` to a queue replacement. -/
theorem pairwise_isBetter_setq {ls : List PriceLevel} {i : Nat} {L : PriceLevel}
    (q : OrderQueue) (hL : ls[i]? = some L)
    (hsort : ls.Pairwise (fun x y => x.isBetter y = true)) :
    (ls.set i { L with orders := q }).Pairwise (fun x y => x.isBetter y = true) :=
  pairwise_isBetter_set hL rfl rfl hsort

/-- Specialization of `map_idx_set` to a queue replacement. -/
theorem map_idx_setq {ls : List PriceLevel} {i : Nat} {L : PriceLevel}
    (q : OrderQueue) (hL : ls[i]? = some L) :
    (ls.set i { L with orders := q }).map (fun x => getPriceIndex x.price_) =
      ls.map (fun x => getPriceIndex x.price_) :=
  map_idx_set hL rfl

/-- Soft-deleting a live slot removes exactly that order from the live list
(for any value of the size counter). -/
theorem liveOrders_delete_slot (q : OrderQueue) (j : Nat) (o : BasicOrder)
    (ho : q.orders_[j]? = some o) (holive : o.deleted_ = false) :
    liveOrders q =
      (q.orders_.take j).filter (fun x => !x.deleted_) ++
        o :: (q.orders_.drop (j + 1)).filter (fun x => !x.deleted_) ∧
    ∀ sz, liveOrders { q with
        orders_ := q.orders_.set j { o with deleted_ := true }, size_ := sz } =
      (q.orders_.take j).filter (fun x => !x.deleted_) ++
        (q.orders_.drop (j + 1)).filter (fun x => !x.deleted_) := by
  have hj : j < q.orders_.length := (List.getElem?_eq_some_iff.mp ho).1
  have hget : q.orders_[j] = o := (List.getElem?_eq_some_iff.mp ho).2
  constructor
  · have hdecomp : q.orders_ = q.orders_.take j ++ o :: q.orders_.drop (j + 1) := by
      conv_lhs => rw [← List.take_append_drop j q.orders_]
      rw [List.drop_eq_getElem_cons hj, hget]
    unfold liveOrders
    conv_lhs => rw [hdecomp]
    rw [List.filter_append, List.filter_cons]
    simp [holive]
  · intro sz
    unfold liveOrders
    show (q.orders_.set j { o with deleted_ := true }).filter (fun x => !x.deleted_) = _
    rw [List.set_eq_take_cons_drop _ hj, List.filter_append, List.filter_cons]
    simp

/-- Soft-deleting a live slot preserves queue well-formedness when the size
counter is decremented with it; the live count drops by one. -/
theorem QWF_delete_slot {q : OrderQueue} (hQ : QWF q) {j : Nat} {o : BasicOrder}
    (ho : q.orders_[j]? = some o) (holive : o.deleted_ = false) :
    QWF { q with
          orders_ := q.orders_.set j { o with deleted_ := true },
          size_ := q.size_ - 1 } ∧
    (liveOrders { q with
          orders_ := q.orders_.set j { o with deleted_ := true },
          size_ := q.size_ - 1 }).length + 1 = (liveOrders q).length := by
  obtain ⟨htl, hoff, hhd, hpre, hsz⟩ := hQ
  have hj : j < q.orders_.length := (List.getElem?_eq_some_iff.mp ho).1
  obtain ⟨hlive_eq, hlive_set⟩ := liveOrders_delete_slot q j o ho holive
  have hlen : (liveOrders { q with
      orders_ := q.orders_.set j { o with deleted_ := true },
      size_ := q.size_ - 1 }).length + 1 = (liveOrders q).length := by
    rw [hlive_set (q.size_ - 1), hlive_eq]
    simp only [List.length_append, List.length_cons]
    omega
  refine ⟨⟨?_, hoff, ?_, ?_, ?_⟩, hlen⟩
  · show q.tail_ = (q.orders_.set j { o with deleted_ := true }).length
    rw [List.length_set]
    exact htl
  · show q.head_ ≤ (q.orders_.set j { o with deleted_ := true }).length
    rw [List.length_set]
    exact hhd
  · intro p x hp hx
    show x.deleted_ = true
    by_cases hpj : j = p
    · subst hpj
      rw [List.getElem?_set_self hj] at hx
      rw [← Option.some.inj hx]
    · rw [List.getElem?_set_ne hpj] at hx
      exact hpre p x hp hx
  · show q.size_ - 1 = _
    have hq : q.size_ = (liveOrders q).length := hsz
    omega

/-- After erasing the removed order's key, every other live slot keeps its
table entry. -/
theorem coher_erase_other {b : OrderBook} (hW : WF b) {s : Side} {i j : Nat}
    {L : PriceLevel} {o : BasicOrder}
    (hs : s = Side.BUY ∨ s = Side.SELL) (hL : (b.chainOf s)[i]? = some L)
    (ho : L.orders.orders_[j]? = some o) (holive : o.deleted_ = false)
    {s2 : Side} {i2 j2 : Nat} {L2 : PriceLevel} {o2 : BasicOrder}
    (hs2 : s2 = Side.BUY ∨ s2 = Side.SELL) (hL2 : (b.chainOf s2)[i2]? = some L2)
    (ho2 : L2.orders.orders_[j2]? = some o2) (hlive2 : o2.deleted_ = false)
    (hdiff : ¬ (s2 = s ∧ i2 = i ∧ j2 = j)) :
    ∃ ord, lookupOrder (eraseOrderKey b.clientOrders_ (o.clientId_, o.orderId_))
        (o2.clientId_, o2.orderId_) = some ord ∧
      ord.position_ = { logicalIndex_ := j2, offsetAtInsert_ := 0 } ∧
      ord.price_ = L2.price_ ∧ ord.side_ = L2.side_ ∧
      ord.clientId_ = o2.clientId_ ∧ ord.clientOrderId_ = o2.orderId_ := by
  have hmem2 : L2 ∈ b.bids_ ++ b.asks_ :=
    chain_mem_concat hs2 (List.mem_iff_getElem?.mpr ⟨i2, hL2⟩)
  obtain ⟨ord, hlk, hp1, hp2, hp3, hp4, hp5⟩ := hW.coher L2 hmem2 j2 o2 ho2 hlive2
  have hkey : (o2.clientId_, o2.orderId_) ≠ (o.clientId_, o.orderId_) := by
    intro hk
    have hc := congrArg Prod.fst hk
    have hoid := congrArg Prod.snd hk
    obtain ⟨ha, hb, hc2, _⟩ :=
      live_key_inj hW hs2 hs hL2 hL ho2 ho hlive2 holive hc hoid
    exact hdiff ⟨ha, hb, hc2⟩
  refine ⟨ord, ?_, hp1, hp2, hp3, hp4, hp5⟩
  rw [lookup_erase_other _ _ _ hkey]
  exact hlk

/-- The surviving-level case of `removeOrder`: soft-deleting one of several
live orders of a level and erasing its key preserves the book invariants. -/
theorem wf_remove_set {b : OrderBook} (hW : WF b) {s : Side} {i : Nat}
    {L : PriceLevel} {j : Nat} {o : BasicOrder}
    (hs : s = Side.BUY ∨ s = Side.SELL)
    (hL : (b.chainOf s)[i]? = some L)
    (ho : L.orders.orders_[j]? = some o) (holive : o.deleted_ = false)
    (hndie : (liveOrders L.orders).length ≠ 1) :
    WF { b.setLevel s i { L with orders := { L.orders with
          orders_ := L.orders.orders_.set j { o with deleted_ := true },
          size_ := L.orders.size_ - 1 } } with
        clientOrders_ := eraseOrderKey b.clientOrders_ (o.clientId_, o.orderId_) } := by
  have hmem : L ∈ b.bids_ ++ b.asks_ :=
    chain_mem_concat hs (List.mem_iff_getElem?.mpr ⟨i, hL⟩)
  have hQ := hW.qwf L hmem
  obtain ⟨hQ3, hlen3⟩ := QWF_delete_slot hQ ho holive
  have hjlt : j < L.orders.orders_.length := (List.getElem?_eq_some_iff.mp ho).1
  have hq3live : liveOrders { L.orders with
      orders_ := L.orders.orders_.set j { o with deleted_ := true },
      size_ := L.orders.size_ - 1 } ≠ [] := by
    intro hnil
    rw [hnil] at hlen3
    simp only [List.length_nil, Nat.zero_add] at hlen3
    exact hndie hlen3.symm
  rcases hs with hs | hs <;> subst hs
  · have hLb : b.bids_[i]? = some L := by simpa [OrderBook.chainOf] using hL
    have hilt : i < b.bids_.length := (List.getElem?_eq_some_iff.mp hLb).1
    show WF { b with
        bids_ := b.bids_.set i { L with orders := { L.orders with
          orders_ := L.orders.orders_.set j { o with deleted_ := true },
          size_ := L.orders.size_ - 1 } },
        clientOrders_ := eraseOrderKey b.clientOrders_ (o.clientId_, o.orderId_) }
    refine ⟨?_, ?_, ?_, ?_, ?_, ?_, ?_, ?_, ?_⟩
    · intro x hx
      rcases List.mem_or_eq_of_mem_set hx with hx2 | hx2
      · exact hW.bidSides x hx2
      · rw [hx2]
        exact hW.bidSides L (List.mem_iff_getElem?.mpr ⟨i, hLb⟩)
    · exact hW.askSides
    · exact pairwise_isBetter_setq _ hLb hW.bidSorted
    · exact hW.askSorted
    · rw [List.map_append, map_idx_setq _ hLb, ← List.map_append]
      exact hW.idxNodup
    · intro x hx
      rcases List.mem_append.mp hx with hxb | hxa
      · rcases List.mem_or_eq_of_mem_set hxb with hx2 | hx2
        · exact hW.qwf x (List.mem_append.mpr (Or.inl hx2))
        · rw [hx2]
          exact hQ3
      · exact hW.qwf x (List.mem_append.mpr (Or.inr hxa))
    · intro x hx
      rcases List.mem_append.mp hx with hxb | hxa
      · rcases List.mem_or_eq_of_mem_set hxb with hx2 | hx2
        · exact hW.nonEmpty x (List.mem_append.mpr (Or.inl hx2))
        · rw [hx2]
          exact hq3live
      · exact hW.nonEmpty x (List.mem_append.mpr (Or.inr hxa))
    · intro x hx j2 o2 ho2 hlive2
      rcases List.mem_append.mp hx with hxb | hxa
      · rcases List.mem_iff_getElem?.mp hxb with ⟨p, hp⟩
        by_cases hpi : i = p
        · subst hpi
          rw [List.getElem?_set_self hilt] at hp
          have hx3 : x = { L with orders := { L.orders with
              orders_ := L.orders.orders_.set j { o with deleted_ := true },
              size_ := L.orders.size_ - 1 } } := (Option.some.inj hp).symm
          subst hx3
          by_cases hjj : j = j2
          · subst hjj
            have ho2b : (L.orders.orders_.set j { o with deleted_ := true })[j]? =
                some o2 := ho2
            rw [List.getElem?_set_self hjlt] at ho2b
            have ho2c : o2 = { o with deleted_ := true } := (Option.some.inj ho2b).symm
            rw [ho2c] at hlive2
            simp at hlive2
          · have ho2b : (L.orders.orders_.set j { o with deleted_ := true })[j2]? =
                some o2 := ho2
            rw [List.getElem?_set_ne hjj] at ho2b
            have hres := coher_erase_other hW (Or.inl rfl) hL ho holive (Or.inl rfl) hL
              ho2b hlive2 (fun hcon => hjj hcon.2.2.symm)
            exact hres
        · rw [List.getElem?_set_ne hpi] at hp
          have hL2pos : (b.chainOf Side.BUY)[p]? = some x := by
            simpa [OrderBook.chainOf] using hp
          exact coher_erase_other hW (Or.inl rfl) hL ho holive (Or.inl rfl) hL2pos ho2
            hlive2 (fun hcon => hpi hcon.2.1.symm)
      · rcases List.mem_iff_getElem?.mp hxa with ⟨p, hp⟩
        have hL2pos : (b.chainOf Side.SELL)[p]? = some x := by
          simpa [OrderBook.chainOf] using hp
        exact coher_erase_other hW (Or.inl rfl) hL ho holive (Or.inr rfl) hL2pos ho2
          hlive2 (fun hcon => Side.noConfusion hcon.1)
    · exact nodup_keys_erase _ _ hW.keysNodup
  · have hLa : b.asks_[i]? = some L := by simpa [OrderBook.chainOf] using hL
    have hilt : i < b.asks_.length := (List.getElem?_eq_some_iff.mp hLa).1
    show WF { b with
        asks_ := b.asks_.set i { L with orders := { L.orders with
          orders_ := L.orders.orders_.set j { o with deleted_ := true },
          size_ := L.orders.size_ - 1 } },
        clientOrders_ := eraseOrderKey b.clientOrders_ (o.clientId_, o.orderId_) }
    refine ⟨?_, ?_, ?_, ?_, ?_, ?_, ?_, ?_, ?_⟩
    · exact hW.bidSides
    · intro x hx
      rcases List.mem_or_eq_of_mem_set hx with hx2 | hx2
      · exact hW.askSides x hx2
      · rw [hx2]
        exact hW.askSides L (List.mem_iff_getElem?.mpr ⟨i, hLa⟩)
    · exact hW.bidSorted
    · exact pairwise_isBetter_setq _ hLa hW.askSorted
    · rw [List.map_append, map_idx_setq _ hLa, ← List.map_append]
      exact hW.idxNodup
    · intro x hx
      rcases List.mem_append.mp hx with hxb | hxa
      · exact hW.qwf x (List.mem_append.mpr (Or.inl hxb))
      · rcases List.mem_or_eq_of_mem_set hxa with hx2 | hx2
        · exact hW.qwf x (List.mem_append.mpr (Or.inr hx2))
        · rw [hx2]
          exact hQ3
    · intro x hx
      rcases List.mem_append.mp hx with hxb | hxa
      · exact hW.nonEmpty x (List.mem_append.mpr (Or.inl hxb))
      · rcases List.mem_or_eq_of_mem_set hxa with hx2 | hx2
        · exact hW.nonEmpty x (List.mem_append.mpr (Or.inr hx2))
        · rw [hx2]
          exact hq3live
    · intro x hx j2 o2 ho2 hlive2
      rcases List.mem_append.mp hx with hxb | hxa
      · rcases List.mem_iff_getElem?.mp hxb with ⟨p, hp⟩
        have hL2pos : (b.chainOf Side.BUY)[p]? = some x := by
          simpa [OrderBook.chainOf] using hp
        exact coher_erase_other hW (Or.inr rfl) hL ho holive (Or.inl rfl) hL2pos ho2
          hlive2 (fun hcon => Side.noConfusion hcon.1)
      · rcases List.mem_iff_getElem?.mp hxa with ⟨p, hp⟩
        by_cases hpi : i = p
        · subst hpi
          rw [List.getElem?_set_self hilt] at hp
          have hx3 : x = { L with orders := { L.orders with
              orders_ := L.orders.orders_.set j { o with deleted_ := true },
              size_ := L.orders.size_ - 1 } } := (Option.some.inj hp).symm
          subst hx3
          by_cases hjj : j = j2
          · subst hjj
            have ho2b : (L.orders.orders_.set j { o with deleted_ := true })[j]? =
                some o2 := ho2
            rw [List.getElem?_set_self hjlt] at ho2b
            have ho2c : o2 = { o with deleted_ := true } := (Option.some.inj ho2b).symm
            rw [ho2c] at hlive2
            simp at hlive2
          · have ho2b : (L.orders.orders_.set j { o with deleted_ := true })[j2]? =
                some o2 := ho2
            rw [List.getElem?_set_ne hjj] at ho2b
            have hres := coher_erase_other hW (Or.inr rfl) hL ho holive (Or.inr rfl) hL
              ho2b hlive2 (fun hcon => hjj hcon.2.2.symm)
            exact hres
        · rw [List.getElem?_set_ne hpi] at hp
          have hL2pos : (b.chainOf Side.SELL)[p]? = some x := by
            simpa [OrderBook.chainOf] using hp
          exact coher_erase_other hW (Or.inr rfl) hL ho holive (Or.inr rfl) hL2pos ho2
            hlive2 (fun hcon => hpi hcon.2.1.symm)
    · exact nodup_keys_erase _ _ hW.keysNodup

/-- The dying-level case of `removeOrder`: the level is unlinked from its
chain and the key erased; the book invariants survive. -/
theorem wf_remove_erase {b : OrderBook} (hW : WF b) {s : Side} {i : Nat}
    {L : PriceLevel} {j : Nat} {o : BasicOrder}
    (hs : s = Side.BUY ∨ s = Side.SELL)
    (hL : (b.chainOf s)[i]? = some L)
    (ho : L.orders.orders_[j]? = some o) (holive : o.deleted_ = false) :
    WF { b.setChain s ((b.chainOf s).eraseIdx i) with
        clientOrders_ := eraseOrderKey b.clientOrders_ (o.clientId_, o.orderId_) } := by
  rcases hs with hs | hs <;> subst hs
  · show WF { b with
        bids_ := b.bids_.eraseIdx i,
        clientOrders_ := eraseOrderKey b.clientOrders_ (o.clientId_, o.orderId_) }
    refine ⟨?_, ?_, ?_, ?_, ?_, ?_, ?_, ?_, ?_⟩
    · intro x hx
      exact hW.bidSides x (List.eraseIdx_subset _ _ hx)
    · exact hW.askSides
    · exact List.Pairwise.sublist (List.eraseIdx_sublist _ _) hW.bidSorted
    · exact hW.askSorted
    · have hsub : List.Sublist
          (((b.bids_.eraseIdx i) ++ b.asks_).map (fun x => getPriceIndex x.price_))
          ((b.bids_ ++ b.asks_).map (fun x => getPriceIndex x.price_)) :=
        List.Sublist.map _
          (List.Sublist.append (List.eraseIdx_sublist _ _) (List.Sublist.refl _))
      exact List.Nodup.sublist hsub hW.idxNodup
    · intro x hx
      rcases List.mem_append.mp hx with hxb | hxa
      · exact hW.qwf x (List.mem_append.mpr (Or.inl (List.eraseIdx_subset _ _ hxb)))
      · exact hW.qwf x (List.mem_append.mpr (Or.inr hxa))
    · intro x hx
      rcases List.mem_append.mp hx with hxb | hxa
      · exact hW.nonEmpty x (List.mem_append.mpr (Or.inl (List.eraseIdx_subset _ _ hxb)))
      · exact hW.nonEmpty x (List.mem_append.mpr (Or.inr hxa))
    · intro x hx j2 o2 ho2 hlive2
      rcases List.mem_append.mp hx with hxb | hxa
      · rcases List.mem_iff_getElem?.mp hxb with ⟨p, hp⟩
        rw [List.getElem?_eraseIdx] at hp
        by_cases hpi : p < i
        · rw [if_pos hpi] at hp
          have hL2pos : (b.chainOf Side.BUY)[p]? = some x := by
            simpa [OrderBook.chainOf] using hp
          have hpne : p ≠ i := by omega
          have hres := coher_erase_other hW (Or.inl rfl) hL ho holive (Or.inl rfl)
            hL2pos ho2 hlive2 (fun hcon => hpne hcon.2.1)
          exact hres
        · rw [if_neg hpi] at hp
          have hL2pos : (b.chainOf Side.BUY)[p + 1]? = some x := by
            simpa [OrderBook.chainOf] using hp
          have hpne : p + 1 ≠ i := by omega
          have hres := coher_erase_other hW (Or.inl rfl) hL ho holive (Or.inl rfl)
            hL2pos ho2 hlive2 (fun hcon => hpne hcon.2.1)
          exact hres
      · rcases List.mem_iff_getElem?.mp hxa with ⟨p, hp⟩
        have hL2pos : (b.chainOf Side.SELL)[p]? = some x := by
          simpa [OrderBook.chainOf] using hp
        have hres := coher_erase_other hW (Or.inl rfl) hL ho holive (Or.inr rfl)
          hL2pos ho2 hlive2 (fun hcon => Side.noConfusion hcon.1)
        exact hres
    · exact nodup_keys_erase _ _ hW.keysNodup
  · show WF { b with
        asks_ := b.asks_.eraseIdx i,
        clientOrders_ := eraseOrderKey b.clientOrders_ (o.clientId_, o.orderId_) }
    refine ⟨?_, ?_, ?_, ?_, ?_, ?_, ?_, ?_, ?_⟩
    · exact hW.bidSides
    · intro x hx
      exact hW.askSides x (List.eraseIdx_subset _ _ hx)
    · exact hW.bidSorted
    · exact List.Pairwise.sublist (List.eraseIdx_sublist _ _) hW.askSorted
    · have hsub : List.Sublist
          ((b.bids_ ++ b.asks_.eraseIdx i).map (fun x => getPriceIndex x.price_))
          ((b.bids_ ++ b.asks_).map (fun x => getPriceIndex x.price_)) :=
        List.Sublist.map _
          (List.Sublist.append (List.Sublist.refl _) (List.eraseIdx_sublist _ _))
      exact List.Nodup.sublist hsub hW.idxNodup
    · intro x hx
      rcases List.mem_append.mp hx with hxb | hxa
      · exact hW.qwf x (List.mem_append.mpr (Or.inl hxb))
      · exact hW.qwf x (List.mem_append.mpr (Or.inr (List.eraseIdx_subset _ _ hxa)))
    · intro x hx
      rcases List.mem_append.mp hx with hxb | hxa
      · exact hW.nonEmpty x (List.mem_append.mpr (Or.inl hxb))
      · exact hW.nonEmpty x (List.mem_append.mpr (Or.inr (List.eraseIdx_subset _ _ hxa)))
    · intro x hx j2 o2 ho2 hlive2
      rcases List.mem_append.mp hx with hxb | hxa
      · rcases List.mem_iff_getElem?.mp hxb with ⟨p, hp⟩
        have hL2pos : (b.chainOf Side.BUY)[p]? = some x := by
          simpa [OrderBook.chainOf] using hp
        have hres := coher_erase_other hW (Or.inr rfl) hL ho holive (Or.inl rfl)
          hL2pos ho2 hlive2 (fun hcon => Side.noConfusion hcon.1)
        exact hres
      · rcases List.mem_iff_getElem?.mp hxa with ⟨p, hp⟩
        rw [List.getElem?_eraseIdx] at hp
        by_cases hpi : p < i
        · rw [if_pos hpi] at hp
          have hL2pos : (b.chainOf Side.SELL)[p]? = some x := by
            simpa [OrderBook.chainOf] using hp
          have hpne : p ≠ i := by omega
          have hres := coher_erase_other hW (Or.inr rfl) hL ho holive (Or.inr rfl)
            hL2pos ho2 hlive2 (fun hcon => hpne hcon.2.1)
          exact hres
        · rw [if_neg hpi] at hp
          have hL2pos : (b.chainOf Side.SELL)[p + 1]? = some x := by
            simpa [OrderBook.chainOf] using hp
          have hpne : p + 1 ≠ i := by omega
          have hres := coher_erase_other hW (Or.inr rfl) hL ho holive (Or.inr rfl)
            hL2pos ho2 hlive2 (fun hcon => hpne hcon.2.1)
          exact hres
    · exact nodup_keys_erase _ _ hW.keysNodup


/-- `setChain` writes the named chain. -/
theorem chainOf_setChain_same (b : OrderBook) (s : Side) (ls : List PriceLevel) :
    (b.setChain s ls).chainOf s = ls := by
  unfold OrderBook.setChain OrderBook.chainOf
  by_cases h : s = Side.BUY <;> simp [h]

/-- `setChain` leaves the other side's chain alone. -/
theorem chainOf_setChain_other (b : OrderBook) (ls : List PriceLevel) {s s2 : Side}
    (hs : s = Side.BUY ∨ s = Side.SELL) (hs2 : s2 = Side.BUY ∨ s2 = Side.SELL)
    (hne : s2 ≠ s) : (b.setChain s ls).chainOf s2 = b.chainOf s2 := by
  rcases hs with h | h <;> rcases hs2 with h2 | h2 <;> subst h <;> subst h2
  · exact absurd rfl hne
  · simp [OrderBook.setChain, OrderBook.chainOf]
  · simp [OrderBook.setChain, OrderBook.chainOf]
  · exact absurd rfl hne

/-- `setChain` does not touch the per-client table. -/
theorem setChain_clientOrders (b : OrderBook) (s : Side) (ls : List PriceLevel) :
    (b.setChain s ls).clientOrders_ = b.clientOrders_ := by
  unfold OrderBook.setChain
  by_cases h : s = Side.BUY <;> simp [h]

/-- `setChain` does not touch the instrument. -/
theorem setChain_instrument (b : OrderBook) (s : Side) (ls : List PriceLevel) :
    (b.setChain s ls).instrument_ = b.instrument_ := by
  unfold OrderBook.setChain
  by_cases h : s = Side.BUY <;> simp [h]

/-- `setLevel` writes the named position of the named chain. -/
theorem chainOf_setLevel_same (b : OrderBook) (s : Side) (i : Nat) (M : PriceLevel) :
    (b.setLevel s i M).chainOf s = (b.chainOf s).set i M :=
  chainOf_setChain_same b s _

/-- `setLevel` leaves the other side's chain alone. -/
theorem chainOf_setLevel_other (b : OrderBook) (i : Nat) (M : PriceLevel) {s s2 : Side}
    (hs : s = Side.BUY ∨ s = Side.SELL) (hs2 : s2 = Side.BUY ∨ s2 = Side.SELL)
    (hne : s2 ≠ s) : (b.setLevel s i M).chainOf s2 = b.chainOf s2 :=
  chainOf_setChain_other b _ hs hs2 hne

/-- `setLevel` does not touch the per-client table. -/
theorem setLevel_clientOrders (b : OrderBook) (s : Side) (i : Nat) (M : PriceLevel) :
    (b.setLevel s i M).clientOrders_ = b.clientOrders_ :=
  setChain_clientOrders b s _

/-- `setLevel` does not touch the instrument. -/
theorem setLevel_instrument (b : OrderBook) (s : Side) (i : Nat) (M : PriceLevel) :
    (b.setLevel s i M).instrument_ = b.instrument_ :=
  setChain_instrument b s _

/-- Replacing the table leaves the chains alone. -/
theorem chainOf_update_clients (x : OrderBook) (m : List ((Nat × Nat) × Order))
    (s : Side) : ({ x with clientOrders_ := m }).chainOf s = x.chainOf s := rfl

/-- Replacing a level's queue leaves the book's price-index map unchanged. -/
theorem allmap_setLevelq {b : OrderBook} {s : Side} {i : Nat} {L : PriceLevel}
    (hs : s = Side.BUY ∨ s = Side.SELL) (hL : (b.chainOf s)[i]? = some L)
    (q : OrderQueue) :
    ((b.setLevel s i { L with orders := q }).bids_ ++
        (b.setLevel s i { L with orders := q }).asks_).map
        (fun x => getPriceIndex x.price_) =
      (b.bids_ ++ b.asks_).map (fun x => getPriceIndex x.price_) := by
  rcases hs with h | h <;> subst h
  · have hLb : b.bids_[i]? = some L := by simpa [OrderBook.chainOf] using hL
    show ((b.bids_.set i { L with orders := q } ++ b.asks_).map
      (fun x => getPriceIndex x.price_)) = _
    rw [List.map_append, map_idx_setq _ hLb, ← List.map_append]
  · have hLa : b.asks_[i]? = some L := by simpa [OrderBook.chainOf] using hL
    show ((b.bids_ ++ b.asks_.set i { L with orders := q }).map
      (fun x => getPriceIndex x.price_)) = _
    rw [List.map_append, map_idx_setq _ hLa, ← List.map_append]


/-- Full behaviour of `OrderBook::removeOrder` on a resting order of a
well-formed book: the slot is soft-deleted, the key erased, and the level is
unlinked exactly when it held its last live order.  The invariants are
preserved. -/
theorem removeOrder_step {b : OrderBook} (hW : WF b) {s : Side} {i : Nat}
    {L : PriceLevel} {j : Nat} {o : BasicOrder}
    (hs : s = Side.BUY ∨ s = Side.SELL)
    (hL : (b.chainOf s)[i]? = some L)
    (ho : L.orders.orders_[j]? = some o) (holive : o.deleted_ = false) :
    ∃ b2, b.removeOrder o.clientId_ o.orderId_ = some b2 ∧ WF b2 ∧
      b2.clientOrders_ = eraseOrderKey b.clientOrders_ (o.clientId_, o.orderId_) ∧
      b2.instrument_ = b.instrument_ ∧
      (∀ s3, (s3 = Side.BUY ∨ s3 = Side.SELL) → s3 ≠ s →
        b2.chainOf s3 = b.chainOf s3) ∧
      ((liveOrders L.orders).length = 1 →
        b2.chainOf s = (b.chainOf s).eraseIdx i) ∧
      ((liveOrders L.orders).length ≠ 1 →
        b2.chainOf s = (b.chainOf s).set i { L with orders := { L.orders with
          orders_ := L.orders.orders_.set j { o with deleted_ := true },
          size_ := L.orders.size_ - 1 } }) := by
  have hmem : L ∈ b.bids_ ++ b.asks_ :=
    chain_mem_concat hs (List.mem_iff_getElem?.mpr ⟨i, hL⟩)
  obtain ⟨ord, hlk, hpos, hpr, hsd, hcl, hco⟩ := hW.coher L hmem j o ho holive
  obtain ⟨htl, hoff, hhd, hpre, hsz⟩ := hW.qwf L hmem
  have hfind : b.findLevel ord.price_ = some (s, i) := by
    rw [hpr]
    exact findLevel_at hW.idxNodup hs hL
  obtain ⟨q3, hq3⟩ : ∃ q, q = ({ L.orders with
      orders_ := L.orders.orders_.set j { o with deleted_ := true },
      size_ := L.orders.size_ - 1 } : OrderQueue) := ⟨_, rfl⟩
  have hrm : L.orders.remove ord.position_ = q3 := by
    rw [hq3, hpos]
    exact remove_effect L.orders j o hoff ho
  obtain ⟨bEr, hbEr⟩ : ∃ x, x = ({ b.setLevel s i { L with orders := q3 } with
      clientOrders_ := eraseOrderKey b.clientOrders_
        (o.clientId_, o.orderId_) } : OrderBook) := ⟨_, rfl⟩
  have hstep1 : b.removeOrder o.clientId_ o.orderId_ =
      (if q3.size_ = 0 then bEr.removePriceLevel ord.price_ else some bEr) := by
    rw [hbEr]
    unfold OrderBook.removeOrder
    simp only [hlk, hfind, hL, hrm, setLevel_clientOrders]
  have hlen_pos : (liveOrders L.orders).length ≠ 0 := by
    intro h0
    exact hW.nonEmpty L hmem (List.length_eq_zero.mp h0)
  have hq3sz : q3.size_ = L.orders.size_ - 1 := by
    rw [hq3]
  have hiltc : i < (b.chainOf s).length := (List.getElem?_eq_some_iff.mp hL).1
  have hchEr : bEr.chainOf s = (b.chainOf s).set i { L with orders := q3 } := by
    rw [hbEr, chainOf_update_clients]
    exact chainOf_setLevel_same b s i _
  have hclEr : bEr.clientOrders_ =
      eraseOrderKey b.clientOrders_ (o.clientId_, o.orderId_) := by
    rw [hbEr]
  have hinEr : bEr.instrument_ = b.instrument_ := by
    rw [hbEr]
    exact setLevel_instrument b s i _
  have hothEr : ∀ s3, (s3 = Side.BUY ∨ s3 = Side.SELL) → s3 ≠ s →
      bEr.chainOf s3 = b.chainOf s3 := by
    intro s3 hs3 hne
    rw [hbEr, chainOf_update_clients]
    exact chainOf_setLevel_other b i _ hs hs3 hne
  by_cases hdie : (liveOrders L.orders).length = 1
  · have hq30 : q3.size_ = 0 := by omega
    have hgetEr : (bEr.chainOf s)[i]? = some { L with orders := q3 } := by
      rw [hchEr]
      exact List.getElem?_set_self hiltc
    have hmapEr : (bEr.bids_ ++ bEr.asks_).map (fun x => getPriceIndex x.price_) =
        (b.bids_ ++ b.asks_).map (fun x => getPriceIndex x.price_) := by
      rw [hbEr]
      exact allmap_setLevelq hs hL q3
    have hndEr : ((bEr.bids_ ++ bEr.asks_).map
        (fun x => getPriceIndex x.price_)).Nodup := by
      rw [hmapEr]
      exact hW.idxNodup
    have hfind2 : bEr.findLevel ord.price_ = some (s, i) := by
      have h0 := findLevel_at hndEr hs hgetEr
      rw [hpr]
      exact h0
    have hstep2 : bEr.removePriceLevel ord.price_ =
        some (bEr.setChain s ((b.chainOf s).eraseIdx i)) := by
      unfold OrderBook.removePriceLevel
      simp only [hfind2]
      by_cases h1 : (bEr.chainOf s).length = 1
      · rw [if_pos h1]
        have hlen1 : (b.chainOf s).length = 1 := by
          rw [hchEr, List.length_set] at h1
          exact h1
        obtain ⟨x, hx⟩ := List.length_eq_one.mp hlen1
        have hi0 : i = 0 := by
          rw [hlen1] at hiltc
          omega
        rw [hx, hi0]
        rfl
      · rw [if_neg h1]
        rw [hchEr, eraseIdx_set_same]
    refine ⟨bEr.setChain s ((b.chainOf s).eraseIdx i),
      by rw [hstep1, if_pos hq30, hstep2], ?_, ?_, ?_, ?_, ?_, ?_⟩
    · have hwf := wf_remove_erase hW hs hL ho holive
      have hEq : bEr.setChain s ((b.chainOf s).eraseIdx i) =
          { b.setChain s ((b.chainOf s).eraseIdx i) with
            clientOrders_ := eraseOrderKey b.clientOrders_
              (o.clientId_, o.orderId_) } := by
        rw [hbEr]
        rcases hs with h | h <;> subst h <;> rfl
      rw [hEq]
      exact hwf
    · rw [setChain_clientOrders]
      exact hclEr
    · rw [setChain_instrument]
      exact hinEr
    · intro s3 hs3 hne
      rw [chainOf_setChain_other bEr _ hs hs3 hne]
      exact hothEr s3 hs3 hne
    · intro _
      exact chainOf_setChain_same bEr s _
    · intro hcon
      exact absurd hdie hcon
  · have hq30 : ¬ q3.size_ = 0 := by omega
    refine ⟨bEr, by rw [hstep1, if_neg hq30], ?_, hclEr, hinEr, hothEr, ?_, ?_⟩
    · have hwf := wf_remove_set hW hs hL ho holive hdie
      rw [hbEr, hq3]
      exact hwf
    · intro hcon
      exact absurd hcon hdie
    · intro _
      rw [hchEr, hq3]


/-!
`addOrder`: ordering facts about the chain splice, and preservation of the
book invariants by both `addOrder` paths.
-/

/-- Same-side levels with distinct prices compare strictly one way. -/
theorem isBetter_total {x y : PriceLevel} {s : Side}
    (hs : s = Side.BUY ∨ s = Side.SELL) (hx : x.side_ = s) (hy : y.side_ = s)
    (hne : x.price_ ≠ y.price_) (h : x.isBetter y = false) : y.isBetter x = true := by
  unfold PriceLevel.isBetter at h ⊢
  rcases hs with h2 | h2 <;> subst h2
  · rw [hx] at h
    rw [hy]
    simp at h ⊢
    omega
  · rw [hx] at h
    rw [hy]
    have hni : ¬ (Side.SELL = Side.BUY) := by decide
    rw [if_neg hni] at h ⊢
    simp at h ⊢
    omega

/-- `isBetter` is transitive across levels of one side. -/
theorem isBetter_trans {x y z : PriceLevel} {s : Side}
    (hs : s = Side.BUY ∨ s = Side.SELL) (hx : x.side_ = s) (hy : y.side_ = s)
    (h1 : x.isBetter y = true) (h2 : y.isBetter z = true) : x.isBetter z = true := by
  unfold PriceLevel.isBetter at h1 h2 ⊢
  rcases hs with hb | hb <;> subst hb
  · rw [hx] at h1 ⊢
    rw [hy] at h2
    simp at h1 h2 ⊢
    omega
  · rw [hx] at h1 ⊢
    rw [hy] at h2
    have hni : ¬ (Side.SELL = Side.BUY) := by decide
    rw [if_neg hni] at h1 h2 ⊢
    simp at h1 h2 ⊢
    omega

/-- Everything in the walk's output is the new level or an old node. -/
theorem walkInsert_mem (L : PriceLevel) :
    ∀ (r : List PriceLevel) (x : PriceLevel), x ∈ walkInsert L r → x = L ∨ x ∈ r := by
  intro r
  induction r with
  | nil =>
      intro x hx
      rw [walkInsert] at hx
      exact Or.inl (List.mem_singleton.mp hx)
  | cons g r2 ih =>
      intro x hx
      rw [walkInsert] at hx
      by_cases hc : L.isBetter g
      · rw [if_pos hc] at hx
        rcases List.mem_cons.mp hx with h | h
        · exact Or.inl h
        · exact Or.inr h
      · rw [if_neg hc] at hx
        rcases List.mem_cons.mp hx with h | h
        · refine Or.inr ?_
          rw [h]
          exact List.mem_cons_self g r2
        · rcases ih x h with h2 | h2
          · exact Or.inl h2
          · exact Or.inr (List.mem_cons_of_mem g h2)

/-- The walk's output is a permutation of the new level consed on. -/
theorem walkInsert_perm (L : PriceLevel) :
    ∀ (r : List PriceLevel), List.Perm (walkInsert L r) (L :: r) := by
  intro r
  induction r with
  | nil => exact List.Perm.refl _
  | cons g r2 ih =>
      rw [walkInsert]
      by_cases hc : L.isBetter g
      · rw [if_pos hc]
      · rw [if_neg hc]
        exact List.Perm.trans (List.Perm.cons g ih) (List.Perm.swap L g r2)

/-- The full splice is a permutation of the new level consed on. -/
theorem spliceLevel_perm (ls : List PriceLevel) (L : PriceLevel) :
    List.Perm (spliceLevel ls L) (L :: ls) := by
  cases ls with
  | nil => exact List.Perm.refl _
  | cons best rest =>
      show List.Perm
        (if L.isBetter best = true then L :: best :: rest else best :: walkInsert L rest)
        (L :: best :: rest)
      by_cases hb : L.isBetter best
      · rw [if_pos hb]
      · rw [if_neg hb]
        exact List.Perm.trans (List.Perm.cons best (walkInsert_perm L rest))
          (List.Perm.swap L best rest)

/-- Inserting a fresh-priced same-side level by the walk keeps the chain
sorted. -/
theorem walkInsert_pairwise {s : Side} (hs : s = Side.BUY ∨ s = Side.SELL)
    {L : PriceLevel} (hLs : L.side_ = s) :
    ∀ (rest : List PriceLevel), (∀ x ∈ rest, x.side_ = s) →
      (∀ x ∈ rest, x.price_ ≠ L.price_) →
      rest.Pairwise (fun x y => x.isBetter y = true) →
      (walkInsert L rest).Pairwise (fun x y => x.isBetter y = true) := by
  intro rest
  induction rest with
  | nil =>
      intro _ _ _
      rw [walkInsert]
      exact List.Pairwise.cons (fun y hy => absurd hy (List.not_mem_nil y))
        List.Pairwise.nil
  | cons g r ih =>
      intro hside hfresh hsort
      rw [walkInsert]
      rcases List.pairwise_cons.mp hsort with ⟨hgall, hr⟩
      by_cases hc : L.isBetter g
      · rw [if_pos hc]
        refine List.pairwise_cons.mpr ⟨?_, hsort⟩
        intro y hy
        rcases List.mem_cons.mp hy with h | h
        · rw [h]
          exact hc
        · exact isBetter_trans hs hLs (hside g (List.mem_cons_self g r)) hc (hgall y h)
      · rw [if_neg hc]
        refine List.pairwise_cons.mpr ⟨?_, ?_⟩
        · intro y hy
          rcases walkInsert_mem L r y hy with h | h
          · rw [h]
            exact isBetter_total hs hLs (hside g (List.mem_cons_self g r))
              (fun he => hfresh g (List.mem_cons_self g r) he.symm)
              (Bool.eq_false_iff.mpr hc)
          · exact hgall y h
        · exact ih (fun x hx => hside x (List.mem_cons_of_mem g hx))
            (fun x hx => hfresh x (List.mem_cons_of_mem g hx)) hr

/-- The splice of a fresh-priced same-side level keeps the chain sorted. -/
theorem spliceLevel_pairwise {s : Side} (hs : s = Side.BUY ∨ s = Side.SELL)
    {ls : List PriceLevel} {L : PriceLevel}
    (hside : ∀ x ∈ ls, x.side_ = s) (hLs : L.side_ = s)
    (hfresh : ∀ x ∈ ls, x.price_ ≠ L.price_)
    (hsort : ls.Pairwise (fun x y => x.isBetter y = true)) :
    (spliceLevel ls L).Pairwise (fun x y => x.isBetter y = true) := by
  cases ls with
  | nil =>
      exact List.Pairwise.cons (fun y hy => absurd hy (List.not_mem_nil y))
        List.Pairwise.nil
  | cons best rest =>
      show (if L.isBetter best = true then L :: best :: rest
        else best :: walkInsert L rest).Pairwise (fun x y => x.isBetter y = true)
      rcases List.pairwise_cons.mp hsort with ⟨hball, hrest⟩
      by_cases hb : L.isBetter best
      · rw [if_pos hb]
        refine List.pairwise_cons.mpr ⟨?_, hsort⟩
        intro y hy
        rcases List.mem_cons.mp hy with h | h
        · rw [h]
          exact hb
        · exact isBetter_trans hs hLs (hside best (List.mem_cons_self best rest)) hb
            (hball y h)
      · rw [if_neg hb]
        refine List.pairwise_cons.mpr ⟨?_, ?_⟩
        · intro y hy
          rcases walkInsert_mem L rest y hy with h | h
          · rw [h]
            exact isBetter_total hs hLs (hside best (List.mem_cons_self best rest))
              (fun he => hfresh best (List.mem_cons_self best rest) he.symm)
              (Bool.eq_false_iff.mpr hb)
          · exact hball y h
        · exact walkInsert_pairwise hs hLs rest
            (fun x hx => hside x (List.mem_cons_of_mem best hx))
            (fun x hx => hfresh x (List.mem_cons_of_mem best hx)) hrest


/-- The fresh-level path of `addOrder`: a new single-order level spliced into
its side's chain, with the table entry written, preserves the invariants. -/
theorem wf_add_new {b : OrderBook} (hW : WF b) {s : Side}
    (hs : s = Side.BUY ∨ s = Side.SELL) {c coid moid : Nat} {price : Int} {qty : Nat}
    (hfreshk : lookupOrder b.clientOrders_ (c, coid) = none)
    (hidxfresh : ∀ x ∈ b.bids_ ++ b.asks_,
      getPriceIndex x.price_ ≠ getPriceIndex price) :
    WF { b.setChain s (spliceLevel (b.chainOf s)
          { side_ := s, price_ := price, orders :=
            { orders_ := [{ orderId_ := coid, qty_ := qty, clientId_ := c }],
              tail_ := 1, head_ := 0, offset := 0, size_ := 1 } }) with
        clientOrders_ := setOrder b.clientOrders_ (c, coid)
          { position_ := { logicalIndex_ := 0, offsetAtInsert_ := 0 },
            clientOrderId_ := coid, marketOrderId_ := moid, price_ := price,
            qty_ := qty, clientId_ := c, side_ := s } } := by
  have hpfresh : ∀ x ∈ b.bids_ ++ b.asks_, x.price_ ≠ price := by
    intro x hx he
    exact hidxfresh x hx (by rw [he])
  have hkey_old : ∀ L2 ∈ b.bids_ ++ b.asks_, ∀ (j2 : Nat) (o2 : BasicOrder),
      L2.orders.orders_[j2]? = some o2 → o2.deleted_ = false →
      ¬ ((o2.clientId_, o2.orderId_) = ((c, coid) : Nat × Nat)) := by
    intro L2 hm j2 o2 ho2 hl2 hk
    obtain ⟨ord, hlk2, _, _, _, _, _⟩ := hW.coher L2 hm j2 o2 ho2 hl2
    rw [hk, hfreshk] at hlk2
    exact Option.noConfusion hlk2
  obtain ⟨Ln, hLn⟩ : ∃ x, x = ({
      side_ := s, price_ := price,
      orders := { orders_ := [{ orderId_ := coid, qty_ := qty, clientId_ := c }],
                  tail_ := 1, head_ := 0, offset := 0, size_ := 1 } } : PriceLevel) :=
    ⟨_, rfl⟩
  obtain ⟨ordn, hordn⟩ : ∃ x, x = ({
      position_ := { logicalIndex_ := 0, offsetAtInsert_ := 0 },
      clientOrderId_ := coid, marketOrderId_ := moid, price_ := price,
      qty_ := qty, clientId_ := c, side_ := s } : Order) := ⟨_, rfl⟩
  rw [← hLn, ← hordn]
  have hLns : Ln.side_ = s := by rw [hLn]
  have hLnp : Ln.price_ = price := by rw [hLn]
  have hLnq : QWF Ln.orders := by
    rw [hLn]
    refine ⟨rfl, rfl, Nat.zero_le _, ?_, rfl⟩
    intro p x hp hx
    exact absurd hp (Nat.not_lt_zero p)
  have hslots : Ln.orders.orders_ =
      [{ orderId_ := coid, qty_ := qty, clientId_ := c }] := by rw [hLn]
  have hLnlive : liveOrders Ln.orders =
      [{ orderId_ := coid, qty_ := qty, clientId_ := c }] := by
    rw [hLn]
    rfl
  have hordnpos : ordn.position_ =
      { logicalIndex_ := 0, offsetAtInsert_ := 0 } := by rw [hordn]
  have hordnp : ordn.price_ = price := by rw [hordn]
  have hordns : ordn.side_ = s := by rw [hordn]
  have hordnc : ordn.clientId_ = c := by rw [hordn]
  have hordno : ordn.clientOrderId_ = coid := by rw [hordn]
  have hfreshLn : ∀ x ∈ b.bids_ ++ b.asks_, x.price_ ≠ Ln.price_ := by
    intro x hx
    rw [hLnp]
    exact hpfresh x hx
  have hidxLn : ∀ x ∈ b.bids_ ++ b.asks_,
      getPriceIndex x.price_ ≠ getPriceIndex Ln.price_ := by
    intro x hx
    rw [hLnp]
    exact hidxfresh x hx
  rcases hs with h | h <;> subst h
  · show WF { b with
        bids_ := spliceLevel b.bids_ Ln,
        clientOrders_ := setOrder b.clientOrders_ (c, coid) ordn }
    refine ⟨?_, ?_, ?_, ?_, ?_, ?_, ?_, ?_, ?_⟩
    · intro x hx
      rcases List.mem_cons.mp ((spliceLevel_perm b.bids_ Ln).mem_iff.mp hx) with h2 | h2
      · rw [h2]
        exact hLns
      · exact hW.bidSides x h2
    · exact hW.askSides
    · exact spliceLevel_pairwise (Or.inl rfl) hW.bidSides hLns
        (fun x hx => hfreshLn x (List.mem_append.mpr (Or.inl hx))) hW.bidSorted
    · exact hW.askSorted
    · have hperm := List.Perm.map (fun x => getPriceIndex x.price_)
        (List.Perm.append_right b.asks_ (spliceLevel_perm b.bids_ Ln))
      rw [List.Perm.nodup_iff hperm, List.cons_append, List.map_cons]
      refine List.nodup_cons.mpr ⟨?_, hW.idxNodup⟩
      intro hmem2
      rcases List.mem_map.mp hmem2 with ⟨x, hx, hfx⟩
      exact hidxLn x hx hfx
    · intro x hx
      rcases List.mem_append.mp hx with hxb | hxa
      · rcases List.mem_cons.mp ((spliceLevel_perm b.bids_ Ln).mem_iff.mp hxb) with h2 | h2
        · rw [h2]
          exact hLnq
        · exact hW.qwf x (List.mem_append.mpr (Or.inl h2))
      · exact hW.qwf x (List.mem_append.mpr (Or.inr hxa))
    · intro x hx
      rcases List.mem_append.mp hx with hxb | hxa
      · rcases List.mem_cons.mp ((spliceLevel_perm b.bids_ Ln).mem_iff.mp hxb) with h2 | h2
        · rw [h2, hLnlive]
          simp
        · exact hW.nonEmpty x (List.mem_append.mpr (Or.inl h2))
      · exact hW.nonEmpty x (List.mem_append.mpr (Or.inr hxa))
    · intro x hx j2 o2 ho2 hlive2
      rcases List.mem_append.mp hx with hxb | hxa
      · rcases List.mem_cons.mp ((spliceLevel_perm b.bids_ Ln).mem_iff.mp hxb) with h2 | h2
        · subst h2
          rw [hslots] at ho2
          cases j2 with
          | zero =>
              simp only [List.getElem?_cons_zero, Option.some.injEq] at ho2
              refine ⟨ordn, ?_, ?_, ?_, ?_, ?_, ?_⟩
              · rw [← ho2]
                exact lookup_set_self b.clientOrders_ (c, coid) ordn
              · exact hordnpos
              · rw [hordnp, hLnp]
              · rw [hordns, hLns]
              · rw [hordnc, ← ho2]
              · rw [hordno, ← ho2]
          | succ n =>
              simp at ho2
        · have hm2 : x ∈ b.bids_ ++ b.asks_ := List.mem_append.mpr (Or.inl h2)
          obtain ⟨ord, hlk, hp1, hp2, hp3, hp4, hp5⟩ := hW.coher x hm2 j2 o2 ho2 hlive2
          refine ⟨ord, ?_, hp1, hp2, hp3, hp4, hp5⟩
          rw [lookup_set_other b.clientOrders_ (c, coid) _ ordn
              (hkey_old x hm2 j2 o2 ho2 hlive2)]
          exact hlk
      · have hm2 : x ∈ b.bids_ ++ b.asks_ := List.mem_append.mpr (Or.inr hxa)
        obtain ⟨ord, hlk, hp1, hp2, hp3, hp4, hp5⟩ := hW.coher x hm2 j2 o2 ho2 hlive2
        refine ⟨ord, ?_, hp1, hp2, hp3, hp4, hp5⟩
        rw [lookup_set_other b.clientOrders_ (c, coid) _ ordn
            (hkey_old x hm2 j2 o2 ho2 hlive2)]
        exact hlk
    · exact nodup_keys_set b.clientOrders_ (c, coid) ordn hW.keysNodup
  · show WF { b with
        asks_ := spliceLevel b.asks_ Ln,
        clientOrders_ := setOrder b.clientOrders_ (c, coid) ordn }
    refine ⟨?_, ?_, ?_, ?_, ?_, ?_, ?_, ?_, ?_⟩
    · exact hW.bidSides
    · intro x hx
      rcases List.mem_cons.mp ((spliceLevel_perm b.asks_ Ln).mem_iff.mp hx) with h2 | h2
      · rw [h2]
        exact hLns
      · exact hW.askSides x h2
    · exact hW.bidSorted
    · exact spliceLevel_pairwise (Or.inr rfl) hW.askSides hLns
        (fun x hx => hfreshLn x (List.mem_append.mpr (Or.inr hx))) hW.askSorted
    · have hperm := List.Perm.map (fun x => getPriceIndex x.price_)
        (List.Perm.append_left b.bids_ (spliceLevel_perm b.asks_ Ln))
      rw [List.Perm.nodup_iff hperm]
      have hsplit : (b.bids_ ++ Ln :: b.asks_).map (fun x => getPriceIndex x.price_) =
          (b.bids_.map (fun x => getPriceIndex x.price_)) ++
            getPriceIndex Ln.price_ :: (b.asks_.map (fun x => getPriceIndex x.price_)) := by
        rw [List.map_append, List.map_cons]
      rw [hsplit]
      have hold := hW.idxNodup
      rw [List.map_append] at hold
      rw [List.nodup_append] at hold ⊢
      obtain ⟨hnb, hna, hdisj⟩ := hold
      refine ⟨hnb, ?_, ?_⟩
      · refine List.nodup_cons.mpr ⟨?_, hna⟩
        intro hmem2
        rcases List.mem_map.mp hmem2 with ⟨x, hx, hfx⟩
        exact hidxLn x (List.mem_append.mpr (Or.inr hx)) hfx
      · intro a ha hamem
        rcases List.mem_cons.mp hamem with h2 | h2
        · rcases List.mem_map.mp ha with ⟨x, hx, hfx⟩
          rw [h2] at hfx
          exact hidxLn x (List.mem_append.mpr (Or.inl hx)) hfx
        · exact hdisj ha h2
    · intro x hx
      rcases List.mem_append.mp hx with hxb | hxa
      · exact hW.qwf x (List.mem_append.mpr (Or.inl hxb))
      · rcases List.mem_cons.mp ((spliceLevel_perm b.asks_ Ln).mem_iff.mp hxa) with h2 | h2
        · rw [h2]
          exact hLnq
        · exact hW.qwf x (List.mem_append.mpr (Or.inr h2))
    · intro x hx
      rcases List.mem_append.mp hx with hxb | hxa
      · exact hW.nonEmpty x (List.mem_append.mpr (Or.inl hxb))
      · rcases List.mem_cons.mp ((spliceLevel_perm b.asks_ Ln).mem_iff.mp hxa) with h2 | h2
        · rw [h2, hLnlive]
          simp
        · exact hW.nonEmpty x (List.mem_append.mpr (Or.inr h2))
    · intro x hx j2 o2 ho2 hlive2
      rcases List.mem_append.mp hx with hxb | hxa
      · have hm2 : x ∈ b.bids_ ++ b.asks_ := List.mem_append.mpr (Or.inl hxb)
        obtain ⟨ord, hlk, hp1, hp2, hp3, hp4, hp5⟩ := hW.coher x hm2 j2 o2 ho2 hlive2
        refine ⟨ord, ?_, hp1, hp2, hp3, hp4, hp5⟩
        rw [lookup_set_other b.clientOrders_ (c, coid) _ ordn
            (hkey_old x hm2 j2 o2 ho2 hlive2)]
        exact hlk
      · rcases List.mem_cons.mp ((spliceLevel_perm b.asks_ Ln).mem_iff.mp hxa) with h2 | h2
        · subst h2
          rw [hslots] at ho2
          cases j2 with
          | zero =>
              simp only [List.getElem?_cons_zero, Option.some.injEq] at ho2
              refine ⟨ordn, ?_, ?_, ?_, ?_, ?_, ?_⟩
              · rw [← ho2]
                exact lookup_set_self b.clientOrders_ (c, coid) ordn
              · exact hordnpos
              · rw [hordnp, hLnp]
              · rw [hordns, hLns]
              · rw [hordnc, ← ho2]
              · rw [hordno, ← ho2]
          | succ n =>
              simp at ho2
        · have hm2 : x ∈ b.bids_ ++ b.asks_ := List.mem_append.mpr (Or.inr h2)
          obtain ⟨ord, hlk, hp1, hp2, hp3, hp4, hp5⟩ := hW.coher x hm2 j2 o2 ho2 hlive2
          refine ⟨ord, ?_, hp1, hp2, hp3, hp4, hp5⟩
          rw [lookup_set_other b.clientOrders_ (c, coid) _ ordn
              (hkey_old x hm2 j2 o2 ho2 hlive2)]
          exact hlk
    · exact nodup_keys_set b.clientOrders_ (c, coid) ordn hW.keysNodup


/-- The existing-level path of `addOrder`: pushing a fresh-keyed order at the
tail of a level's queue, with the table entry written, preserves the
invariants. -/
theorem wf_add_push {b : OrderBook} (hW : WF b) {s : Side} {i : Nat} {Lf : PriceLevel}
    (hs : s = Side.BUY ∨ s = Side.SELL) (hL : (b.chainOf s)[i]? = some Lf)
    {c coid moid : Nat} {qty : Nat}
    (hfreshk : lookupOrder b.clientOrders_ (c, coid) = none) :
    WF { b.setLevel s i { Lf with orders := { Lf.orders with
          orders_ := Lf.orders.orders_ ++
            [{ orderId_ := coid, qty_ := qty, clientId_ := c }],
          tail_ := Lf.orders.tail_ + 1, size_ := Lf.orders.size_ + 1 } } with
        clientOrders_ := setOrder b.clientOrders_ (c, coid) {
          position_ := { logicalIndex_ := Lf.orders.orders_.length,
                         offsetAtInsert_ := 0 },
          clientOrderId_ := coid, marketOrderId_ := moid, price_ := Lf.price_,
          qty_ := qty, clientId_ := c, side_ := Lf.side_ } } := by
  have hmem : Lf ∈ b.bids_ ++ b.asks_ :=
    chain_mem_concat hs (List.mem_iff_getElem?.mpr ⟨i, hL⟩)
  obtain ⟨htl, hoff, hhd, hpre, hsz⟩ := hW.qwf Lf hmem
  have hkey_old : ∀ L2 ∈ b.bids_ ++ b.asks_, ∀ (j2 : Nat) (o2 : BasicOrder),
      L2.orders.orders_[j2]? = some o2 → o2.deleted_ = false →
      ¬ ((o2.clientId_, o2.orderId_) = ((c, coid) : Nat × Nat)) := by
    intro L2 hm j2 o2 ho2 hl2 hk
    obtain ⟨ord, hlk2, _, _, _, _, _⟩ := hW.coher L2 hm j2 o2 ho2 hl2
    rw [hk, hfreshk] at hlk2
    exact Option.noConfusion hlk2
  have hsz2 : Lf.orders.size_ =
      (Lf.orders.orders_.filter (fun o => !o.deleted_)).length := hsz
  have hQp : QWF { Lf.orders with
      orders_ := Lf.orders.orders_ ++
        [{ orderId_ := coid, qty_ := qty, clientId_ := c }],
      tail_ := Lf.orders.tail_ + 1, size_ := Lf.orders.size_ + 1 } := by
    refine ⟨?_, hoff, ?_, ?_, ?_⟩
    · show Lf.orders.tail_ + 1 = (Lf.orders.orders_ ++
        [({ orderId_ := coid, qty_ := qty, clientId_ := c } : BasicOrder)]).length
      rw [List.length_append, htl]
      rfl
    · show Lf.orders.head_ ≤ (Lf.orders.orders_ ++
        [({ orderId_ := coid, qty_ := qty, clientId_ := c } : BasicOrder)]).length
      rw [List.length_append]
      have h0 : Lf.orders.head_ ≤ Lf.orders.orders_.length := hhd
      omega
    · intro p x hp hx
      have hp2 : p < Lf.orders.head_ := hp
      have hx2 : (Lf.orders.orders_ ++
          [{ orderId_ := coid, qty_ := qty, clientId_ := c }])[p]? = some x := hx
      have hplen : p < Lf.orders.orders_.length := by omega
      rw [List.getElem?_append_left hplen] at hx2
      exact hpre p x hp2 hx2
    · show Lf.orders.size_ + 1 = (liveOrders { Lf.orders with
          orders_ := Lf.orders.orders_ ++
            [{ orderId_ := coid, qty_ := qty, clientId_ := c }],
          tail_ := Lf.orders.tail_ + 1, size_ := Lf.orders.size_ + 1 }).length
      unfold liveOrders
      show Lf.orders.size_ + 1 = ((Lf.orders.orders_ ++
        [({ orderId_ := coid, qty_ := qty, clientId_ := c } : BasicOrder)]).filter
          (fun o : BasicOrder => !o.deleted_)).length
      rw [List.filter_append, List.length_append, hsz2]
      simp
  have hlivep : liveOrders { Lf.orders with
      orders_ := Lf.orders.orders_ ++
        [{ orderId_ := coid, qty_ := qty, clientId_ := c }],
      tail_ := Lf.orders.tail_ + 1, size_ := Lf.orders.size_ + 1 } =
      liveOrders Lf.orders ++ [{ orderId_ := coid, qty_ := qty, clientId_ := c }] := by
    unfold liveOrders
    show (Lf.orders.orders_ ++
      [({ orderId_ := coid, qty_ := qty, clientId_ := c } : BasicOrder)]).filter
        (fun o : BasicOrder => !o.deleted_) = _
    rw [List.filter_append]
    simp
  obtain ⟨qp, hqp⟩ : ∃ x, x = ({ Lf.orders with
      orders_ := Lf.orders.orders_ ++
        [{ orderId_ := coid, qty_ := qty, clientId_ := c }],
      tail_ := Lf.orders.tail_ + 1, size_ := Lf.orders.size_ + 1 } : OrderQueue) :=
    ⟨_, rfl⟩
  obtain ⟨ordp, hordp⟩ : ∃ x, x = ({
      position_ := { logicalIndex_ := Lf.orders.orders_.length,
                     offsetAtInsert_ := 0 },
      clientOrderId_ := coid, marketOrderId_ := moid, price_ := Lf.price_,
      qty_ := qty, clientId_ := c, side_ := Lf.side_ } : Order) := ⟨_, rfl⟩
  rw [← hqp, ← hordp]
  rw [← hqp] at hQp hlivep
  have hslots : qp.orders_ = Lf.orders.orders_ ++
      [{ orderId_ := coid, qty_ := qty, clientId_ := c }] := by rw [hqp]
  have hordppos : ordp.position_ =
      { logicalIndex_ := Lf.orders.orders_.length, offsetAtInsert_ := 0 } := by
    rw [hordp]
  have hordpp : ordp.price_ = Lf.price_ := by rw [hordp]
  have hordps : ordp.side_ = Lf.side_ := by rw [hordp]
  have hordpc : ordp.clientId_ = c := by rw [hordp]
  have hordpo : ordp.clientOrderId_ = coid := by rw [hordp]
  have hlivene : liveOrders qp ≠ [] := by
    rw [hlivep]
    simp
  have hcoherp : ∀ (j2 : Nat) (o2 : BasicOrder), qp.orders_[j2]? = some o2 →
      o2.deleted_ = false →
      ∃ ord, lookupOrder (setOrder b.clientOrders_ (c, coid) ordp)
          (o2.clientId_, o2.orderId_) = some ord ∧
        ord.position_ = { logicalIndex_ := j2, offsetAtInsert_ := 0 } ∧
        ord.price_ = Lf.price_ ∧ ord.side_ = Lf.side_ ∧
        ord.clientId_ = o2.clientId_ ∧ ord.clientOrderId_ = o2.orderId_ := by
    intro j2 o2 ho2 hlive2
    rw [hslots] at ho2
    rcases Nat.lt_trichotomy j2 Lf.orders.orders_.length with hlt | heq | hgt
    · rw [List.getElem?_append_left hlt] at ho2
      obtain ⟨ord, hlk, hp1, hp2, hp3, hp4, hp5⟩ := hW.coher Lf hmem j2 o2 ho2 hlive2
      refine ⟨ord, ?_, hp1, hp2, hp3, hp4, hp5⟩
      rw [lookup_set_other b.clientOrders_ (c, coid) _ ordp
          (hkey_old Lf hmem j2 o2 ho2 hlive2)]
      exact hlk
    · subst heq
      rw [List.getElem?_append_right (Nat.le_refl _)] at ho2
      simp only [Nat.sub_self, List.getElem?_cons_zero, Option.some.injEq] at ho2
      refine ⟨ordp, ?_, hordppos, hordpp, hordps, ?_, ?_⟩
      · rw [← ho2]
        exact lookup_set_self b.clientOrders_ (c, coid) ordp
      · rw [hordpc, ← ho2]
      · rw [hordpo, ← ho2]
    · have hge : Lf.orders.orders_.length ≤ j2 := by omega
      rw [List.getElem?_append_right hge] at ho2
      have hd : j2 - Lf.orders.orders_.length = (j2 - Lf.orders.orders_.length - 1) + 1 := by
        omega
      rw [hd] at ho2
      simp at ho2
  rcases hs with h | h <;> subst h
  · have hLb : b.bids_[i]? = some Lf := by simpa [OrderBook.chainOf] using hL
    have hilt : i < b.bids_.length := (List.getElem?_eq_some_iff.mp hLb).1
    show WF { b with
        bids_ := b.bids_.set i { Lf with orders := qp },
        clientOrders_ := setOrder b.clientOrders_ (c, coid) ordp }
    refine ⟨?_, ?_, ?_, ?_, ?_, ?_, ?_, ?_, ?_⟩
    · intro x hx
      rcases List.mem_or_eq_of_mem_set hx with hx2 | hx2
      · exact hW.bidSides x hx2
      · rw [hx2]
        exact hW.bidSides Lf (List.mem_iff_getElem?.mpr ⟨i, hLb⟩)
    · exact hW.askSides
    · exact pairwise_isBetter_setq _ hLb hW.bidSorted
    · exact hW.askSorted
    · rw [List.map_append, map_idx_setq _ hLb, ← List.map_append]
      exact hW.idxNodup
    · intro x hx
      rcases List.mem_append.mp hx with hxb | hxa
      · rcases List.mem_or_eq_of_mem_set hxb with hx2 | hx2
        · exact hW.qwf x (List.mem_append.mpr (Or.inl hx2))
        · rw [hx2]
          exact hQp
      · exact hW.qwf x (List.mem_append.mpr (Or.inr hxa))
    · intro x hx
      rcases List.mem_append.mp hx with hxb | hxa
      · rcases List.mem_or_eq_of_mem_set hxb with hx2 | hx2
        · exact hW.nonEmpty x (List.mem_append.mpr (Or.inl hx2))
        · rw [hx2]
          exact hlivene
      · exact hW.nonEmpty x (List.mem_append.mpr (Or.inr hxa))
    · intro x hx j2 o2 ho2 hlive2
      rcases List.mem_append.mp hx with hxb | hxa
      · rcases List.mem_iff_getElem?.mp hxb with ⟨p, hp⟩
        by_cases hpi : i = p
        · subst hpi
          rw [List.getElem?_set_self hilt] at hp
          have hx3 : x = { Lf with orders := qp } := (Option.some.inj hp).symm
          subst hx3
          exact hcoherp j2 o2 ho2 hlive2
        · rw [List.getElem?_set_ne hpi] at hp
          have hm2 : x ∈ b.bids_ ++ b.asks_ :=
            List.mem_append.mpr (Or.inl (List.mem_iff_getElem?.mpr ⟨p, hp⟩))
          obtain ⟨ord, hlk, hp1, hp2, hp3, hp4, hp5⟩ :=
            hW.coher x hm2 j2 o2 ho2 hlive2
          refine ⟨ord, ?_, hp1, hp2, hp3, hp4, hp5⟩
          rw [lookup_set_other b.clientOrders_ (c, coid) _ ordp
              (hkey_old x hm2 j2 o2 ho2 hlive2)]
          exact hlk
      · have hm2 : x ∈ b.bids_ ++ b.asks_ := List.mem_append.mpr (Or.inr hxa)
        obtain ⟨ord, hlk, hp1, hp2, hp3, hp4, hp5⟩ := hW.coher x hm2 j2 o2 ho2 hlive2
        refine ⟨ord, ?_, hp1, hp2, hp3, hp4, hp5⟩
        rw [lookup_set_other b.clientOrders_ (c, coid) _ ordp
            (hkey_old x hm2 j2 o2 ho2 hlive2)]
        exact hlk
    · exact nodup_keys_set b.clientOrders_ (c, coid) ordp hW.keysNodup
  · have hLa : b.asks_[i]? = some Lf := by simpa [OrderBook.chainOf] using hL
    have hilt : i < b.asks_.length := (List.getElem?_eq_some_iff.mp hLa).1
    show WF { b with
        asks_ := b.asks_.set i { Lf with orders := qp },
        clientOrders_ := setOrder b.clientOrders_ (c, coid) ordp }
    refine ⟨?_, ?_, ?_, ?_, ?_, ?_, ?_, ?_, ?_⟩
    · exact hW.bidSides
    · intro x hx
      rcases List.mem_or_eq_of_mem_set hx with hx2 | hx2
      · exact hW.askSides x hx2
      · rw [hx2]
        exact hW.askSides Lf (List.mem_iff_getElem?.mpr ⟨i, hLa⟩)
    · exact hW.bidSorted
    · exact pairwise_isBetter_setq _ hLa hW.askSorted
    · rw [List.map_append, map_idx_setq _ hLa, ← List.map_append]
      exact hW.idxNodup
    · intro x hx
      rcases List.mem_append.mp hx with hxb | hxa
      · exact hW.qwf x (List.mem_append.mpr (Or.inl hxb))
      · rcases List.mem_or_eq_of_mem_set hxa with hx2 | hx2
        · exact hW.qwf x (List.mem_append.mpr (Or.inr hx2))
        · rw [hx2]
          exact hQp
    · intro x hx
      rcases List.mem_append.mp hx with hxb | hxa
      · exact hW.nonEmpty x (List.mem_append.mpr (Or.inl hxb))
      · rcases List.mem_or_eq_of_mem_set hxa with hx2 | hx2
        · exact hW.nonEmpty x (List.mem_append.mpr (Or.inr hx2))
        · rw [hx2]
          exact hlivene
    · intro x hx j2 o2 ho2 hlive2
      rcases List.mem_append.mp hx with hxb | hxa
      · have hm2 : x ∈ b.bids_ ++ b.asks_ := List.mem_append.mpr (Or.inl hxb)
        obtain ⟨ord, hlk, hp1, hp2, hp3, hp4, hp5⟩ := hW.coher x hm2 j2 o2 ho2 hlive2
        refine ⟨ord, ?_, hp1, hp2, hp3, hp4, hp5⟩
        rw [lookup_set_other b.clientOrders_ (c, coid) _ ordp
            (hkey_old x hm2 j2 o2 ho2 hlive2)]
        exact hlk
      · rcases List.mem_iff_getElem?.mp hxa with ⟨p, hp⟩
        by_cases hpi : i = p
        · subst hpi
          rw [List.getElem?_set_self hilt] at hp
          have hx3 : x = { Lf with orders := qp } := (Option.some.inj hp).symm
          subst hx3
          exact hcoherp j2 o2 ho2 hlive2
        · rw [List.getElem?_set_ne hpi] at hp
          have hm2 : x ∈ b.bids_ ++ b.asks_ :=
            List.mem_append.mpr (Or.inr (List.mem_iff_getElem?.mpr ⟨p, hp⟩))
          obtain ⟨ord, hlk, hp1, hp2, hp3, hp4, hp5⟩ :=
            hW.coher x hm2 j2 o2 ho2 hlive2
          refine ⟨ord, ?_, hp1, hp2, hp3, hp4, hp5⟩
          rw [lookup_set_other b.clientOrders_ (c, coid) _ ordp
              (hkey_old x hm2 j2 o2 ho2 hlive2)]
          exact hlk
    · exact nodup_keys_set b.clientOrders_ (c, coid) ordp hW.keysNodup


/-- The freshly-constructed book satisfies the invariants. -/
theorem wf_empty (instr : Nat) : WF { instrument_ := instr } := by
  refine ⟨?_, ?_, ?_, ?_, ?_, ?_, ?_, ?_, ?_⟩ <;> simp

/-- `addOrder` under the caller protocol preserves the book invariants. -/
theorem addOrder_wf {b : OrderBook} (hW : WF b) {c coid moid : Nat} {side : Side}
    {price : Int} {qty : Nat} (hok : addOK b c coid side price qty) :
    WF (b.addOrder c coid moid side price qty) := by
  obtain ⟨hsides, hqty, hfreshk, halias⟩ := hok
  cases hf : b.findLevel price with
  | none =>
      have hidxfresh : ∀ x ∈ b.bids_ ++ b.asks_,
          getPriceIndex x.price_ ≠ getPriceIndex price := by
        intro x hx
        unfold OrderBook.findLevel at hf
        rcases List.mem_append.mp hx with hxb | hxa
        · cases hfb : findLevelIdx b.bids_ (getPriceIndex price) with
          | none => exact (findLevelIdx_none_iff _ _).mp hfb x hxb
          | some k =>
              simp only [hfb] at hf
              exact Option.noConfusion hf
        · cases hfb : findLevelIdx b.bids_ (getPriceIndex price) with
          | some k =>
              simp only [hfb] at hf
              exact Option.noConfusion hf
          | none =>
              simp only [hfb] at hf
              cases hfa : findLevelIdx b.asks_ (getPriceIndex price) with
              | none => exact (findLevelIdx_none_iff _ _).mp hfa x hxa
              | some k =>
                  simp only [hfa] at hf
                  exact Option.noConfusion hf
      rcases hsides with hbuy | hsell
      · subst hbuy
        have haddA : b.addOrder c coid moid Side.BUY price qty = { b with
            bids_ := spliceLevel b.bids_ {
              side_ := Side.BUY, price_ := price,
              orders := { orders_ := [{ orderId_ := coid, qty_ := qty, clientId_ := c }],
                          tail_ := 1, head_ := 0, offset := 0, size_ := 1 } },
            clientOrders_ := setOrder b.clientOrders_ (c, coid) {
              position_ := { logicalIndex_ := 0, offsetAtInsert_ := 0 },
              clientOrderId_ := coid, marketOrderId_ := moid, price_ := price,
              qty_ := qty, clientId_ := c, side_ := Side.BUY } } := by
          unfold OrderBook.addOrder
          simp only [hf]
          rfl
        rw [haddA]
        exact wf_add_new hW (Or.inl rfl) hfreshk hidxfresh
      · subst hsell
        have haddA : b.addOrder c coid moid Side.SELL price qty = { b with
            asks_ := spliceLevel b.asks_ {
              side_ := Side.SELL, price_ := price,
              orders := { orders_ := [{ orderId_ := coid, qty_ := qty, clientId_ := c }],
                          tail_ := 1, head_ := 0, offset := 0, size_ := 1 } },
            clientOrders_ := setOrder b.clientOrders_ (c, coid) {
              position_ := { logicalIndex_ := 0, offsetAtInsert_ := 0 },
              clientOrderId_ := coid, marketOrderId_ := moid, price_ := price,
              qty_ := qty, clientId_ := c, side_ := Side.SELL } } := by
          unfold OrderBook.addOrder
          simp only [hf]
          rfl
        rw [haddA]
        exact wf_add_new hW (Or.inr rfl) hfreshk hidxfresh
  | some si =>
      have hcases : (∃ k, findLevelIdx b.bids_ (getPriceIndex price) = some k ∧
            si = (Side.BUY, k)) ∨
          (∃ k, findLevelIdx b.asks_ (getPriceIndex price) = some k ∧
            si = (Side.SELL, k)) := by
        unfold OrderBook.findLevel at hf
        cases hfb : findLevelIdx b.bids_ (getPriceIndex price) with
        | some k =>
            simp only [hfb] at hf
            exact Or.inl ⟨k, rfl, (Option.some.inj hf).symm⟩
        | none =>
            simp only [hfb] at hf
            cases hfa : findLevelIdx b.asks_ (getPriceIndex price) with
            | none =>
                simp only [hfa] at hf
                exact Option.noConfusion hf
            | some k =>
                simp only [hfa] at hf
                exact Or.inr ⟨k, rfl, (Option.some.inj hf).symm⟩
      rcases hcases with ⟨k, hfb, hsi⟩ | ⟨k, hfa, hsi⟩
      · subst hsi
        obtain ⟨Lf, hLf, hLfidx⟩ := findLevelIdx_some_spec b.bids_ _ k hfb
        have hmemf : Lf ∈ b.bids_ ++ b.asks_ :=
          List.mem_append.mpr (Or.inl (List.mem_iff_getElem?.mpr ⟨k, hLf⟩))
        obtain ⟨hpeq, hseq⟩ := halias Lf hmemf hLfidx
        obtain ⟨htl, hoff, hhd, hpre, hsz⟩ := hW.qwf Lf hmemf
        have hLfc : (b.chainOf Side.BUY)[k]? = some Lf := by
          simpa [OrderBook.chainOf] using hLf
        have hpush : Lf.orders.push { orderId_ := coid, qty_ := qty, clientId_ := c } =
            ({ Lf.orders with
                orders_ := Lf.orders.orders_ ++
                  [{ orderId_ := coid, qty_ := qty, clientId_ := c }],
                tail_ := Lf.orders.tail_ + 1, size_ := Lf.orders.size_ + 1 },
             { logicalIndex_ := Lf.orders.orders_.length, offsetAtInsert_ := 0 }) := by
          unfold OrderQueue.push
          simp only [hoff]
          rw [if_neg (by rw [htl]; exact Nat.lt_irrefl _)]
        have haddB : b.addOrder c coid moid side price qty = { b.setLevel Side.BUY k
            { Lf with orders := { Lf.orders with
                orders_ := Lf.orders.orders_ ++
                  [{ orderId_ := coid, qty_ := qty, clientId_ := c }],
                tail_ := Lf.orders.tail_ + 1, size_ := Lf.orders.size_ + 1 } } with
            clientOrders_ := setOrder b.clientOrders_ (c, coid) {
              position_ := { logicalIndex_ := Lf.orders.orders_.length,
                             offsetAtInsert_ := 0 },
              clientOrderId_ := coid, marketOrderId_ := moid, price_ := price,
              qty_ := qty, clientId_ := c, side_ := side } } := by
          unfold OrderBook.addOrder
          simp only [hf, hLfc, hpush, setLevel_clientOrders]
        rw [haddB, ← hpeq, ← hseq]
        exact wf_add_push hW (Or.inl rfl) hLfc hfreshk
      · subst hsi
        obtain ⟨Lf, hLf, hLfidx⟩ := findLevelIdx_some_spec b.asks_ _ k hfa
        have hmemf : Lf ∈ b.bids_ ++ b.asks_ :=
          List.mem_append.mpr (Or.inr (List.mem_iff_getElem?.mpr ⟨k, hLf⟩))
        obtain ⟨hpeq, hseq⟩ := halias Lf hmemf hLfidx
        obtain ⟨htl, hoff, hhd, hpre, hsz⟩ := hW.qwf Lf hmemf
        have hLfc : (b.chainOf Side.SELL)[k]? = some Lf := by
          simpa [OrderBook.chainOf] using hLf
        have hpush : Lf.orders.push { orderId_ := coid, qty_ := qty, clientId_ := c } =
            ({ Lf.orders with
                orders_ := Lf.orders.orders_ ++
                  [{ orderId_ := coid, qty_ := qty, clientId_ := c }],
                tail_ := Lf.orders.tail_ + 1, size_ := Lf.orders.size_ + 1 },
             { logicalIndex_ := Lf.orders.orders_.length, offsetAtInsert_ := 0 }) := by
          unfold OrderQueue.push
          simp only [hoff]
          rw [if_neg (by rw [htl]; exact Nat.lt_irrefl _)]
        have haddB : b.addOrder c coid moid side price qty = { b.setLevel Side.SELL k
            { Lf with orders := { Lf.orders with
                orders_ := Lf.orders.orders_ ++
                  [{ orderId_ := coid, qty_ := qty, clientId_ := c }],
                tail_ := Lf.orders.tail_ + 1, size_ := Lf.orders.size_ + 1 } } with
            clientOrders_ := setOrder b.clientOrders_ (c, coid) {
              position_ := { logicalIndex_ := Lf.orders.orders_.length,
                             offsetAtInsert_ := 0 },
              clientOrderId_ := coid, marketOrderId_ := moid, price_ := price,
              qty_ := qty, clientId_ := c, side_ := side } } := by
          unfold OrderBook.addOrder
          simp only [hf, hLfc, hpush, setLevel_clientOrders]
        rw [haddB, ← hpeq, ← hseq]
        exact wf_add_push hW (Or.inr rfl) hLfc hfreshk


/-!
The match loop: opposite-side helpers, the price-time-priority refinement
target, and the loop simulation.
-/

/-- The side opposite the aggressor, as `match` resolves its book chain. -/
def oppSide : Side → Side
  | Side.BUY => Side.SELL
  | _ => Side.BUY

theorem oppSide_valid {side : Side} (hs : side = Side.BUY ∨ side = Side.SELL) :
    oppSide side = Side.BUY ∨ oppSide side = Side.SELL := by
  rcases hs with h | h <;> subst h
  · exact Or.inr rfl
  · exact Or.inl rfl

theorem oppSide_ne {side : Side} (hs : side = Side.BUY ∨ side = Side.SELL) :
    oppSide side ≠ side := by
  rcases hs with h | h <;> subst h <;> intro hcon <;> exact Side.noConfusion hcon

theorem oppChain_chainOf (b : OrderBook) {side : Side}
    (hs : side = Side.BUY ∨ side = Side.SELL) :
    b.oppChain side = b.chainOf (oppSide side) := by
  rcases hs with h | h <;> subst h <;> rfl

theorem setOppHead_eq (b : OrderBook) {side : Side}
    (hs : side = Side.BUY ∨ side = Side.SELL)
    {best : PriceLevel} {rest : List PriceLevel} (hof : b.oppChain side = best :: rest)
    (M : PriceLevel) :
    b.setOppHead side M = b.setChain (oppSide side) (M :: rest) := by
  rcases hs with h | h <;> subst h
  · have ha : b.asks_ = best :: rest := hof
    show { b with asks_ := replaceHead b.asks_ M } = { b with asks_ := M :: rest }
    rw [ha]
    rfl
  · have hb : b.bids_ = best :: rest := hof
    show { b with bids_ := replaceHead b.bids_ M } = { b with bids_ := M :: rest }
    rw [hb]
    rfl

/-- Replacing one level's queue by a well-formed queue whose live slots carry
the same keys at the same indices preserves the book invariants. -/
theorem wf_set_queue {b : OrderBook} (hW : WF b) {s : Side} {i : Nat} {L : PriceLevel}
    (hs : s = Side.BUY ∨ s = Side.SELL) (hL : (b.chainOf s)[i]? = some L)
    {q2 : OrderQueue} (hQ2 : QWF q2) (hne : liveOrders q2 ≠ [])
    (hsame : ∀ (j : Nat) (o : BasicOrder), q2.orders_[j]? = some o →
      o.deleted_ = false → ∃ o0, L.orders.orders_[j]? = some o0 ∧
        o0.deleted_ = false ∧ o0.orderId_ = o.orderId_ ∧ o0.clientId_ = o.clientId_) :
    WF (b.setLevel s i { L with orders := q2 }) := by
  have hcoherq : ∀ (j2 : Nat) (o2 : BasicOrder), q2.orders_[j2]? = some o2 →
      o2.deleted_ = false →
      ∃ ord, lookupOrder b.clientOrders_ (o2.clientId_, o2.orderId_) = some ord ∧
        ord.position_ = { logicalIndex_ := j2, offsetAtInsert_ := 0 } ∧
        ord.price_ = L.price_ ∧ ord.side_ = L.side_ ∧
        ord.clientId_ = o2.clientId_ ∧ ord.clientOrderId_ = o2.orderId_ := by
    intro j2 o2 ho2 hlive2
    obtain ⟨o0, ho0, ho0live, ho0id, ho0cl⟩ := hsame j2 o2 ho2 hlive2
    have hmem : L ∈ b.bids_ ++ b.asks_ :=
      chain_mem_concat hs (List.mem_iff_getElem?.mpr ⟨i, hL⟩)
    obtain ⟨ord, hlk, hp1, hp2, hp3, hp4, hp5⟩ := hW.coher L hmem j2 o0 ho0 ho0live
    rw [ho0cl, ho0id] at hlk
    rw [ho0cl] at hp4
    rw [ho0id] at hp5
    exact ⟨ord, hlk, hp1, hp2, hp3, hp4, hp5⟩
  rcases hs with h | h <;> subst h
  · have hLb : b.bids_[i]? = some L := by simpa [OrderBook.chainOf] using hL
    have hilt : i < b.bids_.length := (List.getElem?_eq_some_iff.mp hLb).1
    show WF { b with bids_ := b.bids_.set i { L with orders := q2 } }
    refine ⟨?_, ?_, ?_, ?_, ?_, ?_, ?_, ?_, ?_⟩
    · intro x hx
      rcases List.mem_or_eq_of_mem_set hx with hx2 | hx2
      · exact hW.bidSides x hx2
      · rw [hx2]
        exact hW.bidSides L (List.mem_iff_getElem?.mpr ⟨i, hLb⟩)
    · exact hW.askSides
    · exact pairwise_isBetter_setq _ hLb hW.bidSorted
    · exact hW.askSorted
    · rw [List.map_append, map_idx_setq _ hLb, ← List.map_append]
      exact hW.idxNodup
    · intro x hx
      rcases List.mem_append.mp hx with hxb | hxa
      · rcases List.mem_or_eq_of_mem_set hxb with hx2 | hx2
        · exact hW.qwf x (List.mem_append.mpr (Or.inl hx2))
        · rw [hx2]
          exact hQ2
      · exact hW.qwf x (List.mem_append.mpr (Or.inr hxa))
    · intro x hx
      rcases List.mem_append.mp hx with hxb | hxa
      · rcases List.mem_or_eq_of_mem_set hxb with hx2 | hx2
        · exact hW.nonEmpty x (List.mem_append.mpr (Or.inl hx2))
        · rw [hx2]
          exact hne
      · exact hW.nonEmpty x (List.mem_append.mpr (Or.inr hxa))
    · intro x hx j2 o2 ho2 hlive2
      rcases List.mem_append.mp hx with hxb | hxa
      · rcases List.mem_iff_getElem?.mp hxb with ⟨p, hp⟩
        by_cases hpi : i = p
        · subst hpi
          rw [List.getElem?_set_self hilt] at hp
          have hx3 : x = { L with orders := q2 } := (Option.some.inj hp).symm
          subst hx3
          exact hcoherq j2 o2 ho2 hlive2
        · rw [List.getElem?_set_ne hpi] at hp
          have hm2 : x ∈ b.bids_ ++ b.asks_ :=
            List.mem_append.mpr (Or.inl (List.mem_iff_getElem?.mpr ⟨p, hp⟩))
          exact hW.coher x hm2 j2 o2 ho2 hlive2
      · have hm2 : x ∈ b.bids_ ++ b.asks_ := List.mem_append.mpr (Or.inr hxa)
        exact hW.coher x hm2 j2 o2 ho2 hlive2
    · exact hW.keysNodup
  · have hLa : b.asks_[i]? = some L := by simpa [OrderBook.chainOf] using hL
    have hilt : i < b.asks_.length := (List.getElem?_eq_some_iff.mp hLa).1
    show WF { b with asks_ := b.asks_.set i { L with orders := q2 } }
    refine ⟨?_, ?_, ?_, ?_, ?_, ?_, ?_, ?_, ?_⟩
    · exact hW.bidSides
    · intro x hx
      rcases List.mem_or_eq_of_mem_set hx with hx2 | hx2
      · exact hW.askSides x hx2
      · rw [hx2]
        exact hW.askSides L (List.mem_iff_getElem?.mpr ⟨i, hLa⟩)
    · exact hW.bidSorted
    · exact pairwise_isBetter_setq _ hLa hW.askSorted
    · rw [List.map_append, map_idx_setq _ hLa, ← List.map_append]
      exact hW.idxNodup
    · intro x hx
      rcases List.mem_append.mp hx with hxb | hxa
      · exact hW.qwf x (List.mem_append.mpr (Or.inl hxb))
      · rcases List.mem_or_eq_of_mem_set hxa with hx2 | hx2
        · exact hW.qwf x (List.mem_append.mpr (Or.inr hx2))
        · rw [hx2]
          exact hQ2
    · intro x hx
      rcases List.mem_append.mp hx with hxb | hxa
      · exact hW.nonEmpty x (List.mem_append.mpr (Or.inl hxb))
      · rcases List.mem_or_eq_of_mem_set hxa with hx2 | hx2
        · exact hW.nonEmpty x (List.mem_append.mpr (Or.inr hx2))
        · rw [hx2]
          exact hne
    · intro x hx j2 o2 ho2 hlive2
      rcases List.mem_append.mp hx with hxb | hxa
      · have hm2 : x ∈ b.bids_ ++ b.asks_ := List.mem_append.mpr (Or.inl hxb)
        exact hW.coher x hm2 j2 o2 ho2 hlive2
      · rcases List.mem_iff_getElem?.mp hxa with ⟨p, hp⟩
        by_cases hpi : i = p
        · subst hpi
          rw [List.getElem?_set_self hilt] at hp
          have hx3 : x = { L with orders := q2 } := (Option.some.inj hp).symm
          subst hx3
          exact hcoherq j2 o2 ho2 hlive2
        · rw [List.getElem?_set_ne hpi] at hp
          have hm2 : x ∈ b.bids_ ++ b.asks_ :=
            List.mem_append.mpr (Or.inr (List.mem_iff_getElem?.mpr ⟨p, hp⟩))
          exact hW.coher x hm2 j2 o2 ho2 hlive2
    · exact hW.keysNodup

/-- The price-time-priority consumption sequence: the live resting orders of
the opposite chain's matchable prefix, best level first and FIFO within a
level, each tagged with its level's price and side.  This is the refinement
target the spec's priority discipline describes. -/
def priorityFlat (b : OrderBook) (side : Side) (price : Int) :
    List (Int × Side × BasicOrder) :=
  ((b.oppChain side).takeWhile (fun L => L.isMatchable price)).flatMap
    (fun L => (liveOrders L.orders).map (fun o => (L.price_, L.side_, o)))

/-- Greedy consumption of the priority sequence, mirroring the match loop's
record emission: trade `min(remaining, resting)` at the resting level's
price, stop on exhausted quantity or the event cap. -/
def consumeRecords (clientId orderId : Nat) (aggSide : Side) :
    List (Int × Side × BasicOrder) → Nat → Nat → List MatchResult
  | [], _, _ => []
  | e :: rest, remaining, cnt =>
      if remaining ≠ 0 ∧ cnt < MAX_MATCH_EVENTS then
        { incomingOrderId_ := orderId, matchedOrderId_ := e.2.2.orderId_,
          price_ := e.1, quantity_ := min remaining e.2.2.qty_,
          matchedOrderRemainingQty_ := e.2.2.qty_ - min remaining e.2.2.qty_,
          incomingClientId_ := clientId, matchedClientId_ := e.2.2.clientId_,
          incomingOrderSide_ := aggSide, matchedOrderSide_ := e.2.1 } ::
          consumeRecords clientId orderId aggSide rest
            (remaining - min remaining e.2.2.qty_) (cnt + 1)
      else []

theorem consumeRecords_stop (c oid : Nat) (s : Side)
    (l : List (Int × Side × BasicOrder)) (rem cnt : Nat)
    (h : rem = 0 ∨ ¬ cnt < MAX_MATCH_EVENTS) :
    consumeRecords c oid s l rem cnt = [] := by
  cases l with
  | nil => rfl
  | cons e r =>
      rw [consumeRecords, if_neg]
      intro hcon
      rcases h with h | h
      · exact hcon.1 h
      · exact h hcon.2

theorem priorityFlat_nil {b : OrderBook} {side : Side} {price : Int}
    (h : b.oppChain side = []) : priorityFlat b side price = [] := by
  unfold priorityFlat
  rw [h]
  rfl

theorem priorityFlat_stop {b : OrderBook} {side : Side} {price : Int}
    {best : PriceLevel} {rest : List PriceLevel}
    (h : b.oppChain side = best :: rest) (hm : best.isMatchable price = false) :
    priorityFlat b side price = [] := by
  unfold priorityFlat
  rw [h, List.takeWhile_cons, hm]
  rfl

theorem priorityFlat_cons {b : OrderBook} {side : Side} {price : Int}
    {best : PriceLevel} {rest : List PriceLevel}
    (h : b.oppChain side = best :: rest) (hm : best.isMatchable price = true) :
    priorityFlat b side price =
      (liveOrders best.orders).map (fun o => (best.price_, best.side_, o)) ++
        (rest.takeWhile (fun L => L.isMatchable price)).flatMap
          (fun L => (liveOrders L.orders).map (fun o => (L.price_, L.side_, o))) := by
  unfold priorityFlat
  rw [h, List.takeWhile_cons, hm]
  simp


theorem consumeRecords_nil (c oid : Nat) (s : Side) (rem cnt : Nat) :
    consumeRecords c oid s [] rem cnt = [] := rfl

/-- Simulation of the match loop: on a well-formed book the loop is total
(no null dereference), preserves the invariants, and appends to the
accumulator exactly the greedy price-time-priority consumption of the
opposite chain. -/
theorem matchLoop_records :
    ∀ (fuel : Nat) (b : OrderBook), WF b →
      ∀ (clientId orderId : Nat) (side : Side) (price : Int)
        (remaining matchCount : Nat) (acc : List MatchResult),
        (side = Side.BUY ∨ side = Side.SELL) →
        matchCount + fuel = MAX_MATCH_EVENTS →
        ∃ b2 rem2 cnt2,
          b.matchLoop clientId orderId side price remaining matchCount fuel acc =
            some (b2, rem2, cnt2,
              acc ++ consumeRecords clientId orderId side
                (priorityFlat b side price) remaining matchCount) ∧ WF b2 := by
  intro fuel
  induction fuel with
  | zero =>
      intro b hW clientId orderId side price remaining matchCount acc hs hfc
      refine ⟨b, remaining, matchCount, ?_, hW⟩
      cases hopp : b.oppChain side with
      | nil =>
          rw [OrderBook.matchLoop]
          simp only [hopp]
          rw [priorityFlat_nil hopp, consumeRecords_nil, List.append_nil]
      | cons best rest =>
          have hng : ¬ (remaining ≠ 0 ∧ best.isMatchable price = true ∧
              matchCount < MAX_MATCH_EVENTS) := by
            intro h
            have := h.2.2
            omega
          rw [OrderBook.matchLoop]
          simp only [hopp]
          rw [if_neg hng,
            consumeRecords_stop clientId orderId side _ remaining matchCount
              (Or.inr (by omega)), List.append_nil]
  | succ f ih =>
      intro b hW clientId orderId side price remaining matchCount acc hs hfc
      cases hopp : b.oppChain side with
      | nil =>
          refine ⟨b, remaining, matchCount, ?_, hW⟩
          rw [OrderBook.matchLoop]
          simp only [hopp]
          rw [priorityFlat_nil hopp, consumeRecords_nil, List.append_nil]
      | cons best rest =>
          by_cases hguard : remaining ≠ 0 ∧ best.isMatchable price = true ∧
              matchCount < MAX_MATCH_EVENTS
          · obtain ⟨hrem0, hmatch, hcnt⟩ := hguard
            have hs2 := oppSide_valid hs
            have hchain : b.chainOf (oppSide side) = best :: rest := by
              rw [← oppChain_chainOf b hs]
              exact hopp
            have hbest0 : (b.chainOf (oppSide side))[0]? = some best := by
              rw [hchain]
              exact List.getElem?_cons_zero
            have hmem : best ∈ b.bids_ ++ b.asks_ := by
              apply chain_mem_concat hs2
              rw [hchain]
              exact List.mem_cons_self best rest
            have hQb := hW.qwf best hmem
            obtain ⟨mo, los, hlo⟩ : ∃ mo los, liveOrders best.orders = mo :: los := by
              cases h : liveOrders best.orders with
              | nil => exact absurd h (hW.nonEmpty best hmem)
              | cons a as => exact ⟨a, as, rfl⟩
            obtain ⟨hfr, hh1le, hh1lt, hslot, hmolive, hprefix, hlos⟩ :=
              front_spec best.orders hQb mo los hlo
            obtain ⟨h1, hh1⟩ :
                ∃ n, n = firstLiveIdx best.orders.orders_ best.orders.head_ := ⟨_, rfl⟩
            rw [← hh1] at hfr hh1le hh1lt hslot hprefix hlos
            have hQq2 : QWF { best.orders with
                orders_ := best.orders.orders_.set h1
                  { mo with qty_ := mo.qty_ - min remaining mo.qty_ },
                head_ := h1 } := by
              obtain ⟨htl, hoff, hhd, hpre, hsz⟩ := hQb
              refine ⟨?_, hoff, ?_, ?_, ?_⟩
              · show best.orders.tail_ = (best.orders.orders_.set h1
                  { mo with qty_ := mo.qty_ - min remaining mo.qty_ }).length
                rw [List.length_set]
                exact htl
              · show h1 ≤ (best.orders.orders_.set h1
                  { mo with qty_ := mo.qty_ - min remaining mo.qty_ }).length
                rw [List.length_set]
                omega
              · intro p x hp hx
                have hp2 : p < h1 := hp
                have hx2 : (best.orders.orders_.set h1
                    { mo with qty_ := mo.qty_ - min remaining mo.qty_ })[p]? =
                    some x := hx
                rw [List.getElem?_set_ne (by omega)] at hx2
                exact hprefix p x hp2 hx2
              · show best.orders.size_ = _
                have hlen : (liveOrders { best.orders with
                    orders_ := best.orders.orders_.set h1
                      { mo with qty_ := mo.qty_ - min remaining mo.qty_ },
                    head_ := h1 }).length = 1 +
                    ((best.orders.orders_.drop (h1 + 1)).filter
                      (fun x => !x.deleted_)).length := by
                  unfold liveOrders
                  show ((best.orders.orders_.set h1
                    { mo with qty_ := mo.qty_ - min remaining mo.qty_ }).filter
                      (fun x => !x.deleted_)).length = _
                  rw [filter_set_decomp best.orders.orders_ h1 _ hh1lt hprefix]
                  have hdel : ({ mo with
                      qty_ := mo.qty_ - min remaining mo.qty_ } : BasicOrder).deleted_ =
                      false := hmolive
                  rw [hdel]
                  simp
                  omega
                rw [hlen, hsz, hlo, ← hlos]
                simp only [List.length_cons]
                omega
            have hq2livene : liveOrders { best.orders with
                orders_ := best.orders.orders_.set h1
                  { mo with qty_ := mo.qty_ - min remaining mo.qty_ },
                head_ := h1 } ≠ [] := by
              unfold liveOrders
              show (best.orders.orders_.set h1
                { mo with qty_ := mo.qty_ - min remaining mo.qty_ }).filter
                  (fun x => !x.deleted_) ≠ []
              rw [filter_set_decomp best.orders.orders_ h1 _ hh1lt hprefix]
              have hdel : ({ mo with
                  qty_ := mo.qty_ - min remaining mo.qty_ } : BasicOrder).deleted_ =
                  false := hmolive
              rw [hdel]
              simp
            obtain ⟨q2, hq2⟩ : ∃ x, x = ({ best.orders with
                orders_ := best.orders.orders_.set h1
                  { mo with qty_ := mo.qty_ - min remaining mo.qty_ },
                head_ := h1 } : OrderQueue) := ⟨_, rfl⟩
            have hsetq : queueSetQty { best.orders with head_ := h1 } h1
                (mo.qty_ - min remaining mo.qty_) = q2 := by
              have hslot2 : ({ best.orders with head_ := h1 } : OrderQueue).orders_[h1]? =
                  some mo := hslot
              rw [hq2]
              exact queueSetQty_effect _ h1 _ mo hslot2
            rw [← hq2] at hQq2 hq2livene
            have hq2slots : q2.orders_ = best.orders.orders_.set h1
                { mo with qty_ := mo.qty_ - min remaining mo.qty_ } := by rw [hq2]
            obtain ⟨b1, hb1⟩ : ∃ x, x = b.setOppHead side { best with orders := q2 } :=
              ⟨_, rfl⟩
            have hb1chainEq : b1 =
                b.setChain (oppSide side) ({ best with orders := q2 } :: rest) := by
              rw [hb1]
              exact setOppHead_eq b hs hopp _
            have hWb1 : WF b1 := by
              rw [hb1chainEq]
              have hsetlv : b.setChain (oppSide side) ({ best with orders := q2 } :: rest) =
                  b.setLevel (oppSide side) 0 { best with orders := q2 } := by
                unfold OrderBook.setLevel
                rw [hchain]
                rfl
              rw [hsetlv]
              apply wf_set_queue hW hs2 hbest0 hQq2 hq2livene
              intro j o ho hlivej
              rw [hq2slots] at ho
              by_cases hj : h1 = j
              · subst hj
                rw [List.getElem?_set_self hh1lt] at ho
                have ho3 : o = { mo with qty_ := mo.qty_ - min remaining mo.qty_ } :=
                  (Option.some.inj ho).symm
                subst ho3
                exact ⟨mo, hslot, hmolive, rfl, rfl⟩
              · rw [List.getElem?_set_ne hj] at ho
                exact ⟨o, ho, hlivej, rfl, rfl⟩
            have hb1chain : b1.chainOf (oppSide side) =
                { best with orders := q2 } :: rest := by
              rw [hb1chainEq]
              exact chainOf_setChain_same b _ _
            have hPFb : priorityFlat b side price = (best.price_, best.side_, mo) ::
                (los.map (fun o => (best.price_, best.side_, o)) ++
                  (rest.takeWhile (fun L => L.isMatchable price)).flatMap
                    (fun L => (liveOrders L.orders).map
                      (fun o => (L.price_, L.side_, o)))) := by
              rw [priorityFlat_cons hopp hmatch, hlo]
              simp
            obtain ⟨R, hR⟩ : ∃ r, r = ({
                incomingOrderId_ := orderId,
                matchedOrderId_ := mo.orderId_, price_ := best.price_,
                quantity_ := min remaining mo.qty_,
                matchedOrderRemainingQty_ := mo.qty_ - min remaining mo.qty_,
                incomingClientId_ := clientId, matchedClientId_ := mo.clientId_,
                incomingOrderSide_ := side, matchedOrderSide_ := best.side_ } :
                  MatchResult) := ⟨_, rfl⟩
            have hloopstep : b.matchLoop clientId orderId side price remaining
                matchCount (f + 1) acc =
                (if mo.qty_ - min remaining mo.qty_ = 0 then
                  match b1.removeOrder mo.clientId_ mo.orderId_ with
                  | none => none
                  | some b3 =>
                      b3.matchLoop clientId orderId side price
                        (remaining - min remaining mo.qty_) (matchCount + 1) f
                        (acc ++ [R])
                else
                  b1.matchLoop clientId orderId side price
                    (remaining - min remaining mo.qty_) (matchCount + 1) f
                    (acc ++ [R])) := by
              rw [OrderBook.matchLoop]
              simp only [hopp]
              rw [if_pos ⟨hrem0, hmatch, hcnt⟩]
              simp only [hfr]
              simp only [hsetq, ← hb1, hR]
            by_cases hz : mo.qty_ - min remaining mo.qty_ = 0
            · -- full fill: the resting order is removed
              have hL1pos : (b1.chainOf (oppSide side))[0]? =
                  some { best with orders := q2 } := by
                rw [hb1chain]
                exact List.getElem?_cons_zero
              have hslotL1 : ({ best with orders := q2 } : PriceLevel).orders.orders_[h1]? =
                  some { mo with qty_ := mo.qty_ - min remaining mo.qty_ } := by
                show q2.orders_[h1]? = _
                rw [hq2slots]
                exact List.getElem?_set_self hh1lt
              have hmo2live : ({ mo with
                  qty_ := mo.qty_ - min remaining mo.qty_ } : BasicOrder).deleted_ =
                  false := hmolive
              obtain ⟨b3, hrm, hWb3, hcl3, hin3, hoth3, hdie3, hsurv3⟩ :=
                removeOrder_step hWb1 hs2 hL1pos hslotL1 hmo2live
              have hrm2 : b1.removeOrder mo.clientId_ mo.orderId_ = some b3 := hrm
              have hlivel1 : liveOrders ({ best with orders := q2 } : PriceLevel).orders =
                  { mo with qty_ := mo.qty_ - min remaining mo.qty_ } :: los := by
                show liveOrders q2 = _
                rw [hq2]
                unfold liveOrders
                show (best.orders.orders_.set h1
                  { mo with qty_ := mo.qty_ - min remaining mo.qty_ }).filter
                    (fun x => !x.deleted_) = _
                rw [filter_set_decomp best.orders.orders_ h1 _ hh1lt hprefix]
                rw [show ({ mo with
                    qty_ := mo.qty_ - min remaining mo.qty_ } : BasicOrder).deleted_ =
                    false from hmolive]
                rw [← hlos]
                simp
              have hPF : priorityFlat b side price =
                  (best.price_, best.side_, mo) :: priorityFlat b3 side price := by
                cases hlos0 : los with
                | nil =>
                    have hlen1 : (liveOrders
                        ({ best with orders := q2 } : PriceLevel).orders).length = 1 := by
                      rw [hlivel1, hlos0]
                      rfl
                    have h3chain := hdie3 hlen1
                    rw [hb1chain] at h3chain
                    have hopp3 : b3.oppChain side = rest := by
                      rw [oppChain_chainOf b3 hs, h3chain]
                      rfl
                    rw [hPFb, hlos0]
                    unfold priorityFlat
                    rw [hopp3]
                    simp
                | cons a as =>
                    have hlenne : (liveOrders
                        ({ best with orders := q2 } : PriceLevel).orders).length ≠ 1 := by
                      rw [hlivel1, hlos0]
                      simp
                    have h3chain := hsurv3 hlenne
                    rw [hb1chain] at h3chain
                    have hopp3 : b3.oppChain side =
                        { { best with orders := q2 } with orders :=
                          { ({ best with orders := q2 } : PriceLevel).orders with
                            orders_ := ({ best with orders := q2 } :
                                PriceLevel).orders.orders_.set h1
                              { { mo with qty_ := mo.qty_ - min remaining mo.qty_ } with
                                deleted_ := true },
                            size_ := ({ best with orders := q2 } :
                                PriceLevel).orders.size_ - 1 } } :: rest := by
                      rw [oppChain_chainOf b3 hs, h3chain]
                      rfl
                    have hq3live : liveOrders
                        ({ ({ best with orders := q2 } : PriceLevel).orders with
                          orders_ := ({ best with orders := q2 } :
                              PriceLevel).orders.orders_.set h1
                            { { mo with qty_ := mo.qty_ - min remaining mo.qty_ } with
                              deleted_ := true },
                          size_ := ({ best with orders := q2 } :
                              PriceLevel).orders.size_ - 1 } : OrderQueue) = los := by
                      unfold liveOrders
                      show ((q2.orders_.set h1
                        { { mo with qty_ := mo.qty_ - min remaining mo.qty_ } with
                          deleted_ := true }).filter (fun x => !x.deleted_)) = los
                      rw [hq2slots, List.set_set]
                      rw [filter_set_decomp best.orders.orders_ h1 _ hh1lt hprefix]
                      rw [← hlos]
                      simp
                    rw [hPFb]
                    have hm3 : ({ { best with orders := q2 } with orders :=
                        { ({ best with orders := q2 } : PriceLevel).orders with
                          orders_ := ({ best with orders := q2 } :
                              PriceLevel).orders.orders_.set h1
                            { { mo with qty_ := mo.qty_ - min remaining mo.qty_ } with
                              deleted_ := true },
                          size_ := ({ best with orders := q2 } :
                              PriceLevel).orders.size_ - 1 } } :
                        PriceLevel).isMatchable price = true := hmatch
                    rw [priorityFlat_cons hopp3 hm3, hq3live]
              obtain ⟨b2, rem2, cnt2, hcall, hWb2⟩ :=
                ih b3 hWb3 clientId orderId side price
                  (remaining - min remaining mo.qty_) (matchCount + 1) (acc ++ [R]) hs
                  (by omega)
              refine ⟨b2, rem2, cnt2, ?_, hWb2⟩
              rw [hloopstep, if_pos hz]
              simp only [hrm2]
              rw [hcall]
              have hconsume : consumeRecords clientId orderId side
                  (priorityFlat b side price) remaining matchCount =
                  R :: consumeRecords clientId orderId side
                    (priorityFlat b3 side price)
                    (remaining - min remaining mo.qty_) (matchCount + 1) := by
                rw [hPF, consumeRecords, if_pos]
                · rw [hR]
                · exact ⟨hrem0, hcnt⟩
              rw [hconsume]
              simp
            · -- partial fill: the aggressor is exhausted
              have hmin : min remaining mo.qty_ = remaining := by
                rcases Nat.le_total remaining mo.qty_ with h | h
                · exact Nat.min_eq_left h
                · exfalso
                  apply hz
                  rw [Nat.min_eq_right h]
                  omega
              have hrem20 : remaining - min remaining mo.qty_ = 0 := by
                rw [hmin]
                omega
              obtain ⟨b2, rem2, cnt2, hcall, hWb2⟩ :=
                ih b1 hWb1 clientId orderId side price
                  (remaining - min remaining mo.qty_) (matchCount + 1) (acc ++ [R]) hs
                  (by omega)
              refine ⟨b2, rem2, cnt2, ?_, hWb2⟩
              rw [hloopstep, if_neg hz, hcall]
              rw [consumeRecords_stop clientId orderId side _ _ _ (Or.inl hrem20)]
              have hc0 : consumeRecords clientId orderId side
                  (priorityFlat b side price) remaining matchCount = [R] := by
                rw [hPFb, consumeRecords, if_pos]
                · rw [consumeRecords_stop clientId orderId side _ _ _ (Or.inl hrem20), hR]
                · exact ⟨hrem0, hcnt⟩
              rw [hc0]
              simp
          · refine ⟨b, remaining, matchCount, ?_, hW⟩
            rw [OrderBook.matchLoop]
            simp only [hopp]
            rw [if_neg hguard]
            by_cases hm : best.isMatchable price = true
            · have hstop : remaining = 0 ∨ ¬ matchCount < MAX_MATCH_EVENTS := by
                by_cases h0 : remaining = 0
                · exact Or.inl h0
                · refine Or.inr ?_
                  intro hlt
                  exact hguard ⟨h0, hm, hlt⟩
              rw [consumeRecords_stop clientId orderId side _ remaining matchCount hstop,
                List.append_nil]
            · rw [priorityFlat_stop hopp (Bool.eq_false_iff.mpr hm), consumeRecords_nil,
                List.append_nil]


/-- `matchOrder` on a well-formed book returns, preserves the invariants,
and its record list is exactly the greedy priority consumption. -/
theorem matchOrder_records (b : OrderBook) (hW : WF b) (clientId orderId : Nat)
    (side : Side) (hs : side = Side.BUY ∨ side = Side.SELL) (price : Int)
    (qty : Nat) :
    ∃ b2 rset, b.matchOrder clientId orderId side price qty = some (b2, rset) ∧
      WF b2 ∧ rset.matches_ =
        consumeRecords clientId orderId side (priorityFlat b side price) qty 0 := by
  obtain ⟨b2, rem2, cnt2, hloop, hWb2⟩ :=
    matchLoop_records MAX_MATCH_EVENTS b hW clientId orderId side price qty 0 [] hs
      (by omega)
  unfold OrderBook.matchOrder
  simp only [hloop]
  refine ⟨b2, _, rfl, hWb2, ?_⟩
  simp

/-- Books reachable through the public interface under the documented caller
protocol: definite side, fresh key and nonzero quantity on `addOrder`, a
resting id on `removeOrder`, a definite side on `match`. -/
inductive ReachableBook : OrderBook → Prop where
  | init : ∀ instrument : Nat, ReachableBook { instrument_ := instrument }
  | addStep : ∀ b clientId clientOrderId marketOrderId side price quantity,
      ReachableBook b → addOK b clientId clientOrderId side price quantity →
      ReachableBook
        (b.addOrder clientId clientOrderId marketOrderId side price quantity)
  | removeStep : ∀ b clientId orderId b2, ReachableBook b →
      liveKeyAt b clientId orderId → b.removeOrder clientId orderId = some b2 →
      ReachableBook b2
  | matchStep : ∀ b clientId orderId side price quantity b2 rset, ReachableBook b →
      (side = Side.BUY ∨ side = Side.SELL) →
      b.matchOrder clientId orderId side price quantity = some (b2, rset) →
      ReachableBook b2

/-- Every reachable book satisfies the invariants. -/
theorem reach_wf {b : OrderBook} (hR : ReachableBook b) : WF b := by
  induction hR with
  | init instrument => exact wf_empty instrument
  | addStep b c coid moid side price qty _ hok ihW => exact addOrder_wf ihW hok
  | removeStep b c oid b2 _ hkey hrm ihW =>
      obtain ⟨s, i, L, j, o, hs, hL, ho, holive, hcl, hoid⟩ := hkey
      obtain ⟨b3, hrm2, hWb3, _, _, _, _, _⟩ := removeOrder_step ihW hs hL ho holive
      rw [hcl, hoid, hrm] at hrm2
      rw [Option.some.inj hrm2]
      exact hWb3
  | matchStep b c oid side price qty b2 rset _ hs hm ihW =>
      obtain ⟨b3, rset3, hm2, hWb3, _⟩ := matchOrder_records b ihW c oid side hs price qty
      rw [hm] at hm2
      have hpair := Option.some.inj hm2
      have hb : b2 = b3 := congrArg Prod.fst hpair
      rw [hb]
      exact hWb3


/-- Claim C5: in every book state reachable through the public operations,
each side's chain walked from the best pointer via `next_` is strictly
sorted by `isBetter` (prices strictly worsen), and the best level, when
non-null, strictly beats every other active level of its side (highest bid,
lowest ask). -/
theorem c5_chain_sorted_best (b : OrderBook) (hR : ReachableBook b) :
    b.bids_.Pairwise (fun x y => x.isBetter y = true) ∧
    b.asks_.Pairwise (fun x y => x.isBetter y = true) ∧
    (∀ best rest, b.bids_ = best :: rest → ∀ L ∈ rest, best.price_ > L.price_) ∧
    (∀ best rest, b.asks_ = best :: rest → ∀ L ∈ rest, best.price_ < L.price_) := by
  have hW := reach_wf hR
  refine ⟨hW.bidSorted, hW.askSorted, ?_, ?_⟩
  · intro best rest hb L hL
    have hs0 := hW.bidSorted
    rw [hb] at hs0
    have h1 := (List.pairwise_cons.mp hs0).1 L hL
    have hside : best.side_ = Side.BUY := by
      apply hW.bidSides
      rw [hb]
      exact List.mem_cons_self best rest
    unfold PriceLevel.isBetter at h1
    rw [hside] at h1
    simp at h1
    exact h1
  · intro best rest ha L hL
    have hs0 := hW.askSorted
    rw [ha] at hs0
    have h1 := (List.pairwise_cons.mp hs0).1 L hL
    have hside : best.side_ = Side.SELL := by
      apply hW.askSides
      rw [ha]
      exact List.mem_cons_self best rest
    unfold PriceLevel.isBetter at h1
    rw [hside] at h1
    have hni : ¬ (Side.SELL = Side.BUY) := by decide
    rw [if_neg hni] at h1
    simp at h1
    exact h1

/-- A one-level book used by the C5 witness. -/
def c5Book1 : OrderBook := OrderBook.addOrder { instrument_ := 7 } 1 10 10 Side.BUY 100 5

/-- A two-bid-level book used by the C5 witness. -/
def c5WitnessBook : OrderBook := OrderBook.addOrder c5Book1 1 11 11 Side.BUY 90 5

/-- Witness for `c5_chain_sorted_best`: the book holding bids at 100 and 90,
reached by two protocol-respecting `addOrder` calls from the fresh book. -/
theorem c5_witness :
    ReachableBook c5WitnessBook ∧
      (c5WitnessBook.bids_.Pairwise (fun x y => x.isBetter y = true) ∧
        c5WitnessBook.asks_.Pairwise (fun x y => x.isBetter y = true) ∧
        (∀ best rest, c5WitnessBook.bids_ = best :: rest →
          ∀ L ∈ rest, best.price_ > L.price_) ∧
        (∀ best rest, c5WitnessBook.asks_ = best :: rest →
          ∀ L ∈ rest, best.price_ < L.price_)) := by
  have hr : ReachableBook c5WitnessBook :=
    ReachableBook.addStep c5Book1 1 11 11 Side.BUY 90 5
      (ReachableBook.addStep { instrument_ := 7 } 1 10 10 Side.BUY 100 5
        (ReachableBook.init 7) (by unfold addOK; decide))
      (by unfold addOK; decide)
  exact ⟨hr, c5_chain_sorted_best c5WitnessBook hr⟩

/-- Every emitted record but possibly the last fully fills its resting
order: a record followed by another has zero remaining quantity. -/
theorem consumeRecords_full_before_next :
    ∀ (l : List (Int × Side × BasicOrder)) (c oid : Nat) (s : Side) (rem cnt : Nat)
      (i : Nat) (r r2 : MatchResult),
      (consumeRecords c oid s l rem cnt)[i]? = some r →
      (consumeRecords c oid s l rem cnt)[i + 1]? = some r2 →
      r.matchedOrderRemainingQty_ = 0 := by
  intro l
  induction l with
  | nil =>
      intro c oid s rem cnt i r r2 h1 _
      rw [consumeRecords_nil] at h1
      simp at h1
  | cons e rest ih =>
      intro c oid s rem cnt i r r2 h1 h2
      rw [consumeRecords] at h1 h2
      by_cases hg : rem ≠ 0 ∧ cnt < MAX_MATCH_EVENTS
      · rw [if_pos hg] at h1 h2
        cases i with
        | zero =>
            simp only [List.getElem?_cons_zero, Option.some.injEq] at h1
            simp only [List.getElem?_cons_succ] at h2
            have hne : rem - min rem e.2.2.qty_ ≠ 0 := by
              intro h0
              rw [consumeRecords_stop c oid s rest _ (cnt + 1) (Or.inl h0)] at h2
              simp at h2
            have hmq : min rem e.2.2.qty_ = e.2.2.qty_ := by
              rcases Nat.le_total rem e.2.2.qty_ with h | h
              · exfalso
                apply hne
                rw [Nat.min_eq_left h]
                omega
              · exact Nat.min_eq_right h
            rw [← h1]
            show e.2.2.qty_ - min rem e.2.2.qty_ = 0
            rw [hmq]
            omega
        | succ i2 =>
            simp only [List.getElem?_cons_succ] at h1 h2
            exact ih c oid s _ _ i2 r r2 h1 h2
      · rw [if_neg hg] at h1
        simp at h1

/-- Every emitted record's price and resting side come from its sequence
element. -/
theorem consumeRecords_price_mem :
    ∀ (l : List (Int × Side × BasicOrder)) (c oid : Nat) (s : Side) (rem cnt : Nat),
      ∀ r ∈ consumeRecords c oid s l rem cnt,
        ∃ e, e ∈ l ∧ r.price_ = e.1 ∧ r.matchedOrderSide_ = e.2.1 := by
  intro l
  induction l with
  | nil =>
      intro c oid s rem cnt r hr
      rw [consumeRecords_nil] at hr
      exact absurd hr (List.not_mem_nil r)
  | cons e rest ih =>
      intro c oid s rem cnt r hr
      rw [consumeRecords] at hr
      by_cases hg : rem ≠ 0 ∧ cnt < MAX_MATCH_EVENTS
      · rw [if_pos hg] at hr
        rcases List.mem_cons.mp hr with h | h
        · refine ⟨e, List.mem_cons_self e rest, ?_, ?_⟩
          · rw [h]
          · rw [h]
        · obtain ⟨e2, he2, hp, hsd⟩ := ih c oid s _ _ r h
          exact ⟨e2, List.mem_cons_of_mem e he2, hp, hsd⟩
      · rw [if_neg hg] at hr
        exact absurd hr (List.not_mem_nil r)

/-- Every element of the priority sequence names a matchable level of the
opposite chain. -/
theorem priorityFlat_mem {b : OrderBook} {side : Side} {price : Int} :
    ∀ e ∈ priorityFlat b side price,
      ∃ L, L ∈ b.oppChain side ∧ L.isMatchable price = true ∧ e.1 = L.price_ ∧
        e.2.1 = L.side_ := by
  intro e he
  unfold priorityFlat at he
  rcases List.mem_flatMap.mp he with ⟨L, hL, he2⟩
  rcases List.mem_map.mp he2 with ⟨o, ho, heq⟩
  subst heq
  have hmem : L ∈ b.oppChain side := List.takeWhile_subset _ hL
  have hmat := List.mem_takeWhile_imp hL
  exact ⟨L, hmem, hmat, rfl, rfl⟩


/-- Claim C1: on a book satisfying the invariants, `match` consumes resting
orders in strict price priority then FIFO within a level.  The call returns;
its record list is exactly the greedy consumption, in order, of the opposite
chain's matchable prefix flattened best level first and in queue (insertion)
order within a level; the first record is against the front live order of the
best opposite level, at that level's price; every record followed by another
leaves its resting order fully filled (zero remaining), so an earlier
same-price order fully matches before a later one begins; and every record's
price and resting side are those of a matchable resting opposite level —
never the aggressor's limit price unless a resting level carries it. -/
theorem c1_price_time_priority (b : OrderBook) (hW : WF b) (clientId orderId : Nat)
    (side : Side) (hs : side = Side.BUY ∨ side = Side.SELL) (price : Int)
    (qty : Nat) :
    ∃ b2 rset, b.matchOrder clientId orderId side price qty = some (b2, rset) ∧
      rset.matches_ =
        consumeRecords clientId orderId side (priorityFlat b side price) qty 0 ∧
      (∀ best rest, b.oppChain side = best :: rest →
        ∀ r rs, rset.matches_ = r :: rs →
          r.price_ = best.price_ ∧
          ∀ mo los, liveOrders best.orders = mo :: los →
            r.matchedOrderId_ = mo.orderId_ ∧ r.matchedClientId_ = mo.clientId_) ∧
      (∀ i r r2, rset.matches_[i]? = some r → rset.matches_[i + 1]? = some r2 →
        r.matchedOrderRemainingQty_ = 0) ∧
      (∀ r ∈ rset.matches_, ∃ L, L ∈ b.oppChain side ∧
        L.isMatchable price = true ∧ r.price_ = L.price_ ∧
        r.matchedOrderSide_ = L.side_) := by
  obtain ⟨b2, rset, hm, hWb2, hrec⟩ :=
    matchOrder_records b hW clientId orderId side hs price qty
  refine ⟨b2, rset, hm, hrec, ?_, ?_, ?_⟩
  · intro best rest hoppc r rs hmatches
    have hs2 := oppSide_valid hs
    have hchain : b.chainOf (oppSide side) = best :: rest := by
      rw [← oppChain_chainOf b hs]
      exact hoppc
    have hmem : best ∈ b.bids_ ++ b.asks_ := by
      apply chain_mem_concat hs2
      rw [hchain]
      exact List.mem_cons_self best rest
    obtain ⟨mo0, los0, hlo0⟩ : ∃ mo los, liveOrders best.orders = mo :: los := by
      cases h : liveOrders best.orders with
      | nil => exact absurd h (hW.nonEmpty best hmem)
      | cons a as => exact ⟨a, as, rfl⟩
    by_cases hmb : best.isMatchable price = true
    · have hPFb : priorityFlat b side price =
          (best.price_, best.side_, mo0) ::
            (los0.map (fun o => (best.price_, best.side_, o)) ++
              (rest.takeWhile (fun L => L.isMatchable price)).flatMap
                (fun L => (liveOrders L.orders).map
                  (fun o => (L.price_, L.side_, o)))) := by
        rw [priorityFlat_cons hoppc hmb, hlo0]
        rfl
      rw [hrec, hPFb, consumeRecords] at hmatches
      by_cases hg : qty ≠ 0 ∧ 0 < MAX_MATCH_EVENTS
      · rw [if_pos hg] at hmatches
        injection hmatches with hr0 htl
        constructor
        · rw [← hr0]
        · intro mo los hlo1
          rw [hlo0] at hlo1
          injection hlo1 with hmoeq hlos
          constructor
          · rw [← hr0, ← hmoeq]
          · rw [← hr0, ← hmoeq]
      · rw [if_neg hg] at hmatches
        exact List.noConfusion hmatches
    · have hmb2 : best.isMatchable price = false := Bool.eq_false_iff.mpr hmb
      have hPF0 : priorityFlat b side price = [] := priorityFlat_stop hoppc hmb2
      rw [hrec, hPF0, consumeRecords_nil] at hmatches
      exact List.noConfusion hmatches
  · intro i r r2 h1 h2
    rw [hrec] at h1 h2
    exact consumeRecords_full_before_next _ clientId orderId side qty 0 i r r2 h1 h2
  · intro r hr
    rw [hrec] at hr
    obtain ⟨e, he, hp, hsd⟩ :=
      consumeRecords_price_mem _ clientId orderId side qty 0 r hr
    obtain ⟨L, hLmem, hLm, hep, hes⟩ := priorityFlat_mem e he
    refine ⟨L, hLmem, hLm, ?_, ?_⟩
    · rw [hp, hep]
    · rw [hsd, hes]

/-- A two-ask-level book (asks at 100 and 105) used by the C1 witness. -/
def c1WitnessBook : OrderBook :=
  OrderBook.addOrder (OrderBook.addOrder { instrument_ := 3 } 1 21 21 Side.SELL 100 5)
    1 22 22 Side.SELL 105 5

/-- Witness for `c1_price_time_priority`: an aggressive buy at 105 for 7 on
a book with asks resting at 100 and 105. -/
theorem c1_witness :
    WF c1WitnessBook ∧ (Side.BUY = Side.BUY ∨ Side.BUY = Side.SELL) ∧
      (∃ b2 rset, c1WitnessBook.matchOrder 2 31 Side.BUY 105 7 = some (b2, rset) ∧
        rset.matches_ =
          consumeRecords 2 31 Side.BUY (priorityFlat c1WitnessBook Side.BUY 105) 7 0 ∧
        (∀ best rest, c1WitnessBook.oppChain Side.BUY = best :: rest →
          ∀ r rs, rset.matches_ = r :: rs →
            r.price_ = best.price_ ∧
            ∀ mo los, liveOrders best.orders = mo :: los →
              r.matchedOrderId_ = mo.orderId_ ∧ r.matchedClientId_ = mo.clientId_) ∧
        (∀ i r r2, rset.matches_[i]? = some r → rset.matches_[i + 1]? = some r2 →
          r.matchedOrderRemainingQty_ = 0) ∧
        (∀ r ∈ rset.matches_, ∃ L, L ∈ c1WitnessBook.oppChain Side.BUY ∧
          L.isMatchable 105 = true ∧ r.price_ = L.price_ ∧
          r.matchedOrderSide_ = L.side_)) := by
  have hwf : WF c1WitnessBook :=
    addOrder_wf (addOrder_wf (wf_empty 3) (by unfold addOK; decide))
      (by unfold addOK; decide)
  exact ⟨hwf, Or.inl rfl,
    c1_price_time_priority c1WitnessBook hwf 2 31 Side.BUY (Or.inl rfl) 105 7⟩

end Stockex
